import Mathlib

/-!
Verification of the ConnectedGroupsGoban core (src/main.go) against its
natural-language specification.

The Go program is stringly typed: board cells and territory-map entries are
the strings "." (empty), "B" (black), "W" (white) and "?" (undecided).  We
embed that value space as the inductive type `Cell`.  Boards are total maps
from integer coordinates to cells; the Go code carries the slice bounds
`sizeX`, `sizeY` separately and bounds-checks exactly where the embedded
functions do, so out-of-range reads never occur on the paths we model.

Go's recursive depth-first searches terminate because every recursive level
inserts a fresh in-bounds cell into the shared `visited` map.  The embedded
searches thread `visited` explicitly and take a fuel argument bounding the
recursion depth; the top-level wrappers supply `sizeX * sizeY + 1` fuel,
which the correctness lemmas prove sufficient.
-/

namespace CGG


/-- Embeds the Go cell/owner values: the string constants `empty = "."`,
`black = "B"`, `white = "W"` and the territory literal `"?"`. -/
inductive Cell : Type
  | empty
  | black
  | white
  | undecided
deriving DecidableEq, Repr

/-- Embeds `switchPlayer` from src/main.go: returns white when the argument
is black and black in every other case (the Go comparison is on strings, so
a non-black argument, even "." or "?", yields "B"). -/
def switchPlayer (player : Cell) : Cell :=
  if player = Cell.black then Cell.white else Cell.black

/-- Board positions are integer coordinate pairs (x, y); the Go code works
with `int` coordinates that may temporarily leave the board. -/
abbrev Pos := Int × Int

/-- Embeds the Go `[][]string` board as a total map from positions to cells.
The Go board is a value indexed as `board[y][x]`; we write `b (x, y)`. -/
abbrev Board := Pos → Cell

/-- Writes one cell of a board, the embedding of `board[y][x] = c` on a
board that is not aliased (the Go code always mutates a fresh
`copyBoard` result on the paths we model). -/
def setCell (b : Board) (p : Pos) (c : Cell) : Board :=
  fun q => if q = p then c else b q

/-- Embeds the bounds test `x < 0 || x >= sizeX || y < 0 || y >= sizeY`
that guards every neighbour access in src/main.go (negated). -/
def inB (sizeX sizeY : Nat) (p : Pos) : Bool :=
  0 ≤ p.1 && p.1 < (sizeX : Int) && 0 ≤ p.2 && p.2 < (sizeY : Int)

/-- Embeds the direction table `dirs = [][2]int that appears in every
flood fill of src/main.go: up, down, left, right, in that order.
A direction `d` is applied as `(x + d.1, y + d.2)`. -/
def dirs : List (Int × Int) := [(0, -1), (0, 1), (-1, 0), (1, 0)]

/-- The four orthogonal neighbours of a position, in the order the Go
loops visit them. -/
def nbrs (p : Pos) : List Pos := dirs.map fun d => (p.1 + d.1, p.2 + d.2)

/-! ### Record-format coordinate alphabet (claim C8) -/

/-- Embeds `charToInt` from src/main.go: maps `a`..`z` to 0..25 and
`A`..`Z` to 26..51; any other character is an error (the Go function
returns the sentinel 93 together with a non-nil error, which every caller
checks, so the error case is `none` here). -/
def charToInt (c : Char) : Option Int :=
  if 'a' ≤ c ∧ c ≤ 'z' then some ((c.toNat : Int) - 97)
  else if 'A' ≤ c ∧ c ≤ 'Z' then some ((c.toNat : Int) - 65 + 26)
  else none

/-- Embeds `intToChar` from src/main.go: maps 0..25 to `a`..`z` and
26..51 to `A`..`Z`; anything else is an error (`none` here, a Go error
value there). -/
def intToChar (n : Int) : Option Char :=
  if 0 ≤ n ∧ n ≤ 25 then some (Char.ofNat (97 + n.toNat))
  else if 26 ≤ n ∧ n ≤ 51 then some (Char.ofNat (65 + n.toNat - 26))
  else none

/-- The coordinate alphabet is exactly the set of characters that
`charToInt` accepts. -/
def inCoordAlphabet (c : Char) : Prop :=
  ('a' ≤ c ∧ c ≤ 'z') ∨ ('A' ≤ c ∧ c ≤ 'Z')

/-! ### GTP coordinate translation (claim C10) -/

/-- Embeds the Go string constants used for cells when rendering commands:
"." for empty, "B" for black, "W" for white, "?" for undecided. -/
def cellStr : Cell → String
  | Cell.empty => "."
  | Cell.black => "B"
  | Cell.white => "W"
  | Cell.undecided => "?"

/-- Embeds clientToGTPCoords from src/main.go: the letter alphabet is the
25-rune string "ABCDEFGHJKLMNOPQRSTUVWXYZ" (I is skipped); a column index
outside 0..24 produces the empty string; the row number counts from the far
edge as sizeY - y. -/
def clientToGTPCoords (sizeY : Nat) (x y : Int) : String :=
  let letterRunes := "ABCDEFGHJKLMNOPQRSTUVWXYZ".toList
  if x < 0 ∨ (letterRunes.length : Int) ≤ x then ""
  else
    let letter := String.mk [letterRunes.getD x.toNat 'A']
    letter ++ toString ((sizeY : Int) - y)

/-- Embeds the play command built by the stone-replay loop of the engine
attach sequence in src/main.go: the Go format string "play %s %s" applied
to the stone string and the translated coordinate. -/
def enginePlayCommand (sizeY : Nat) (stone : Cell) (x y : Int) : String :=
  "play " ++ cellStr stone ++ " " ++ clientToGTPCoords sizeY x y

/-! ### Rules engine: the recursive searches of src/main.go -/

/-- Embeds the recursive liberty search `dfs` of src/main.go.  The Go
function shares one mutable visited map across the whole search; here the
map is threaded through the four sequential neighbour calls, in the order
of the Go direction table.  `fuel` bounds the recursion depth;
`hasLiberty` supplies `sizeX * sizeY + 1`, which the lemmas below prove
is enough because every level of the Go recursion adds a fresh in-bounds
cell to the visited map. -/
def dfsGo (sizeX sizeY : Nat) (board : Board) (player : Cell) :
    Nat → Pos → Finset Pos → Bool × Finset Pos
  | 0, _, visited => (false, visited)
  | fuel + 1, p, visited =>
    if ¬ inB sizeX sizeY p then (false, visited)
    else if p ∈ visited then (false, visited)
    else if board p = Cell.empty then (true, visited)
    else if board p ≠ player then (false, visited)
    else
      let v0 := insert p visited
      let r1 := dfsGo sizeX sizeY board player fuel (p.1, p.2 - 1) v0
      if r1.1 then r1 else
      let r2 := dfsGo sizeX sizeY board player fuel (p.1, p.2 + 1) r1.2
      if r2.1 then r2 else
      let r3 := dfsGo sizeX sizeY board player fuel (p.1 - 1, p.2) r2.2
      if r3.1 then r3 else
      dfsGo sizeX sizeY board player fuel (p.1 + 1, p.2) r3.2

/-- Embeds hasLiberty from src/main.go: runs the DFS from the given cell
with a fresh visited map. -/
def hasLiberty (sizeX sizeY : Nat) (board : Board) (p : Pos) (player : Cell) : Bool :=
  (dfsGo sizeX sizeY board player (sizeX * sizeY + 1) p ∅).1

/-- Embeds the recursive groupDFS of src/main.go, which only marks the
connected same-colour group in the visited map. -/
def groupDFSGo (sizeX sizeY : Nat) (board : Board) (player : Cell) :
    Nat → Pos → Finset Pos → Finset Pos
  | 0, _, visited => visited
  | fuel + 1, p, visited =>
    if ¬ inB sizeX sizeY p then visited
    else if p ∈ visited then visited
    else if board p ≠ player then visited
    else
      let v0 := insert p visited
      let v1 := groupDFSGo sizeX sizeY board player fuel (p.1, p.2 - 1) v0
      let v2 := groupDFSGo sizeX sizeY board player fuel (p.1, p.2 + 1) v1
      let v3 := groupDFSGo sizeX sizeY board player fuel (p.1 - 1, p.2) v2
      groupDFSGo sizeX sizeY board player fuel (p.1 + 1, p.2) v3

/-- Embeds getGroupSize from src/main.go: the size of the visited map
after a groupDFS from a fresh map. -/
def getGroupSize (sizeX sizeY : Nat) (board : Board) (p : Pos) (player : Cell) : Nat :=
  (groupDFSGo sizeX sizeY board player (sizeX * sizeY + 1) p ∅).card

/-- Embeds the recursive removeDFS of src/main.go: marks the group and
clears its cells to empty as it walks; the board and the visited map are
threaded together. -/
def removeDFSGo (sizeX sizeY : Nat) (player : Cell) :
    Nat → Pos → Board × Finset Pos → Board × Finset Pos
  | 0, _, st => st
  | fuel + 1, p, st =>
    if ¬ inB sizeX sizeY p then st
    else if p ∈ st.2 then st
    else if st.1 p ≠ player then st
    else
      let st0 := (setCell st.1 p Cell.empty, insert p st.2)
      let st1 := removeDFSGo sizeX sizeY player fuel (p.1, p.2 - 1) st0
      let st2 := removeDFSGo sizeX sizeY player fuel (p.1, p.2 + 1) st1
      let st3 := removeDFSGo sizeX sizeY player fuel (p.1 - 1, p.2) st2
      removeDFSGo sizeX sizeY player fuel (p.1 + 1, p.2) st3

/-- Embeds removeGroup from src/main.go; the count it returns in Go is
unused by every caller we model, so only the board is kept. -/
def removeGroup (sizeX sizeY : Nat) (board : Board) (p : Pos) (player : Cell) : Board :=
  (removeDFSGo sizeX sizeY player (sizeX * sizeY + 1) p (board, ∅)).1

/-- Embeds getCapturedStones from src/main.go: the in-bounds neighbours of
p that hold the opponent colour and whose group has no liberty on the
given, already placed, board. -/
def getCapturedStones (sizeX sizeY : Nat) (board : Board) (p : Pos) (opponent : Cell) :
    List Pos :=
  (nbrs p).filter fun q =>
    inB sizeX sizeY q && decide (board q = opponent) &&
      ! hasLiberty sizeX sizeY board q opponent

/-- Embeds isMoveLegal from src/main.go: reject the ko point, place the
stone on a copy of the board, and accept iff the placement captures at
least one adjacent opponent stone or the placed stone itself still finds a
liberty. -/
def isMoveLegal (sizeX sizeY : Nat) (board : Board) (koX koY : Int) (p : Pos)
    (player : Cell) : Bool :=
  if p.1 = koX ∧ p.2 = koY then false
  else
    let boardCopy := setCell board p player
    let captured := getCapturedStones sizeX sizeY boardCopy p (switchPlayer player)
    if 0 < captured.length then true
    else hasLiberty sizeX sizeY boardCopy p player

/-- One directional step of the capture loop in captureStones from
src/main.go: if the neighbour in direction d is in bounds, currently holds
the opponent colour and its group has no liberty on the current board, the
group size and location are recorded and the group is removed. -/
def captureStep (sizeX sizeY : Nat) (p : Pos) (opponent : Cell)
    (st : Board × List Nat × List Pos) (d : Int × Int) : Board × List Nat × List Pos :=
  let q := (p.1 + d.1, p.2 + d.2)
  if ¬ inB sizeX sizeY q then st
  else if st.1 q = opponent ∧ ¬ hasLiberty sizeX sizeY st.1 q opponent then
    (removeGroup sizeX sizeY st.1 q opponent,
      st.2.1 ++ [getGroupSize sizeX sizeY st.1 q opponent],
      st.2.2 ++ [q])
  else st

/-- Embeds captureStones from src/main.go, which every caller invokes
right after writing `player` at p on a fresh board copy.  The four
directions are processed in order, each captured opponent group being
measured on the current board and then removed from it; then the
defensive suicide removal runs; finally the ko point is computed.
Returns the final board together with the returned Go pair (koX, koY). -/
def captureStones (sizeX sizeY : Nat) (board : Board) (p : Pos) (player : Cell) :
    Board × Int × Int :=
  let opponent := switchPlayer player
  let st := dirs.foldl (captureStep sizeX sizeY p opponent) (board, [], [])
  let b1 := if ¬ hasLiberty sizeX sizeY st.1 p player
    then removeGroup sizeX sizeY st.1 p player else st.1
  match st.2.1, st.2.2 with
  | [capturedGroupSize], [c] =>
    if capturedGroupSize = 1 ∧ getGroupSize sizeX sizeY b1 p player = 1 then
      (b1, c.1, c.2)
    else (b1, -1, -1)
  | _, _ => (b1, -1, -1)

/-! ### Specification-side connectivity notions -/

/-- The finset of in-bounds positions, used to measure the progress of the
Go searches (each level of recursion visits one more of them). -/
def boundsFinset (sizeX sizeY : Nat) : Finset Pos :=
  (Finset.range sizeX ×ˢ Finset.range sizeY).image fun ab => ((ab.1 : Int), (ab.2 : Int))

/-- Number of in-bounds cells not yet visited; the measure that shrinks at
every level of the Go searches. -/
def unexplored (sizeX sizeY : Nat) (v : Finset Pos) : Nat :=
  (boundsFinset sizeX sizeY \ v).card

/-- q is one of the four orthogonal neighbours of p. -/
def Adj (p q : Pos) : Prop := q ∈ nbrs p

/-- Paths along which the Go liberty search can succeed from p when the
visited map holds v: either p itself is an in-bounds unvisited empty cell,
or p is an in-bounds unvisited stone of the player colour adjacent to a
cell from which the search succeeds once p is marked. -/
inductive LibPath (sizeX sizeY : Nat) (board : Board) (player : Cell) :
    Finset Pos → Pos → Prop
  | found (v : Finset Pos) (p : Pos) (hb : inB sizeX sizeY p = true)
      (hv : p ∉ v) (he : board p = Cell.empty) :
      LibPath sizeX sizeY board player v p
  | step (v : Finset Pos) (p q : Pos) (hb : inB sizeX sizeY p = true)
      (hv : p ∉ v) (hp : board p = player) (ha : Adj p q)
      (hnext : LibPath sizeX sizeY board player (insert p v) q) :
      LibPath sizeX sizeY board player v p

/-- Saturation of a failed search relative to its starting map: every cell
the search added is an in-bounds player stone, none of its in-bounds
neighbours is empty, and all of its in-bounds player neighbours are in the
output map. -/
def Saturated (sizeX sizeY : Nat) (board : Board) (player : Cell)
    (vOut vIn : Finset Pos) : Prop :=
  ∀ w ∈ vOut \ vIn, inB sizeX sizeY w = true ∧ board w = player ∧
    ∀ q ∈ nbrs w, inB sizeX sizeY q = true →
      board q ≠ Cell.empty ∧ (board q = player → q ∈ vOut)

/-- Every cell of a visited map holds the player colour; an invariant of
the liberty search, whose marks happen only after the colour checks. -/
def AllPlayer (board : Board) (player : Cell) (v : Finset Pos) : Prop :=
  ∀ w ∈ v, board w = player

/-- One step of same-colour connectivity used by the specification: both
endpoints in bounds, both of the player colour, orthogonally adjacent. -/
def GStep (sizeX sizeY : Nat) (board : Board) (player : Cell) (a b : Pos) : Prop :=
  inB sizeX sizeY a = true ∧ inB sizeX sizeY b = true ∧
    board a = player ∧ board b = player ∧ Adj a b

/-- The specification-side connected-group relation (flood fill over
same-colour, 4-connected cells): reflexive-transitive closure of GStep. -/
def InGroup (sizeX sizeY : Nat) (board : Board) (player : Cell) (p q : Pos) : Prop :=
  Relation.ReflTransGen (GStep sizeX sizeY board player) p q

/-- The specification-side liberty notion: some stone of the connected
group containing p is adjacent to an in-bounds empty cell. -/
def GroupHasLiberty (sizeX sizeY : Nat) (board : Board) (player : Cell) (p : Pos) : Prop :=
  ∃ q r, InGroup sizeX sizeY board player p q ∧ Adj q r ∧
    inB sizeX sizeY r = true ∧ board r = Cell.empty

/-- Walks of the specification: a chain of in-bounds player stones outside
v starting at p and passing through the cells of l, whose final stone is
adjacent to the in-bounds empty cell r. -/
def LWalk (sizeX sizeY : Nat) (board : Board) (player : Cell)
    (v : Finset Pos) : Pos → List Pos → Pos → Prop
  | p, [], r => inB sizeX sizeY p = true ∧ board p = player ∧ p ∉ v ∧
      Adj p r ∧ inB sizeX sizeY r = true ∧ board r = Cell.empty
  | p, q :: l, r => inB sizeX sizeY p = true ∧ board p = player ∧ p ∉ v ∧
      Adj p q ∧ LWalk sizeX sizeY board player v q l r

/-- The legality condition exactly as claim C1 words it: the point is not
the ko point, and on the scratch board with the stone placed, either some
adjacent opponent group has zero liberties or the placed stone's own group
has at least one liberty. -/
def LegalSpec (sizeX sizeY : Nat) (board : Board) (koX koY : Int) (p : Pos)
    (player : Cell) : Prop :=
  ¬ (p.1 = koX ∧ p.2 = koY) ∧
    ((∃ q, Adj p q ∧ inB sizeX sizeY q = true ∧
        setCell board p player q = switchPlayer player ∧
        ¬ GroupHasLiberty sizeX sizeY (setCell board p player) (switchPlayer player) q) ∨
      GroupHasLiberty sizeX sizeY (setCell board p player) player p)

/-- The concrete board of the specification ko scenario: a single white
stone at (1,1) surrounded by black at (0,1), (2,1), (1,0) on a 3 by 3
board. -/
def koScenarioBoard : Board := fun p =>
  if p = (1, 1) then Cell.white
  else if p = (0, 1) then Cell.black
  else if p = (2, 1) then Cell.black
  else if p = (1, 0) then Cell.black
  else Cell.empty

/-! ### Characterisation of groupDFS (group membership and sizes) -/

/-- Walks of same-colour stones avoiding a visited map: GPath v p l q says
the chain p :: l consists of in-bounds player stones outside v, with
consecutive cells adjacent, and ends at q. -/
def GPath (sizeX sizeY : Nat) (board : Board) (player : Cell)
    (v : Finset Pos) : Pos → List Pos → Pos → Prop
  | p, [], q => p = q ∧ inB sizeX sizeY p = true ∧ board p = player ∧ p ∉ v
  | p, a :: l, q => inB sizeX sizeY p = true ∧ board p = player ∧ p ∉ v ∧
      Adj p a ∧ GPath sizeX sizeY board player v a l q

/-- Reachability through fresh player stones. -/
def ReachAvoid (sizeX sizeY : Nat) (board : Board) (player : Cell)
    (v : Finset Pos) (p q : Pos) : Prop :=
  ∃ l, GPath sizeX sizeY board player v p l q

/-- Saturation for the group search: every newly marked cell is an
in-bounds player stone all of whose in-bounds player neighbours are
marked. -/
def SaturatedG (sizeX sizeY : Nat) (board : Board) (player : Cell)
    (vOut vIn : Finset Pos) : Prop :=
  ∀ w ∈ vOut \ vIn, inB sizeX sizeY w = true ∧ board w = player ∧
    ∀ q ∈ nbrs w, inB sizeX sizeY q = true → board q = player → q ∈ vOut

/-- Invariant of the capture loop after processing the directions of D:
the recorded coordinates are first-encountered representatives of the
distinct captured opponent groups seen so far, the board is the pristine
board with exactly those groups emptied, each recorded size is 1 exactly
when its group is a singleton, and every captured neighbour in a processed
direction belongs to a recorded group. -/
def CapturedInv (sizeX sizeY : Nat) (bZ : Board) (p : Pos) (opp : Cell)
    (D : List (Int × Int)) (st : Board × List Nat × List Pos) : Prop :=
  (∀ q, (∃ c ∈ st.2.2, InGroup sizeX sizeY bZ opp c q) → st.1 q = Cell.empty) ∧
  (∀ q, (∀ c ∈ st.2.2, ¬ InGroup sizeX sizeY bZ opp c q) → st.1 q = bZ q) ∧
  (∀ c ∈ st.2.2, Adj p c ∧ inB sizeX sizeY c = true ∧ bZ c = opp ∧
    ¬ GroupHasLiberty sizeX sizeY bZ opp c) ∧
  st.2.2.Pairwise (fun c cc => ¬ InGroup sizeX sizeY bZ opp c cc) ∧
  List.Forall₂ (fun s c => s = 1 ↔ ∀ w, InGroup sizeX sizeY bZ opp c w → w = c)
    st.2.1 st.2.2 ∧
  (∀ d ∈ D, inB sizeX sizeY (p.1 + d.1, p.2 + d.2) = true →
    bZ (p.1 + d.1, p.2 + d.2) = opp →
    ¬ GroupHasLiberty sizeX sizeY bZ opp (p.1 + d.1, p.2 + d.2) →
    ∃ c ∈ st.2.2, InGroup sizeX sizeY bZ opp c (p.1 + d.1, p.2 + d.2))

/-- The ko condition exactly as claim C2 words it, located at c: c is an
in-bounds neighbour of the placed stone holding the opponent colour whose
group has zero liberties (a captured group), that group is the singleton
of c (size 1), every captured neighbour is c itself (exactly one opponent
group was captured), and on the resulting board (the board with the single
captured stone cleared) the capturing stone's own group is the singleton
of p (size 1). -/
def KoSpec (sizeX sizeY : Nat) (board : Board) (p : Pos) (player : Cell)
    (c : Pos) : Prop :=
  Adj p c ∧ inB sizeX sizeY c = true ∧ board c = switchPlayer player ∧
  ¬ GroupHasLiberty sizeX sizeY board (switchPlayer player) c ∧
  (∀ w, InGroup sizeX sizeY board (switchPlayer player) c w → w = c) ∧
  (∀ q, Adj p q → inB sizeX sizeY q = true → board q = switchPlayer player →
    ¬ GroupHasLiberty sizeX sizeY board (switchPlayer player) q → q = c) ∧
  (∀ w, InGroup sizeX sizeY (setCell board c Cell.empty) player p w → w = p)

/-- The ko-scenario board right after black plays at (1, 2). -/
def koCaptureBoard : Board := setCell koScenarioBoard (1, 2) Cell.black

/-! ### Game tree and handlePass (C9) -/

/-- Per-node data of a GameTreeNode: board, move, player to move
colour, and ko coordinates (Go fields boardState, move, player,
koX, koY). -/
structure NodeData where
  boardState : Board
  move : Pos
  player : Cell
  koX : Int
  koY : Int

/-- Game tree: a node's data together with its ordered children. -/
inductive GTree where
  | mk : NodeData → List GTree → GTree

/-- The data stored at the root of a tree. -/
def GTree.data : GTree → NodeData
  | .mk d _ => d

/-- The children of the root of a tree. -/
def GTree.children : GTree → List GTree
  | .mk _ c => c

/-- Fetch the node addressed by a path of child indices. -/
def getNode : GTree → List Nat → Option GTree
  | t, [] => some t
  | .mk _ cs, i :: rest =>
    match cs[i]? with
    | some c => getNode c rest
    | none => none

/-- Replace the i-th element of a list by applying f, as Go's in-place
update of a child slot. -/
def modifyChild : List GTree → Nat → (GTree → GTree) → List GTree
  | [], _, _ => []
  | c :: cs, 0, f => f c :: cs
  | c :: cs, i + 1, f => c :: modifyChild cs i f

/-- Append a new child at the node addressed by path (Go:
g.currentNode.children = append(g.currentNode.children, newNode)). -/
def appendAt : GTree → List Nat → GTree → GTree
  | .mk d cs, [], n => .mk d (cs ++ [n])
  | .mk d cs, i :: rest, n => .mk d (modifyChild cs i (fun c => appendAt c rest n))

/-- The data of the node created by handlePass: the parent board is
copied (copyBoard), the player switched, the move set to the pass
marker and the ko cleared (koX = koY = -1 from newGameTreeNode). -/
def passNode (cur : NodeData) : NodeData :=
  { boardState := cur.boardState
    move := (-1, -1)
    player := switchPlayer cur.player
    koX := -1
    koY := -1 }

/-- Go's handlePass on the pure tree state: create the pass node,
append it to the current node's children, and move the current-node
pointer to it. -/
def handlePass (t : GTree) (path : List Nat) : GTree × List Nat :=
  match getNode t path with
  | none => (t, path)
  | some cur =>
    (appendAt t path (GTree.mk (passNode cur.data) []),
     path ++ [cur.children.length])

/-- A one-node tree with an empty 1 by 1 board, used to witness C9. -/
def rootTree : GTree :=
  GTree.mk ⟨fun _ => Cell.empty, (-1, -1), Cell.white, -1, -1⟩ []

/-! ### Territory scoring: assignTerritoryToEmptyRegions (C4) and
toggleGroupStatus (C5) -/

/-- One direction step of the inner dirs loop of
assignTerritoryToEmptyRegions: an in-bounds unvisited empty neighbour
is pushed, otherwise if the territory-map value of the neighbour is a
colour it is recorded in adjacentStones. -/
def floodStep (sizeX sizeY : Nat) (board m : Board) (visited : Finset Pos)
    (c : Pos) (sa : List Pos × Finset Cell) (d : Int × Int) :
    List Pos × Finset Cell :=
  let n := (c.1 + d.1, c.2 + d.2)
  if inB sizeX sizeY n = true then
    if board n = Cell.empty ∧ n ∉ visited then (n :: sa.1, sa.2)
    else if m n = Cell.black ∨ m n = Cell.white then (sa.1, insert (m n) sa.2)
    else sa
  else sa

/-- The stack-based flood fill of one empty region
(assignTerritoryToEmptyRegions inner loop); the list is the stack with
its head as the Go slice's last element, and the result is the final
(visited, region, adjacentStones). -/
def floodLoop (sizeX sizeY : Nat) (board m : Board) :
    Nat → List Pos → Finset Pos → List Pos → Finset Cell →
    Finset Pos × List Pos × Finset Cell
  | 0, _, visited, region, adj => (visited, region, adj)
  | _ + 1, [], visited, region, adj => (visited, region, adj)
  | fuel + 1, c :: stack, visited, region, adj =>
    if c ∈ visited then floodLoop sizeX sizeY board m fuel stack visited region adj
    else
      let v' := insert c visited
      let sa := dirs.foldl (floodStep sizeX sizeY board m v' c) (stack, adj)
      floodLoop sizeX sizeY board m fuel sa.1 v' (region ++ [c]) sa.2

/-- The owner extracted from a singleton adjacentStones set (the Go
code iterates the one-entry map; only "B" and "W" are ever inserted). -/
def theOwner (adj : Finset Cell) : Cell :=
  if Cell.black ∈ adj then Cell.black
  else if Cell.white ∈ adj then Cell.white
  else Cell.undecided

/-- Writing the owner over every cell of the region. -/
def paintRegion (region : List Pos) (owner : Cell) (m : Board) : Board :=
  region.foldl (fun mm q => setCell mm q owner) m

/-- The body of the outer double loop of assignTerritoryToEmptyRegions
at scan position p: flood the region of p if p is empty and unvisited,
then assign the region to the unique adjacent colour or reset it to
undecided. -/
def assignRegion (sizeX sizeY : Nat) (board : Board)
    (st : Finset Pos × Board) (p : Pos) : Finset Pos × Board :=
  if board p = Cell.empty ∧ p ∉ st.1 then
    let r := floodLoop sizeX sizeY board st.2 (4 * (sizeX * sizeY) + 2) [p] st.1 [] ∅
    if r.2.2.card = 1 then (r.1, paintRegion r.2.1 (theOwner r.2.2) st.2)
    else (r.1, paintRegion r.2.1 Cell.undecided st.2)
  else st

/-- The row-major scan order of the outer double loop (y outer, x
inner). -/
def scanOrder (sizeX sizeY : Nat) : List Pos :=
  ((List.range sizeY).map fun y =>
    (List.range sizeX).map fun x => (Int.ofNat x, Int.ofNat y)).join

/-- Embeds assignTerritoryToEmptyRegions from src/main.go: flood every
unvisited empty region in scan order and assign it to the unique
adjacent colour recorded in adjacentStones, or to undecided. -/
def assignTerritoryToEmptyRegions (sizeX sizeY : Nat) (board m : Board) : Board :=
  ((scanOrder sizeX sizeY).foldl (assignRegion sizeX sizeY board) (∅, m)).2

/-- col is a bordering stone colour of p's empty region: some stone
cell adjacent to the region carries col in the territory map. -/
def BorderColor (sizeX sizeY : Nat) (board m : Board) (p : Pos) (col : Cell) : Prop :=
  (col = Cell.black ∨ col = Cell.white) ∧
  ∃ r q, InGroup sizeX sizeY board Cell.empty p r ∧ Adj r q ∧
    inB sizeX sizeY q = true ∧ board q ≠ Cell.empty ∧ m q = col

/-- The intended value of an empty cell after territory assignment: its
region's unique bordering colour, or undecided when the borders are
mixed or absent. -/
def TargetVal (sizeX sizeY : Nat) (board m : Board) (s : Pos) (val : Cell) : Prop :=
  (BorderColor sizeX sizeY board m s Cell.black ∧
    ¬ BorderColor sizeX sizeY board m s Cell.white ∧ val = Cell.black) ∨
  (BorderColor sizeX sizeY board m s Cell.white ∧
    ¬ BorderColor sizeX sizeY board m s Cell.black ∧ val = Cell.white) ∨
  ((BorderColor sizeX sizeY board m s Cell.black ↔
    BorderColor sizeX sizeY board m s Cell.white) ∧ val = Cell.undecided)

/-- Maps that can occur when assignTerritoryToEmptyRegions runs: an
empty cell is either still unowned or already carries its region's
unique bordering colour. -/
def RegionMap (sizeX sizeY : Nat) (board m : Board) : Prop :=
  ∀ p, inB sizeX sizeY p = true → board p = Cell.empty →
    m p = Cell.undecided ∨
    ((m p = Cell.black ∨ m p = Cell.white) ∧
      BorderColor sizeX sizeY board m p (m p) ∧
      ∀ col, BorderColor sizeX sizeY board m p col → col = m p)

/-- Invariant of the outer double loop of assignTerritoryToEmptyRegions
relative to the map m at entry: visited cells are in-bounds empty and
closed under empty adjacency, unvisited cells are unchanged, and
visited cells carry their target value. -/
def AssignInv (sizeX sizeY : Nat) (board m : Board)
    (st : Finset Pos × Board) : Prop :=
  (∀ w ∈ st.1, inB sizeX sizeY w = true ∧ board w = Cell.empty) ∧
  (∀ w ∈ st.1, ∀ n ∈ nbrs w, inB sizeX sizeY n = true → board n = Cell.empty →
    n ∈ st.1) ∧
  (∀ q, q ∉ st.1 → st.2 q = m q) ∧
  (∀ q ∈ st.1, TargetVal sizeX sizeY board m q (st.2 q))

/-- One direction step of the toggleGroupStatus dirs loop: push an
in-bounds unvisited neighbour whose stone is the original owner or
empty. -/
def togglePush (sizeX sizeY : Nat) (board : Board) (o : Cell) (v : Finset Pos)
    (c : Pos) (s : List Pos) (d : Int × Int) : List Pos :=
  let n := (c.1 + d.1, c.2 + d.2)
  if inB sizeX sizeY n = true then
    if n ∉ v ∧ (board n = o ∨ board n = Cell.empty) then n :: s else s
  else s

/-- The stack flood of toggleGroupStatus: pop, skip visited, mark, flip
the map at original-owner stones to the new owner, push qualifying
neighbours. -/
def toggleLoop (sizeX sizeY : Nat) (board : Board) (o newOwner : Cell) :
    Nat → List Pos → Finset Pos → Board → Finset Pos × Board
  | 0, _, visited, m => (visited, m)
  | _ + 1, [], visited, m => (visited, m)
  | fuel + 1, c :: stack, visited, m =>
    if c ∈ visited then toggleLoop sizeX sizeY board o newOwner fuel stack visited m
    else
      let v' := insert c visited
      let m' := if board c = o then setCell m c newOwner else m
      let stack' := dirs.foldl (togglePush sizeX sizeY board o v' c) stack
      toggleLoop sizeX sizeY board o newOwner fuel stack' v' m'

/-- Embeds toggleGroupStatus from src/main.go: flood from the clicked
stone through same-colour stones and empty cells, set every touched
stone of that colour to the switched owner of the seed's map value,
reset all empty cells to unowned, and re-run
assignTerritoryToEmptyRegions. -/
def toggleGroupStatus (sizeX sizeY : Nat) (board m : Board) (x y : Int) : Board :=
  let originalOwner := board (x, y)
  if originalOwner ≠ Cell.black ∧ originalOwner ≠ Cell.white then m
  else
    let newOwner := switchPlayer (m (x, y))
    let r := toggleLoop sizeX sizeY board originalOwner newOwner
      (4 * (sizeX * sizeY) + 2) [(x, y)] ∅ m
    let m2 : Board := fun q =>
      if inB sizeX sizeY q = true ∧ board q = Cell.empty then Cell.undecided
      else r.2 q
    assignTerritoryToEmptyRegions sizeX sizeY board m2

/-- A step of the toggle flood's connectivity: adjacent in-bounds cells
that are each either the original owner's colour or empty. -/
def TStep (sizeX sizeY : Nat) (board : Board) (o : Cell) (a b : Pos) : Prop :=
  inB sizeX sizeY a = true ∧ inB sizeX sizeY b = true ∧
    (board a = o ∨ board a = Cell.empty) ∧
    (board b = o ∨ board b = Cell.empty) ∧ Adj a b

/-- The toggled group of a seed: cells connected to it through
original-owner stones and empty cells. -/
def TConn (sizeX sizeY : Nat) (board : Board) (o : Cell) (p q : Pos) : Prop :=
  Relation.ReflTransGen (TStep sizeX sizeY board o) p q

/-- A 3 by 1 board: black stones at both ends of an empty middle. -/
def toggleBoardCE : Board := fun p =>
  if p = ((0 : Int), (0 : Int)) then Cell.black
  else if p = ((2 : Int), (0 : Int)) then Cell.black
  else Cell.empty

/-- A territory map for toggleBoardCE in which the two black stones
carry different owners. -/
def toggleMapCE : Board := fun p =>
  if p = ((0 : Int), (0 : Int)) then Cell.black
  else if p = ((2 : Int), (0 : Int)) then Cell.white
  else Cell.undecided

/-! ### SGF codec: parser (parseSGF, validateSGF and the SGFParser
methods), serializer (generateSGF) and game-tree rebuild
(initializeGameFromSGFTree, processMainLine, processSubtree,
processSequence) from src/main.go. The Go parser walks runes of a
string by index; here the remaining input is a list of characters.
ASCII structural characters are compared directly as Go does with
bytes. -/

/-- A parsed SGF node: its property map, as an association list with
insertion replacing an existing identifier (Go map assignment). -/
structure SGFNode where
  properties : List (String × List String)
deriving DecidableEq

/-- A parsed SGF game tree: a node sequence and its subtrees. -/
inductive SGFGameTree where
  | mk : List SGFNode → List SGFGameTree → SGFGameTree

/-- The node sequence of a parsed game tree. -/
def SGFGameTree.sequence : SGFGameTree → List SGFNode
  | .mk s _ => s

/-- The subtrees of a parsed game tree. -/
def SGFGameTree.subtrees : SGFGameTree → List SGFGameTree
  | .mk _ t => t

/-- Go map assignment properties[ident] = values on the association
list. -/
def propInsert (k : String) (v : List String) :
    List (String × List String) → List (String × List String)
  | [] => [(k, v)]
  | (k0, v0) :: rest =>
    if k0 = k then (k, v) :: rest else (k0, v0) :: propInsert k v rest

/-- Go map lookup properties[ident]. -/
def propLookup (k : String) : List (String × List String) → Option (List String)
  | [] => none
  | (k0, v0) :: rest => if k0 = k then some v0 else propLookup k rest

/-- The whitespace test of skipWhitespace in src/main.go. -/
def isWsChar (c : Char) : Bool :=
  c == ' ' || c == '\n' || c == '\r' || c == '\t'

/-- Embeds skipWhitespace from src/main.go. -/
def skipWs : List Char → List Char
  | [] => []
  | c :: cs => if isWsChar c then skipWs cs else c :: cs

/-- The uppercase-letter test isUpperCaseLetter (ASCII range). -/
def isUpperAZ (c : Char) : Bool :=
  decide ('A' ≤ c) && decide (c ≤ 'Z')

/-- Embeds the scanning loop of validateSGF from src/main.go: only
parentheses are counted; an early unmatched close or a leftover open
is an error (the Go messages quote the parenthesis characters). -/
def validateScan : List Char → Nat → Int → Option String
  | [], _, opens =>
    if opens ≠ 0 then some "unmatched open paren in SGF content" else none
  | c :: cs, i, opens =>
    if c = '(' then validateScan cs (i + 1) (opens + 1)
    else if c = ')' then
      if opens ≤ 0 then some ("unmatched close paren at index " ++ toString i)
      else validateScan cs (i + 1) (opens - 1)
    else validateScan cs (i + 1) opens

/-- Embeds validateSGF from src/main.go. -/
def validateSGF (s : String) : Option String :=
  validateScan s.toList 0 0

/-- Embeds parsePropValue from src/main.go (the opening bracket is
already consumed): collect characters until an unescaped close
bracket, unescaping backslash pairs; running out of input after a
backslash is an error, running out otherwise ends the value. -/
def parsePropValueGo : List Char → Except String (List Char × List Char)
  | [] => .ok ([], [])
  | c :: cs =>
    if c = ']' then .ok ([], cs)
    else if c = '\\' then
      match cs with
      | [] => .error "unexpected end of content after backslash"
      | e :: cs' =>
        match parsePropValueGo cs' with
        | .error msg => .error msg
        | .ok (v, rest) => .ok (e :: v, rest)
    else
      match parsePropValueGo cs with
      | .error msg => .error msg
      | .ok (v, rest) => .ok (c :: v, rest)

/-- The identifier loop of parseProperty: consume uppercase letters. -/
def parseIdentGo : List Char → List Char × List Char
  | [] => ([], [])
  | c :: cs =>
    if isUpperAZ c then
      let r := parseIdentGo cs
      (c :: r.1, r.2)
    else ([], c :: cs)

/-- The value loop of parseProperty: parse bracketed values while the
next character is an open bracket. -/
def parseValuesGo : Nat → List Char → Except String (List String × List Char)
  | 0, _ => .error "out of fuel"
  | _ + 1, [] => .ok ([], [])
  | fuel + 1, c :: cs =>
    if c = '[' then
      match parsePropValueGo cs with
      | .error m => .error m
      | .ok (v, rest) =>
        match parseValuesGo fuel rest with
        | .error m => .error m
        | .ok (vs, rest') => .ok (String.mk v :: vs, rest')
    else .ok ([], c :: cs)

/-- Embeds parseProperty from src/main.go. -/
def parsePropertyGo (fuel : Nat) (cs : List Char) :
    Except String (String × List String × List Char) :=
  let r := parseIdentGo cs
  match parseValuesGo fuel r.2 with
  | .error m => .error m
  | .ok (vs, rest) => .ok (String.mk r.1, vs, rest)

/-- The property loop of parseNode from src/main.go. -/
def parseNodeLoop : Nat → List Char → List (String × List String) →
    Except String (SGFNode × List Char)
  | 0, _, _ => .error "out of fuel"
  | fuel + 1, cs, props =>
    match skipWs cs with
    | [] => .ok (⟨props⟩, [])
    | c :: rest =>
      if isUpperAZ c then
        match parsePropertyGo fuel (c :: rest) with
        | .error m => .error m
        | .ok (id, vs, rest') => parseNodeLoop fuel rest' (propInsert id vs props)
      else .ok (⟨props⟩, c :: rest)

/-- Embeds parseNode from src/main.go: skip the semicolon, then read
properties while the next character is an uppercase letter. -/
def parseNodeGo (fuel : Nat) (cs : List Char) :
    Except String (SGFNode × List Char) :=
  parseNodeLoop fuel (cs.drop 1) []

/-- Embeds parseSequence from src/main.go: parse nodes while the next
character is a semicolon. -/
def parseSequenceGo : Nat → List Char → Except String (List SGFNode × List Char)
  | 0, _ => .error "out of fuel"
  | _ + 1, [] => .ok ([], [])
  | fuel + 1, c :: cs =>
    if c = ';' then
      match parseNodeGo fuel (c :: cs) with
      | .error m => .error m
      | .ok (n, rest) =>
        match parseSequenceGo fuel rest with
        | .error m => .error m
        | .ok (ns, rest') => .ok (n :: ns, rest')
    else .ok ([], c :: cs)

mutual

/-- Embeds parseGameTree from src/main.go (the opening parenthesis is
already consumed): parse the node sequence, then subtrees while an
open parenthesis follows, then expect the closing parenthesis. -/
def parseGameTreeGo : Nat → List Char → Except String (SGFGameTree × List Char)
  | 0, _ => .error "out of fuel"
  | fuel + 1, cs =>
    match parseSequenceGo fuel cs with
    | .error m => .error m
    | .ok (seq, cs1) =>
      match parseSubtreesGo fuel cs1 with
      | .error m => .error m
      | .ok (subs, cs2) =>
        match skipWs cs2 with
        | ')' :: rest => .ok (SGFGameTree.mk seq subs, rest)
        | _ :: _ => .error "expected close paren"
        | [] => .error "expected close paren at end of SGF, but reached end of content"

/-- The subtree loop of parseGameTree. -/
def parseSubtreesGo : Nat → List Char → Except String (List SGFGameTree × List Char)
  | 0, _ => .error "out of fuel"
  | fuel + 1, cs =>
    match skipWs cs with
    | '(' :: rest =>
      match parseGameTreeGo fuel rest with
      | .error m => .error m
      | .ok (t, rest') =>
        match parseSubtreesGo fuel rest' with
        | .error m => .error m
        | .ok (ts, rest'') => .ok (t :: ts, rest'')
    | other => .ok ([], other)

end

/-- Embeds parseCollection from src/main.go: while content remains,
skip whitespace and either parse a parenthesised game tree or drop one
character. -/
def parseCollectionGo : Nat → List Char → Except String (List SGFGameTree)
  | 0, _ => .error "out of fuel"
  | _ + 1, [] => .ok []
  | fuel + 1, c :: cs =>
    match skipWs (c :: cs) with
    | '(' :: rest =>
      match parseGameTreeGo fuel rest with
      | .error m => .error m
      | .ok (t, rest') =>
        match parseCollectionGo fuel rest' with
        | .error m => .error m
        | .ok ts => .ok (t :: ts)
    | _ :: rest => parseCollectionGo fuel rest
    | [] => .ok []

/-- Embeds parseSGF from src/main.go: the validation pass first, then
the recursive-descent parse of the collection. -/
def parseSGF (s : String) : Except String (List SGFGameTree) :=
  match validateSGF s with
  | some e => .error e
  | none =>
    match parseCollectionGo (16 * (s.toList.length + 4)) s.toList with
    | .error m => .error ("error parsing SGF: " ++ m)
    | .ok c => .ok c

/-- The GameTreeNode fields read and written by the SGF import and
export paths: board, move, player, ko, comment and the per-cell
annotation and setup markers. -/
structure ImpNode where
  boardState : Board
  move : Pos
  player : Cell
  koX : Int
  koY : Int
  comment : String
  addedBlack : Pos → Bool
  addedWhite : Pos → Bool
  AE : Pos → Bool
  CR : Pos → Bool
  SQ : Pos → Bool
  TR : Pos → Bool
  MA : Pos → Bool
  LB : Pos → Option String

/-- The rebuilt game tree. -/
inductive ImpTree where
  | mk : ImpNode → List ImpTree → ImpTree

/-- The node at the root of a rebuilt tree. -/
def ImpTree.data : ImpTree → ImpNode
  | .mk d _ => d

/-- The children of the root of a rebuilt tree. -/
def ImpTree.kids : ImpTree → List ImpTree
  | .mk _ k => k

/-- Fetch a node of a rebuilt tree by child indices. -/
def impGet : ImpTree → List Nat → Option ImpNode
  | t, [] => some t.data
  | .mk _ ks, i :: rest =>
    match ks[i]? with
    | some c => impGet c rest
    | none => none

/-- A fresh node as newGameTreeNode makes it: empty board, ko cleared,
zero move, no player, no marks. -/
def emptyImpNode : ImpNode :=
  { boardState := fun _ => Cell.empty
    move := (0, 0)
    player := Cell.empty
    koX := -1
    koY := -1
    comment := ""
    addedBlack := fun _ => false
    addedWhite := fun _ => false
    AE := fun _ => false
    CR := fun _ => false
    SQ := fun _ => false
    TR := fun _ => false
    MA := fun _ => false
    LB := fun _ => none }

/-- The game fields touched by importFromSGF: board dimensions, the
tree and the current-node pointer (as a path from the root). -/
structure GameState where
  sizeX : Int
  sizeY : Int
  rootNode : ImpTree
  currentPath : List Nat

/-- Embeds convertSGFCoordToXY from src/main.go: a two-character
coordinate decoded by charToInt, both axes in 0..51. -/
def convertSGFCoordToXY (coord : String) : Option (Int × Int) :=
  match coord.toList with
  | [c1, c2] =>
    match charToInt c1, charToInt c2 with
    | some x, some y =>
      if 0 ≤ x ∧ x < 52 ∧ 0 ≤ y ∧ y < 52 then some (x, y) else none
    | _, _ => none
  | _ => none

/-- Embeds createMoveFromCoord from src/main.go: an empty coordinate
is a pass, an invalid one is no move. -/
def createMoveFromCoord (coord : String) (player : Cell) :
    Option (Int × Int × Cell) :=
  if coord = "" then some (-1, -1, player)
  else
    match convertSGFCoordToXY coord with
    | some (x, y) => some (x, y, player)
    | none => none

/-- Split a label value at its first colon (strings.SplitN with limit
2), when a colon exists. -/
def splitColon2 : List Char → Option (List Char × List Char)
  | [] => none
  | c :: cs =>
    if c = ':' then some ([], cs)
    else
      match splitColon2 cs with
      | some (a, b) => some (c :: a, b)
      | none => none

/-- Go map assignment on the label association list. -/
def lbInsert (k v : String) : List (String × String) → List (String × String)
  | [] => [(k, v)]
  | (k0, v0) :: rest =>
    if k0 = k then (k, v) :: rest else (k0, v0) :: lbInsert k v rest

/-- The MoveData record of src/main.go. -/
structure MoveData where
  move : Option (Int × Int × Cell)
  addedBlackStones : List String
  addedWhiteStones : List String
  addedEmptyPoints : List String
  CRs : List String
  SQs : List String
  TRs : List String
  MAs : List String
  LBs : List (String × String)

/-- Embeds extractMoveFromNode from src/main.go: a W move overwrites a
B move, the setup and annotation coordinate lists are copied, and LB
values split at the first colon populate the label map. -/
def extractMoveFromNode (props : List (String × List String)) : MoveData :=
  let move1 := match propLookup "B" props with
    | some vs => createMoveFromCoord (vs.headD "") Cell.black
    | none => none
  let move2 := match propLookup "W" props with
    | some vs => createMoveFromCoord (vs.headD "") Cell.white
    | none => move1
  { move := move2
    addedBlackStones := (propLookup "AB" props).getD []
    addedWhiteStones := (propLookup "AW" props).getD []
    addedEmptyPoints := (propLookup "AE" props).getD []
    CRs := (propLookup "CR" props).getD []
    SQs := (propLookup "SQ" props).getD []
    TRs := (propLookup "TR" props).getD []
    MAs := (propLookup "MA" props).getD []
    LBs := ((propLookup "LB" props).getD []).foldl (fun acc lb =>
      match splitColon2 lb.toList with
      | some (a, b) => lbInsert (String.mk a) (String.mk b) acc
      | none => acc) [] }

/-- Mark a single cell in a per-cell flag field. -/
def flagSet (f : Pos → Bool) (p : Pos) : Pos → Bool :=
  fun q => if q = p then true else f q

/-- Write a single label in the per-cell label field. -/
def lbSet (f : Pos → Option String) (p : Pos) (v : String) : Pos → Option String :=
  fun q => if q = p then some v else f q

/-- The bounds test of the processSequence annotation loops. -/
def inSz (sizeX sizeY x y : Int) : Bool :=
  decide (0 ≤ x) && decide (0 ≤ y) && decide (x < sizeX) && decide (y < sizeY)

/-- Embeds the node-building loop body of processMainLine from
src/main.go: move handling with capture, added black stones (with the
setup marker), added white stones (board only: processMainLine never
calls addWhiteStone), added empty points, and the comment.
processMainLine has no handling at all for CR, SQ, TR, MA or LB. -/
def mainlineNode (sizeX sizeY : Int) (props : List (String × List String))
    (parentBoard : Board) (parentPlayer : Cell) : ImpNode :=
  let md := extractMoveFromNode props
  let n0 := { emptyImpNode with
    boardState := parentBoard
    player := match md.move with
      | some (_, _, pl) => pl
      | none => parentPlayer }
  let n1 := match md.move with
    | some (x, y, pl) =>
      if 0 ≤ x ∧ 0 ≤ y then
        let b1 := setCell n0.boardState (x, y) pl
        let r := captureStones sizeX.toNat sizeY.toNat b1 (x, y) pl
        { n0 with boardState := r.1, koX := r.2.1, koY := r.2.2, move := (x, y) }
      else { n0 with move := (-1, -1) }
    | none => { n0 with move := (93, 93) }
  let n2 := md.addedBlackStones.foldl (fun n coord =>
    match convertSGFCoordToXY coord with
    | some (x, y) =>
      { n with
        boardState := setCell n.boardState (x, y) Cell.black
        addedBlack := flagSet n.addedBlack (x, y) }
    | none => n) n1
  let n3 := md.addedWhiteStones.foldl (fun n coord =>
    match convertSGFCoordToXY coord with
    | some (x, y) => { n with boardState := setCell n.boardState (x, y) Cell.white }
    | none => n) n2
  let n4 := md.addedEmptyPoints.foldl (fun n coord =>
    match convertSGFCoordToXY coord with
    | some (x, y) =>
      { n with
        boardState := setCell n.boardState (x, y) Cell.empty
        AE := flagSet n.AE (x, y) }
    | none => n) n3
  match propLookup "C" props with
  | some (c :: _) => { n4 with comment := c }
  | _ => n4

/-- Embeds the node-building loop body of processSequence from
src/main.go: like the main-line body but with the added-white setup
marker and with the CR, SQ, TR, MA and LB annotation loops (which check
the game bounds; an invalid coordinate there would crash Go, and is
skipped here). -/
def seqNode (sizeX sizeY : Int) (props : List (String × List String))
    (parentBoard : Board) (parentPlayer : Cell) : ImpNode :=
  let md := extractMoveFromNode props
  let n0 := { emptyImpNode with
    boardState := parentBoard
    player := match md.move with
      | some (_, _, pl) => pl
      | none => parentPlayer }
  let n1 := match md.move with
    | some (x, y, pl) =>
      if 0 ≤ x ∧ 0 ≤ y then
        let b1 := setCell n0.boardState (x, y) pl
        let r := captureStones sizeX.toNat sizeY.toNat b1 (x, y) pl
        { n0 with boardState := r.1, koX := r.2.1, koY := r.2.2, move := (x, y) }
      else { n0 with move := (-1, -1) }
    | none => { n0 with move := (93, 93) }
  let n2 := md.addedBlackStones.foldl (fun n coord =>
    match convertSGFCoordToXY coord with
    | some (x, y) =>
      { n with
        boardState := setCell n.boardState (x, y) Cell.black
        addedBlack := flagSet n.addedBlack (x, y) }
    | none => n) n1
  let n3 := md.addedWhiteStones.foldl (fun n coord =>
    match convertSGFCoordToXY coord with
    | some (x, y) =>
      { n with
        boardState := setCell n.boardState (x, y) Cell.white
        addedWhite := flagSet n.addedWhite (x, y) }
    | none => n) n2
  let n4 := md.addedEmptyPoints.foldl (fun n coord =>
    match convertSGFCoordToXY coord with
    | some (x, y) =>
      { n with
        boardState := setCell n.boardState (x, y) Cell.empty
        AE := flagSet n.AE (x, y) }
    | none => n) n3
  let n5 := md.CRs.foldl (fun n coord =>
    match convertSGFCoordToXY coord with
    | some (x, y) => if inSz sizeX sizeY x y then { n with CR := flagSet n.CR (x, y) } else n
    | none => n) n4
  let n6 := md.SQs.foldl (fun n coord =>
    match convertSGFCoordToXY coord with
    | some (x, y) => if inSz sizeX sizeY x y then { n with SQ := flagSet n.SQ (x, y) } else n
    | none => n) n5
  let n7 := md.TRs.foldl (fun n coord =>
    match convertSGFCoordToXY coord with
    | some (x, y) => if inSz sizeX sizeY x y then { n with TR := flagSet n.TR (x, y) } else n
    | none => n) n6
  let n8 := md.MAs.foldl (fun n coord =>
    match convertSGFCoordToXY coord with
    | some (x, y) => if inSz sizeX sizeY x y then { n with MA := flagSet n.MA (x, y) } else n
    | none => n) n7
  let n9 := md.LBs.foldl (fun n kv =>
    match convertSGFCoordToXY kv.1 with
    | some (x, y) =>
      if inSz sizeX sizeY x y then { n with LB := lbSet n.LB (x, y) kv.2 } else n
    | none => n) n8
  match propLookup "C" props with
  | some (c :: _) => { n9 with comment := c }
  | _ => n9

mutual

/-- Embeds processMainLine from src/main.go: skip the root node of the
sequence when the parent is the game root, build the chain of nodes,
continue the main line through the first subtree and process the other
subtrees as variations. Returns the children to append to the parent,
with the relative path of the last main-line node created. -/
def procMainLine (sizeX sizeY : Int) : Nat → SGFGameTree → Board → Cell → Bool →
    Except String (List ImpTree × Option (List Nat))
  | 0, _, _, _, _ => .error "out of fuel"
  | fuel + 1, t, parentBoard, parentPlayer, isRootParent =>
    procChainML sizeX sizeY fuel
      (if isRootParent then t.sequence.drop 1 else t.sequence)
      t.subtrees parentBoard parentPlayer isRootParent

/-- The node loop and subtree handling of processMainLine. -/
def procChainML (sizeX sizeY : Int) : Nat → List SGFNode → List SGFGameTree →
    Board → Cell → Bool → Except String (List ImpTree × Option (List Nat))
  | 0, _, _, _, _, _ => .error "out of fuel"
  | fuel + 1, node :: rest, subs, pb, pp, _ =>
    let n := mainlineNode sizeX sizeY node.properties pb pp
    match procChainML sizeX sizeY fuel rest subs n.boardState n.player false with
    | .error m => .error m
    | .ok (kids, lastRel) =>
      .ok ([ImpTree.mk n kids],
        some (match lastRel with
          | some l => 0 :: l
          | none => [0]))
  | fuel + 1, [], subs, pb, pp, isRootCur =>
    match subs with
    | [] => .ok ([], none)
    | s0 :: srest =>
      match procMainLine sizeX sizeY fuel s0 pb pp isRootCur with
      | .error m => .error m
      | .ok (kids0, last0) =>
        match procSubtreeList sizeX sizeY fuel srest pb pp with
        | .error m => .error m
        | .ok kidsRest => .ok (kids0 ++ kidsRest, last0)

/-- processSubtree applied to a list of variations, all attached to
the same parent. -/
def procSubtreeList (sizeX sizeY : Int) : Nat → List SGFGameTree → Board → Cell →
    Except String (List ImpTree)
  | 0, _, _, _ => .error "out of fuel"
  | _ + 1, [], _, _ => .ok []
  | fuel + 1, t :: ts, pb, pp =>
    match procSubtree sizeX sizeY fuel t pb pp with
    | .error m => .error m
    | .ok kids =>
      match procSubtreeList sizeX sizeY fuel ts pb pp with
      | .error m => .error m
      | .ok kids' => .ok (kids ++ kids')

/-- Embeds processSubtree from src/main.go: process the sequence as a
chain under the parent, then recursively attach every sub-variation to
the same parent (processSubtree never advances its currentParent). -/
def procSubtree (sizeX sizeY : Int) : Nat → SGFGameTree → Board → Cell →
    Except String (List ImpTree)
  | 0, _, _, _ => .error "out of fuel"
  | fuel + 1, t, pb, pp =>
    match procSeqChain sizeX sizeY fuel t.sequence pb pp with
    | .error m => .error m
    | .ok seqKids =>
      match procSubtreeList sizeX sizeY fuel t.subtrees pb pp with
      | .error m => .error m
      | .ok subKids => .ok (seqKids ++ subKids)

/-- Embeds the node loop of processSequence from src/main.go. -/
def procSeqChain (sizeX sizeY : Int) : Nat → List SGFNode → Board → Cell →
    Except String (List ImpTree)
  | 0, _, _, _ => .error "out of fuel"
  | _ + 1, [], _, _ => .ok []
  | fuel + 1, node :: rest, pb, pp =>
    let n := seqNode sizeX sizeY node.properties pb pp
    match procSeqChain sizeX sizeY fuel rest n.boardState n.player with
    | .error m => .error m
    | .ok kids => .ok [ImpTree.mk n kids]

end

/-- The root properties that initializeGameFromSGFTree does not treat
as annotations. -/
def rootKeysExcluded : List String :=
  ["AB", "AW", "C", "SZ", "GM", "FF", "CA", "AP", "DT", "GN", "PC", "PB",
   "PW", "BR", "WR", "ST", "TM", "OT", "RE", "KM", "RU"]

/-- The root-node construction of initializeGameFromSGFTree from
src/main.go: AB and AW setup stones (both with their markers on the
root), the root comment, and the root annotation properties extracted
from the remaining keys (no bounds check beyond coordinate validity). -/
def buildRootNode (props : List (String × List String)) : ImpNode :=
  let r1 := ((propLookup "AB" props).getD []).foldl (fun n coord =>
    match convertSGFCoordToXY coord with
    | some (x, y) =>
      { n with
        boardState := setCell n.boardState (x, y) Cell.black
        addedBlack := flagSet n.addedBlack (x, y) }
    | none => n) emptyImpNode
  let r2 := ((propLookup "AW" props).getD []).foldl (fun n coord =>
    match convertSGFCoordToXY coord with
    | some (x, y) =>
      { n with
        boardState := setCell n.boardState (x, y) Cell.white
        addedWhite := flagSet n.addedWhite (x, y) }
    | none => n) r1
  let r3 := match propLookup "C" props with
    | some (c :: _) => { r2 with comment := c }
    | _ => r2
  let addl := props.filter (fun kv => decide (kv.1 ∉ rootKeysExcluded))
  if addl.isEmpty then r3
  else
    let md := extractMoveFromNode addl
    let r4 := md.CRs.foldl (fun n coord =>
      match convertSGFCoordToXY coord with
      | some (x, y) => { n with CR := flagSet n.CR (x, y) }
      | none => n) r3
    let r5 := md.SQs.foldl (fun n coord =>
      match convertSGFCoordToXY coord with
      | some (x, y) => { n with SQ := flagSet n.SQ (x, y) }
      | none => n) r4
    let r6 := md.TRs.foldl (fun n coord =>
      match convertSGFCoordToXY coord with
      | some (x, y) => { n with TR := flagSet n.TR (x, y) }
      | none => n) r5
    let r7 := md.MAs.foldl (fun n coord =>
      match convertSGFCoordToXY coord with
      | some (x, y) => { n with MA := flagSet n.MA (x, y) }
      | none => n) r6
    md.LBs.foldl (fun n kv =>
      match convertSGFCoordToXY kv.1 with
      | some (x, y) => { n with LB := lbSet n.LB (x, y) kv.2 }
      | none => n) r7

/-- Decimal digit accumulator of the Atoi model. -/
def digitsVal (acc : Nat) : List Char → Option Nat
  | [] => some acc
  | c :: cs =>
    if decide ('0' ≤ c) && decide (c ≤ '9') then
      digitsVal (acc * 10 + (c.toNat - 48)) cs
    else none

/-- strconv.Atoi on the inputs this program feeds it: an optional sign
followed by at least one decimal digit. -/
def goAtoi (s : String) : Option Int :=
  match s.toList with
  | [] => none
  | '-' :: rest =>
    match rest with
    | [] => none
    | _ =>
      match digitsVal 0 rest with
      | some n => some (-(n : Int))
      | none => none
  | '+' :: rest =>
    match rest with
    | [] => none
    | _ =>
      match digitsVal 0 rest with
      | some n => some ((n : Int))
      | none => none
  | l =>
    match digitsVal 0 l with
    | some n => some ((n : Int))
    | none => none

/-- strings.Split on the colon separator. -/
def splitColonList : List Char → List (List Char)
  | [] => [[]]
  | c :: cs =>
    if c = ':' then [] :: splitColonList cs
    else
      match splitColonList cs with
      | h :: t => (c :: h) :: t
      | [] => [[c]]

/-- Embeds initializeGameFromSGFTree from src/main.go. Note the order
of operations: the board dimensions are assigned from the SZ property
before the maximum-size check, so a failed oversized import leaves the
mutated dimensions behind. -/
def initGameFromSGFTree (fuel : Nat) (g : GameState) (t : SGFGameTree) :
    Option String × GameState :=
  match t.sequence with
  | [] => (some "SGF game tree has no nodes", g)
  | first :: _ =>
    let props := first.properties
    let szRes : Except String (Int × Int) :=
      match propLookup "SZ" props with
      | some (sz :: _) =>
        match splitColonList sz.toList with
        | [a, b] =>
          match goAtoi (String.mk a), goAtoi (String.mk b) with
          | some xa, some yb => .ok (xa, yb)
          | _, _ => .error ("invalid SZ property: " ++ sz)
        | _ =>
          match goAtoi sz with
          | some v => .ok (v, v)
          | none => .error ("invalid SZ property: " ++ sz)
      | _ => .ok (19, 19)
    match szRes with
    | .error e => (some e, g)
    | .ok (sx, sy) =>
      let g1 := { g with sizeX := sx, sizeY := sy }
      if sx > 52 ∨ sy > 52 then
        (some "board size exceeds maximum allowed size of 52", g1)
      else
        let root := buildRootNode props
        match procMainLine sx sy fuel t root.boardState root.player true with
        | .error m =>
          (some m, { g1 with rootNode := ImpTree.mk root [], currentPath := [] })
        | .ok (kids, lastRel) =>
          (none, { g1 with
            rootNode := ImpTree.mk root kids
            currentPath := lastRel.getD [] })

/-- Embeds importFromSGF from src/main.go. -/
def importFromSGF (g : GameState) (s : String) : Option String × GameState :=
  match parseSGF s with
  | .error e => (some e, g)
  | .ok [] => (some "no valid SGF game trees found", g)
  | .ok (t :: _) => initGameFromSGFTree (16 * (s.toList.length + 4)) g t

/-- Embeds convertCoordinatesToSGF from src/main.go: both axes encoded
with intToChar, errors contributing nothing. -/
def convertCoordinatesToSGF (x y : Int) : String :=
  String.mk ((intToChar x).toList ++ (intToChar y).toList)

/-- Embeds the comment escaping of formatNodeProperties: backslashes
doubled first, then close brackets escaped. -/
def escapeComment : List Char → List Char
  | [] => []
  | c :: cs =>
    if c = '\\' then '\\' :: '\\' :: escapeComment cs
    else if c = ']' then '\\' :: ']' :: escapeComment cs
    else c :: escapeComment cs

/-- One bracketed coordinate list of formatAnnotations or
formatAddedStones: the marked cells in row-major order. -/
def annotMarks (f : Pos → Bool) (sizeX sizeY : Int) : String :=
  (List.range sizeY.toNat).foldl (fun acc y =>
    (List.range sizeX.toNat).foldl (fun acc2 x =>
      if f (Int.ofNat x, Int.ofNat y) then
        acc2 ++ "[" ++ convertCoordinatesToSGF (Int.ofNat x) (Int.ofNat y) ++ "]"
      else acc2) acc) ""

/-- A labelled mark property, emitted only when a mark is present. -/
def fmtMarkProp (label : String) (f : Pos → Bool) (sizeX sizeY : Int) : String :=
  let body := annotMarks f sizeX sizeY
  if body = "" then "" else label ++ body

/-- The LB property of formatAnnotations. -/
def fmtLBProp (f : Pos → Option String) (sizeX sizeY : Int) : String :=
  let body := (List.range sizeY.toNat).foldl (fun acc y =>
    (List.range sizeX.toNat).foldl (fun acc2 x =>
      match f (Int.ofNat x, Int.ofNat y) with
      | some el =>
        if el ≠ "" then
          acc2 ++ "[" ++ convertCoordinatesToSGF (Int.ofNat x) (Int.ofNat y) ++
            ":" ++ el ++ "]"
        else acc2
      | none => acc2) acc) ""
  if body = "" then "" else "LB" ++ body

/-- Embeds formatAnnotations from src/main.go. -/
def fmtAnnots (n : ImpNode) (sizeX sizeY : Int) : String :=
  fmtMarkProp "CR" n.CR sizeX sizeY ++ fmtMarkProp "SQ" n.SQ sizeX sizeY ++
    fmtMarkProp "TR" n.TR sizeX sizeY ++ fmtMarkProp "MA" n.MA sizeX sizeY ++
    fmtLBProp n.LB sizeX sizeY

/-- Embeds formatAddedStones from src/main.go. -/
def fmtAddedStones (n : ImpNode) (sizeX sizeY : Int) : String :=
  fmtMarkProp "AB" n.addedBlack sizeX sizeY ++
    fmtMarkProp "AW" n.addedWhite sizeX sizeY ++
    fmtMarkProp "AE" n.AE sizeX sizeY

/-- Embeds formatNodeProperties from src/main.go. -/
def formatNodeProperties (n : ImpNode) (isRoot : Bool) (sizeX sizeY : Int) :
    String :=
  let s0 := ";"
  let s1 := if isRoot then
      s0 ++ "FF[4]" ++ "GM[1]" ++ "CA[UTF-8]" ++
        "AP[ConnectedGroupsGobanVersion2]" ++
        (if sizeX = sizeY then "SZ[" ++ toString sizeX ++ "]"
         else "SZ[" ++ toString sizeX ++ ":" ++ toString sizeY ++ "]")
    else s0
  let s2 := if ¬ isRoot ∧ 0 ≤ n.move.1 ∧ n.move.1 < sizeX ∧
      0 ≤ n.move.2 ∧ n.move.2 < sizeY then
      s1 ++ (if n.player = Cell.black then "B"
             else if n.player = Cell.white then "W" else "") ++
        "[" ++ convertCoordinatesToSGF n.move.1 n.move.2 ++ "]"
    else s1
  let s3 := if n.comment ≠ "" then
      s2 ++ "C[" ++ String.mk (escapeComment n.comment.toList) ++ "]"
    else s2
  s3 ++ fmtAnnots n sizeX sizeY ++ fmtAddedStones n sizeX sizeY

/-- Embeds generateSGF from src/main.go: a parenthesised variation; a
single child continues inline with its outer parentheses stripped,
several children each become parenthesised variations. -/
def generateSGF : Nat → ImpTree → Bool → Int → Int → String
  | 0, _, _, _, _ => ""
  | fuel + 1, ImpTree.mk n kids, isRoot, sizeX, sizeY =>
    let props := formatNodeProperties n isRoot sizeX sizeY
    let childPart := match kids with
      | [] => ""
      | [c] =>
        let cs := generateSGF fuel c false sizeX sizeY
        String.mk ((cs.toList.drop 1).dropLast)
      | cs => (cs.map fun c => generateSGF fuel c false sizeX sizeY).foldl (· ++ ·) ""
    "(" ++ props ++ childPart ++ ")"

/-- A game in its fresh state: 19 by 19, a bare root, root current. -/
def freshGame19 : GameState :=
  { sizeX := 19, sizeY := 19, rootNode := ImpTree.mk emptyImpNode [],
    currentPath := [] }

/-- The main-line child of the round-trip tree: a black move with a
comment containing a close bracket and a backslash, a triangle
annotation and an added white stone. -/
def rtC1 : ImpNode :=
  { emptyImpNode with
    move := (0, 0)
    player := Cell.black
    comment := "a]b\\c"
    TR := flagSet emptyImpNode.TR (1, 1)
    addedWhite := flagSet emptyImpNode.addedWhite (2, 2) }

/-- First branch child of the round-trip tree. -/
def rtC2a : ImpNode := { emptyImpNode with move := (1, 0), player := Cell.white }

/-- Second branch child of the round-trip tree. -/
def rtC2b : ImpNode := { emptyImpNode with move := (2, 0), player := Cell.white }

/-- The round-trip tree: root, a main-line child carrying setup stone,
annotation and comment, and a branch point with two variations. -/
def rtTree : ImpTree :=
  ImpTree.mk emptyImpNode
    [ImpTree.mk rtC1 [ImpTree.mk rtC2a [], ImpTree.mk rtC2b []]]

/-- Modelled from the spec words for C7, to compare with validateSGF:
a scan tracking parenthesis depth that never goes negative and ends
at zero. -/
def parenScanOk : List Char → Int → Bool
  | [], d => decide (d = 0)
  | c :: cs, d =>
    if c = '(' then parenScanOk cs (d + 1)
    else if c = ')' then decide (0 < d) && parenScanOk cs (d - 1)
    else parenScanOk cs d

/-- Modelled from the spec words for C7: the same balance scan for
square brackets, which the claim says the first pass also validates. -/
def bracketScanOk : List Char → Int → Bool
  | [], d => decide (d = 0)
  | c :: cs, d =>
    if c = '[' then bracketScanOk cs (d + 1)
    else if c = ']' then decide (0 < d) && bracketScanOk cs (d - 1)
    else bracketScanOk cs d

theorem coordRoundTrip (n : Nat) (h : n < 52) :
    (intToChar (n : Int)).bind charToInt = some (n : Int) ∧
      (intToChar (n : Int)).isSome := by
  have key : ∀ m ∈ Finset.range 52,
      (intToChar (m : Int)).bind charToInt = some (m : Int) ∧
        (intToChar (m : Int)).isSome := by decide
  exact key n (Finset.mem_range.mpr h)

theorem char_le_toNat {a b : Char} (h : a ≤ b) : a.toNat ≤ b.toNat := by
  rw [Char.le_def, UInt32.le_def] at h
  exact h

/-- Decoding a character of the coordinate alphabet and re-encoding the
resulting integer returns the original character. -/
theorem coordDecodeEncode (c : Char) (h : inCoordAlphabet c) :
    ∃ x, 0 ≤ x ∧ x < 52 ∧ charToInt c = some x ∧ intToChar x = some c := by
  rcases h with ⟨h1, h2⟩ | ⟨h1, h2⟩
  · have b1 : 97 ≤ c.toNat := char_le_toNat h1
    have b2 : c.toNat ≤ 122 := char_le_toNat h2
    refine ⟨(c.toNat : Int) - 97, by omega, by omega, ?_, ?_⟩
    · simp [charToInt, h1, h2]
    · have hcond : (0 : Int) ≤ (c.toNat : Int) - 97 ∧ (c.toNat : Int) - 97 ≤ 25 := by omega
      have htn : ((c.toNat : Int) - 97).toNat = c.toNat - 97 := by omega
      have harg : 97 + (c.toNat - 97) = c.toNat := by omega
      simp [intToChar, hcond, htn, harg, Char.ofNat_toNat]
  · have b1 : 65 ≤ c.toNat := char_le_toNat h1
    have b2 : c.toNat ≤ 90 := char_le_toNat h2
    have hnotlow : ¬ ('a' ≤ c ∧ c ≤ 'z') := by
      rintro ⟨hl, -⟩
      have hmix : ('a' : Char).toNat ≤ c.toNat := char_le_toNat hl
      have h97 : ('a' : Char).toNat = 97 := rfl
      omega
    refine ⟨(c.toNat : Int) - 65 + 26, by omega, by omega, ?_, ?_⟩
    · simp [charToInt, hnotlow, h1, h2]
    · have hc1 : ¬ ((0 : Int) ≤ (c.toNat : Int) - 65 + 26 ∧
          (c.toNat : Int) - 65 + 26 ≤ 25) := by omega
      have hc2 : (26 : Int) ≤ (c.toNat : Int) - 65 + 26 ∧
          (c.toNat : Int) - 65 + 26 ≤ 51 := by omega
      have htn : ((c.toNat : Int) - 65 + 26).toNat = c.toNat - 65 + 26 := by omega
      have harg : 65 + (c.toNat - 65 + 26) - 26 = c.toNat := by omega
      simp [intToChar, hc1, hc2, htn, harg, Char.ofNat_toNat]

/-- C8: for every integer x in 0..51, encoding x with intToChar and
decoding with charToInt yields x back, the encoding always succeeds on
this range, and conversely every character of the coordinate alphabet
decodes to a unique integer in 0..51 that re-encodes to it, so the
encoding is a bijection between 0..51 and the coordinate alphabet. -/
theorem C8_coordinate_bijection :
    (∀ x : Int, 0 ≤ x → x < 52 →
      ∃ c, intToChar x = some c ∧ charToInt c = some x) ∧
    (∀ c : Char, inCoordAlphabet c →
      ∃ x, 0 ≤ x ∧ x < 52 ∧ charToInt c = some x ∧ intToChar x = some c) := by
  constructor
  · intro x hx0 hx52
    obtain ⟨n, rfl⟩ : ∃ n : Nat, x = (n : Int) := ⟨x.toNat, by omega⟩
    have hn : n < 52 := by omega
    obtain ⟨hbind, hsome⟩ := coordRoundTrip n hn
    obtain ⟨c, hc⟩ := Option.isSome_iff_exists.mp hsome
    refine ⟨c, hc, ?_⟩
    rw [hc] at hbind
    simpa using hbind
  · exact coordDecodeEncode

/-- Witness for C8 at the concrete input 30. -/
theorem C8_coordinate_bijection_witness :
    (0 : Int) ≤ 30 ∧ (30 : Int) < 52 ∧
      ∃ c, intToChar 30 = some c ∧ charToInt c = some 30 :=
  ⟨by decide, by decide, C8_coordinate_bijection.1 30 (by decide) (by decide)⟩

/-- C10: for every board column index x with 25 <= x < 52,
clientToGTPCoords returns the empty string, because its letter alphabet
has only 25 entries, and consequently the play command sent to the engine
for such a column carries no coordinate letter at all. -/
theorem C10_gtp_letter_alphabet_truncated (sizeY : Nat) (x y : Int)
    (h25 : 25 ≤ x) (h52 : x < 52) :
    clientToGTPCoords sizeY x y = "" ∧
      ∀ stone : Cell, enginePlayCommand sizeY stone x y =
        "play " ++ cellStr stone ++ " " := by
  have hlen : ((("ABCDEFGHJKLMNOPQRSTUVWXYZ".toList).length : Nat) : Int) = 25 := by
    decide
  have hcond : x < 0 ∨ (("ABCDEFGHJKLMNOPQRSTUVWXYZ".toList).length : Int) ≤ x :=
    Or.inr (by rw [hlen]; omega)
  have hmain : clientToGTPCoords sizeY x y = "" := by
    unfold clientToGTPCoords
    rw [if_pos hcond]
  refine ⟨hmain, fun stone => ?_⟩
  unfold enginePlayCommand
  rw [hmain]
  simp

/-- Witness for C10 at sizeY = 19, x = 30, y = 5. -/
theorem C10_gtp_letter_alphabet_truncated_witness :
    (25 : Int) ≤ 30 ∧ (30 : Int) < 52 ∧
      (clientToGTPCoords 19 30 5 = "" ∧
        ∀ stone : Cell, enginePlayCommand 19 stone 30 5 =
          "play " ++ cellStr stone ++ " ") :=
  ⟨by decide, by decide,
    C10_gtp_letter_alphabet_truncated 19 30 5 (by decide) (by decide)⟩

theorem mem_boundsFinset {sizeX sizeY : Nat} {p : Pos} :
    p ∈ boundsFinset sizeX sizeY ↔ inB sizeX sizeY p = true := by
  constructor
  · rintro hp
    simp only [boundsFinset, Finset.mem_image, Finset.mem_product, Finset.mem_range] at hp
    obtain ⟨⟨a, b⟩, ⟨ha, hb⟩, rfl⟩ := hp
    simp only [inB, Bool.and_eq_true, decide_eq_true_eq]
    refine ⟨⟨⟨?_, ?_⟩, ?_⟩, ?_⟩ <;> omega
  · intro hp
    simp only [inB, Bool.and_eq_true, decide_eq_true_eq] at hp
    obtain ⟨⟨⟨h1, h2⟩, h3⟩, h4⟩ := hp
    simp only [boundsFinset, Finset.mem_image, Finset.mem_product, Finset.mem_range]
    exact ⟨(p.1.toNat, p.2.toNat), ⟨by omega, by omega⟩, by
      simp only [Prod.ext_iff]
      constructor <;> simp <;> omega⟩

theorem card_boundsFinset_le (sizeX sizeY : Nat) :
    (boundsFinset sizeX sizeY).card ≤ sizeX * sizeY := by
  calc (boundsFinset sizeX sizeY).card
      ≤ (Finset.range sizeX ×ˢ Finset.range sizeY).card := Finset.card_image_le
    _ = sizeX * sizeY := by rw [Finset.card_product, Finset.card_range, Finset.card_range]

theorem unexplored_le (sizeX sizeY : Nat) (v : Finset Pos) :
    unexplored sizeX sizeY v ≤ sizeX * sizeY :=
  le_trans (Finset.card_le_card (Finset.sdiff_subset)) (card_boundsFinset_le sizeX sizeY)

theorem unexplored_insert {sizeX sizeY : Nat} {v : Finset Pos} {p : Pos}
    (hb : inB sizeX sizeY p = true) (hv : p ∉ v) :
    unexplored sizeX sizeY (insert p v) + 1 = unexplored sizeX sizeY v := by
  have hp : p ∈ boundsFinset sizeX sizeY \ v :=
    Finset.mem_sdiff.mpr ⟨mem_boundsFinset.mpr hb, hv⟩
  have : boundsFinset sizeX sizeY \ insert p v = (boundsFinset sizeX sizeY \ v).erase p := by
    ext q
    simp only [Finset.mem_sdiff, Finset.mem_insert, Finset.mem_erase, not_or]
    tauto
  rw [unexplored, this, Finset.card_erase_of_mem hp]
  have : 0 < (boundsFinset sizeX sizeY \ v).card := Finset.card_pos.mpr ⟨p, hp⟩
  unfold unexplored
  omega

theorem unexplored_mono {sizeX sizeY : Nat} {v v' : Finset Pos} (h : v ⊆ v') :
    unexplored sizeX sizeY v' ≤ unexplored sizeX sizeY v :=
  Finset.card_le_card (fun q hq => by
    simp only [Finset.mem_sdiff] at hq ⊢
    exact ⟨hq.1, fun hc => hq.2 (h hc)⟩)

theorem adj_symm {p q : Pos} (h : Adj p q) : Adj q p := by
  simp only [Adj, nbrs, dirs, List.map_cons, List.map_nil, List.mem_cons,
    List.not_mem_nil, or_false] at h ⊢
  rcases h with h | h | h | h <;>
    · subst h
      simp only [Prod.ext_iff, Prod.mk.injEq]
      omega

theorem adj_ne {p q : Pos} (h : Adj p q) : p ≠ q := by
  simp only [Adj, nbrs, dirs, List.map_cons, List.map_nil, List.mem_cons,
    List.not_mem_nil, or_false] at h
  rcases h with h | h | h | h <;>
    · intro hc
      rw [← hc] at h
      simp only [Prod.ext_iff] at h
      omega

theorem LibPath.inBounds {sizeX sizeY : Nat} {board : Board} {player : Cell}
    {v : Finset Pos} {p : Pos} (h : LibPath sizeX sizeY board player v p) :
    inB sizeX sizeY p = true := by
  cases h with
  | found v p hb hv he => exact hb
  | step v p q hb hv hp ha hnext => exact hb

theorem LibPath.notVisited {sizeX sizeY : Nat} {board : Board} {player : Cell}
    {v : Finset Pos} {p : Pos} (h : LibPath sizeX sizeY board player v p) :
    p ∉ v := by
  cases h with
  | found v p hb hv he => exact hv
  | step v p q hb hv hp ha hnext => exact hv

theorem LibPath.cellCases {sizeX sizeY : Nat} {board : Board} {player : Cell}
    {v : Finset Pos} {p : Pos} (h : LibPath sizeX sizeY board player v p) :
    board p = Cell.empty ∨ board p = player := by
  cases h with
  | found v p hb hv he => exact Or.inl he
  | step v p q hb hv hp ha hnext => exact Or.inr hp

theorem LibPath.mono {sizeX sizeY : Nat} {board : Board} {player : Cell}
    {v v' : Finset Pos} {p : Pos} (hsub : v ⊆ v')
    (h : LibPath sizeX sizeY board player v' p) :
    LibPath sizeX sizeY board player v p := by
  induction h generalizing v with
  | found w p hb hv he => exact LibPath.found v p hb (fun hc => hv (hsub hc)) he
  | step w p q hb hv hp ha hnext ih =>
    exact LibPath.step v p q hb (fun hc => hv (hsub hc)) hp ha
      (ih (Finset.insert_subset_insert p hsub))

theorem ite_snd_subset {s : Finset Pos} {c : Prop} [Decidable c] {a b : Bool × Finset Pos}
    (ha : s ⊆ a.2) (hb : s ⊆ b.2) : s ⊆ (if c then a else b).2 := by
  split <;> assumption

theorem dfsGo_visited_subset (sizeX sizeY : Nat) (board : Board) (player : Cell) :
    ∀ (fuel : Nat) (p : Pos) (v : Finset Pos),
      v ⊆ (dfsGo sizeX sizeY board player fuel p v).2 := by
  intro fuel
  induction fuel with
  | zero => intro p v; simp [dfsGo]
  | succ fuel ih =>
    intro p v
    simp only [dfsGo]
    by_cases hb : inB sizeX sizeY p
    · by_cases hv : p ∈ v
      · simp [hb, hv]
      · by_cases he : board p = Cell.empty
        · simp [hb, hv, he]
        · by_cases hp : board p = player
          · rw [if_neg (not_not_intro hb), if_neg hv, if_neg he,
              if_neg (not_not_intro hp)]
            have base : v ⊆ insert p v := Finset.subset_insert p v
            refine ite_snd_subset (base.trans (ih _ _)) ?_
            refine ite_snd_subset ((base.trans (ih _ _)).trans (ih _ _)) ?_
            refine ite_snd_subset (((base.trans (ih _ _)).trans (ih _ _)).trans (ih _ _)) ?_
            exact (((base.trans (ih _ _)).trans (ih _ _)).trans (ih _ _)).trans (ih _ _)
          · simp [hb, hv, he, hp]
    · simp [hb]

theorem adj_up (p : Pos) : Adj p (p.1, p.2 - 1) := by
  simp [Adj, nbrs, dirs, Prod.ext_iff]
  omega

theorem adj_down (p : Pos) : Adj p (p.1, p.2 + 1) := by
  simp [Adj, nbrs, dirs, Prod.ext_iff]

theorem adj_left (p : Pos) : Adj p (p.1 - 1, p.2) := by
  simp [Adj, nbrs, dirs, Prod.ext_iff]
  omega

theorem adj_right (p : Pos) : Adj p (p.1 + 1, p.2) := by
  simp [Adj, nbrs, dirs, Prod.ext_iff]

/-- Soundness of the Go liberty search: a true answer always exhibits a
path to a liberty, regardless of the fuel supplied. -/
theorem dfsGo_sound (sizeX sizeY : Nat) (board : Board) (player : Cell) :
    ∀ (fuel : Nat) (p : Pos) (v : Finset Pos),
      (dfsGo sizeX sizeY board player fuel p v).1 = true →
        LibPath sizeX sizeY board player v p := by
  intro fuel
  induction fuel with
  | zero => intro p v h; simp [dfsGo] at h
  | succ fuel ih =>
    intro p v h
    simp only [dfsGo] at h
    by_cases hb : inB sizeX sizeY p
    swap
    · rw [if_pos (by simpa using hb)] at h; simp at h
    by_cases hv : p ∈ v
    · rw [if_neg (not_not_intro hb), if_pos hv] at h; simp at h
    by_cases he : board p = Cell.empty
    · exact LibPath.found v p hb hv he
    by_cases hp : board p = player
    swap
    · rw [if_neg (not_not_intro hb), if_neg hv, if_neg he, if_pos hp] at h
      simp at h
    rw [if_neg (not_not_intro hb), if_neg hv, if_neg he,
      if_neg (not_not_intro hp)] at h
    have hsub := dfsGo_visited_subset sizeX sizeY board player
    set v0 := insert p v with hv0
    by_cases h1 : (dfsGo sizeX sizeY board player fuel (p.1, p.2 - 1) v0).1 = true
    · exact LibPath.step v p _ hb hv hp (adj_up p) (ih _ _ h1)
    rw [if_neg h1] at h
    by_cases h2 : (dfsGo sizeX sizeY board player fuel (p.1, p.2 + 1)
        (dfsGo sizeX sizeY board player fuel (p.1, p.2 - 1) v0).2).1 = true
    · exact LibPath.step v p _ hb hv hp (adj_down p)
        (LibPath.mono (hsub _ _ _) (ih _ _ h2))
    rw [if_neg h2] at h
    by_cases h3 : (dfsGo sizeX sizeY board player fuel (p.1 - 1, p.2)
        (dfsGo sizeX sizeY board player fuel (p.1, p.2 + 1)
          (dfsGo sizeX sizeY board player fuel (p.1, p.2 - 1) v0).2).2).1 = true
    · exact LibPath.step v p _ hb hv hp (adj_left p)
        (LibPath.mono ((hsub _ _ _).trans (hsub _ _ _)) (ih _ _ h3))
    rw [if_neg h3] at h
    exact LibPath.step v p _ hb hv hp (adj_right p)
      (LibPath.mono (((hsub _ _ _).trans (hsub _ _ _)).trans (hsub _ _ _)) (ih _ _ h))

theorem saturated_refl {sizeX sizeY : Nat} {board : Board} {player : Cell}
    {v : Finset Pos} : Saturated sizeX sizeY board player v v := by
  intro w hw
  simp at hw

theorem saturated_trans {sizeX sizeY : Nat} {board : Board} {player : Cell}
    {a b c : Finset Pos} (hbc : b ⊆ c)
    (h1 : Saturated sizeX sizeY board player b a)
    (h2 : Saturated sizeX sizeY board player c b) :
    Saturated sizeX sizeY board player c a := by
  intro w hw
  rw [Finset.mem_sdiff] at hw
  by_cases hwb : w ∈ b
  · obtain ⟨hbnd, hcol, hnb⟩ := h1 w (Finset.mem_sdiff.mpr ⟨hwb, hw.2⟩)
    exact ⟨hbnd, hcol, fun q hq hqb =>
      ⟨(hnb q hq hqb).1, fun hqp => hbc ((hnb q hq hqb).2 hqp)⟩⟩
  · exact h2 w (Finset.mem_sdiff.mpr ⟨hw.1, hwb⟩)

theorem saturated_shrink {sizeX sizeY : Nat} {board : Board} {player : Cell}
    {vOut vIn s : Finset Pos} (h : Saturated sizeX sizeY board player vOut vIn)
    (hs : vIn ⊆ s) : Saturated sizeX sizeY board player vOut s := by
  intro w hw
  rw [Finset.mem_sdiff] at hw
  exact h w (Finset.mem_sdiff.mpr ⟨hw.1, fun hc => hw.2 (hs hc)⟩)

theorem saturated_insert_both {sizeX sizeY : Nat} {board : Board} {player : Cell}
    {vOut vIn : Finset Pos} {r : Pos}
    (h : Saturated sizeX sizeY board player vOut vIn) (_hr : r ∉ vOut) :
    Saturated sizeX sizeY board player (insert r vOut) (insert r vIn) := by
  intro w hw
  rw [Finset.mem_sdiff, Finset.mem_insert, Finset.mem_insert, not_or] at hw
  obtain ⟨hw1 | hw1, hw2, hw3⟩ := hw
  · exact absurd hw1 hw2
  · obtain ⟨hbnd, hcol, hnb⟩ := h w (Finset.mem_sdiff.mpr ⟨hw1, hw3⟩)
    exact ⟨hbnd, hcol, fun q hq hqb =>
      ⟨(hnb q hq hqb).1, fun hqp => Finset.mem_insert_of_mem ((hnb q hq hqb).2 hqp)⟩⟩

theorem nbrs_eq (p : Pos) :
    nbrs p = [(p.1, p.2 - 1), (p.1, p.2 + 1), (p.1 - 1, p.2), (p.1 + 1, p.2)] := by
  unfold nbrs dirs
  norm_num [Prod.ext_iff]
  exact ⟨by omega, by omega⟩

/-- Invariant of a failed liberty search: given enough fuel and a visited
map holding only player stones, a false answer leaves a saturated visited
map that still holds only player stones, and the searched cell itself is
recorded as non-empty, with its player mark included in the output. -/
theorem dfsGo_false_invariant (sizeX sizeY : Nat) (board : Board) (player : Cell)
    (hpl : player ≠ Cell.empty) :
    ∀ (fuel : Nat) (p : Pos) (v : Finset Pos),
      unexplored sizeX sizeY v + 1 ≤ fuel →
      AllPlayer board player v →
      (dfsGo sizeX sizeY board player fuel p v).1 = false →
      Saturated sizeX sizeY board player (dfsGo sizeX sizeY board player fuel p v).2 v ∧
      AllPlayer board player (dfsGo sizeX sizeY board player fuel p v).2 ∧
      (inB sizeX sizeY p = true →
        board p ≠ Cell.empty ∧
        (board p = player → p ∈ (dfsGo sizeX sizeY board player fuel p v).2)) := by
  intro fuel
  induction fuel with
  | zero => intro p v hfuel; omega
  | succ fuel ih =>
    intro p v hfuel hall hfalse
    by_cases hb : inB sizeX sizeY p
    case neg =>
      have heq : dfsGo sizeX sizeY board player (fuel + 1) p v = (false, v) := by
        simp only [dfsGo]
        rw [if_pos (by simpa using hb)]
      rw [heq]
      exact ⟨saturated_refl, hall, fun hc => absurd hc hb⟩
    case pos =>
    by_cases hv : p ∈ v
    · have heq : dfsGo sizeX sizeY board player (fuel + 1) p v = (false, v) := by
        simp only [dfsGo]
        rw [if_neg (not_not_intro hb), if_pos hv]
      rw [heq]
      refine ⟨saturated_refl, hall, fun _ => ?_⟩
      have hcol := hall p hv
      exact ⟨by rw [hcol]; exact hpl, fun _ => hv⟩
    by_cases he : board p = Cell.empty
    · exfalso
      have heq : dfsGo sizeX sizeY board player (fuel + 1) p v = (true, v) := by
        simp only [dfsGo]
        rw [if_neg (not_not_intro hb), if_neg hv, if_pos he]
      rw [heq] at hfalse
      simp at hfalse
    by_cases hp : board p = player
    case neg =>
      have heq : dfsGo sizeX sizeY board player (fuel + 1) p v = (false, v) := by
        simp only [dfsGo]
        rw [if_neg (not_not_intro hb), if_neg hv, if_neg he, if_pos hp]
      rw [heq]
      exact ⟨saturated_refl, hall, fun _ => ⟨he, fun hc => absurd hc hp⟩⟩
    case pos =>
      have hins : unexplored sizeX sizeY (insert p v) + 1 = unexplored sizeX sizeY v :=
        unexplored_insert hb hv
      set v0 := insert p v with hv0def
      set r1 := dfsGo sizeX sizeY board player fuel (p.1, p.2 - 1) v0 with hr1
      set r2 := dfsGo sizeX sizeY board player fuel (p.1, p.2 + 1) r1.2 with hr2
      set r3 := dfsGo sizeX sizeY board player fuel (p.1 - 1, p.2) r2.2 with hr3
      set r4 := dfsGo sizeX sizeY board player fuel (p.1 + 1, p.2) r3.2 with hr4
      have heq : dfsGo sizeX sizeY board player (fuel + 1) p v =
          if r1.1 then r1 else if r2.1 then r2 else if r3.1 then r3 else r4 := by
        simp only [dfsGo]
        rw [if_neg (not_not_intro hb), if_neg hv, if_neg he, if_neg (not_not_intro hp)]
      have sub1 : v0 ⊆ r1.2 := by rw [hr1]; exact dfsGo_visited_subset _ _ _ _ _ _ _
      have sub2 : r1.2 ⊆ r2.2 := by rw [hr2]; exact dfsGo_visited_subset _ _ _ _ _ _ _
      have sub3 : r2.2 ⊆ r3.2 := by rw [hr3]; exact dfsGo_visited_subset _ _ _ _ _ _ _
      have sub4 : r3.2 ⊆ r4.2 := by rw [hr4]; exact dfsGo_visited_subset _ _ _ _ _ _ _
      have hall0 : AllPlayer board player v0 := by
        intro w hw
        rcases Finset.mem_insert.mp hw with rfl | hw'
        · exact hp
        · exact hall w hw'
      rw [heq] at hfalse ⊢
      have hb1 : r1.1 = false := by
        by_cases b1 : r1.1 = true
        · rw [if_pos b1] at hfalse; rw [hfalse] at b1; exact absurd b1 (by simp)
        · simpa using b1
      have hb1' : ¬ (r1.1 = true) := by simp [hb1]
      rw [if_neg hb1'] at hfalse ⊢
      have hb2 : r2.1 = false := by
        by_cases b2 : r2.1 = true
        · rw [if_pos b2] at hfalse; rw [hfalse] at b2; exact absurd b2 (by simp)
        · simpa using b2
      have hb2' : ¬ (r2.1 = true) := by simp [hb2]
      rw [if_neg hb2'] at hfalse ⊢
      have hb3 : r3.1 = false := by
        by_cases b3 : r3.1 = true
        · rw [if_pos b3] at hfalse; rw [hfalse] at b3; exact absurd b3 (by simp)
        · simpa using b3
      have hb3' : ¬ (r3.1 = true) := by simp [hb3]
      rw [if_neg hb3'] at hfalse ⊢
      have hfu1 : unexplored sizeX sizeY v0 + 1 ≤ fuel := by omega
      obtain ⟨sat1, hallr1, dead1⟩ := ih (p.1, p.2 - 1) v0 hfu1 hall0 hb1
      have hfu2 : unexplored sizeX sizeY r1.2 + 1 ≤ fuel := by
        have := @unexplored_mono sizeX sizeY _ _ sub1
        omega
      obtain ⟨sat2, hallr2, dead2⟩ := ih (p.1, p.2 + 1) r1.2 hfu2 hallr1 hb2
      have hfu3 : unexplored sizeX sizeY r2.2 + 1 ≤ fuel := by
        have m1 := @unexplored_mono sizeX sizeY _ _ sub1
        have m2 := @unexplored_mono sizeX sizeY _ _ sub2
        omega
      obtain ⟨sat3, hallr3, dead3⟩ := ih (p.1 - 1, p.2) r2.2 hfu3 hallr2 hb3
      have hfu4 : unexplored sizeX sizeY r3.2 + 1 ≤ fuel := by
        have m1 := @unexplored_mono sizeX sizeY _ _ sub1
        have m2 := @unexplored_mono sizeX sizeY _ _ sub2
        have m3 := @unexplored_mono sizeX sizeY _ _ sub3
        omega
      obtain ⟨sat4, hallr4, dead4⟩ := ih (p.1 + 1, p.2) r3.2 hfu4 hallr3 hfalse
      have satq : Saturated sizeX sizeY board player r4.2 v0 :=
        saturated_trans sub4 (saturated_trans sub3 (saturated_trans sub2 sat1 sat2) sat3) sat4
      have hpmem : p ∈ r4.2 := sub4 (sub3 (sub2 (sub1 (Finset.mem_insert_self p v))))
      refine ⟨?_, hallr4, fun _ => ⟨by rw [hp]; exact hpl, fun _ => hpmem⟩⟩
      intro w hw
      rw [Finset.mem_sdiff] at hw
      by_cases hwp : w = p
      · subst hwp
        refine ⟨hb, hp, ?_⟩
        intro q hq hqb
        rw [nbrs_eq] at hq
        simp only [List.mem_cons, List.not_mem_nil, or_false] at hq
        rcases hq with hq | hq | hq | hq
        · subst hq
          obtain ⟨hne, hmem⟩ := dead1 hqb
          exact ⟨hne, fun hc => sub4 (sub3 (sub2 (hmem hc)))⟩
        · subst hq
          obtain ⟨hne, hmem⟩ := dead2 hqb
          exact ⟨hne, fun hc => sub4 (sub3 (hmem hc))⟩
        · subst hq
          obtain ⟨hne, hmem⟩ := dead3 hqb
          exact ⟨hne, fun hc => sub4 (hmem hc)⟩
        · subst hq
          obtain ⟨hne, hmem⟩ := dead4 hqb
          exact ⟨hne, hmem⟩
      · have hwv0 : w ∉ v0 := by
          rw [hv0def]
          intro hc
          rcases Finset.mem_insert.mp hc with rfl | hc'
          · exact hwp rfl
          · exact hw.2 hc'
        exact satq w (Finset.mem_sdiff.mpr ⟨hw.1, hwv0⟩)

/-- A cell lying in the saturated output of a failed search admits no
liberty path. -/
theorem libpath_not_saturated (sizeX sizeY : Nat) (board : Board) (player : Cell)
    (hpl : player ≠ Cell.empty) {vOut : Finset Pos} :
    ∀ {v : Finset Pos} {w : Pos}, LibPath sizeX sizeY board player v w →
      Saturated sizeX sizeY board player vOut v → w ∈ vOut → False := by
  intro v w h
  induction h with
  | found v p hb hv he =>
    intro hsat hmem
    obtain ⟨-, hcol, -⟩ := hsat p (Finset.mem_sdiff.mpr ⟨hmem, hv⟩)
    rw [he] at hcol
    exact hpl hcol.symm
  | step v p q hb hv hp ha hnext ih =>
    intro hsat hmem
    obtain ⟨-, -, hnb⟩ := hsat p (Finset.mem_sdiff.mpr ⟨hmem, hv⟩)
    obtain ⟨hne, hmemq⟩ := hnb q ha hnext.inBounds
    rcases hnext.cellCases with hq | hq
    · exact hne hq
    · exact ih (saturated_shrink hsat (Finset.subset_insert p v)) (hmemq hq)

/-- A liberty path survives the saturation left behind by failed sibling
searches: failed exploration only marks cells from which no liberty is
reachable, so the path can avoid them. -/
theorem libpath_extend (sizeX sizeY : Nat) (board : Board) (player : Cell)
    (hpl : player ≠ Cell.empty) :
    ∀ {v : Finset Pos} {r : Pos}, LibPath sizeX sizeY board player v r →
      ∀ {v' : Finset Pos}, Saturated sizeX sizeY board player v' v → v ⊆ v' →
      LibPath sizeX sizeY board player v' r := by
  intro v r h
  induction h with
  | found v p hb hv he =>
    intro v' hsat _hsub
    refine LibPath.found v' p hb ?_ he
    intro hc
    obtain ⟨-, hcol, -⟩ := hsat p (Finset.mem_sdiff.mpr ⟨hc, hv⟩)
    rw [he] at hcol
    exact hpl hcol.symm
  | step v p q hb hv hp ha hnext ih =>
    intro v' hsat hsub
    have hpv' : p ∉ v' := fun hc =>
      libpath_not_saturated sizeX sizeY board player hpl
        (LibPath.step v p q hb hv hp ha hnext) hsat hc
    exact LibPath.step v' p q hb hpv' hp ha
      (ih (saturated_insert_both hsat hpv') (Finset.insert_subset_insert p hsub))

/-- Completeness of the Go liberty search: with enough fuel, the search
finds any existing liberty path. -/
theorem dfsGo_complete (sizeX sizeY : Nat) (board : Board) (player : Cell)
    (hpl : player ≠ Cell.empty) :
    ∀ (n : Nat) (v : Finset Pos) (p : Pos) (fuel : Nat),
      unexplored sizeX sizeY v = n →
      LibPath sizeX sizeY board player v p →
      AllPlayer board player v →
      unexplored sizeX sizeY v + 1 ≤ fuel →
      (dfsGo sizeX sizeY board player fuel p v).1 = true := by
  intro n
  induction n using Nat.strong_induction_on with
  | _ n ihn =>
  intro v p fuel hn hpath hall hfuel
  obtain ⟨f, rfl⟩ : ∃ f, fuel = f + 1 := ⟨fuel - 1, by omega⟩
  rcases hpath with ⟨_, p, hb, hv, he⟩ | ⟨_, p, q, hb, hv, hp, ha, hnext⟩
  · simp only [dfsGo]
    rw [if_neg (not_not_intro hb), if_neg hv, if_pos he]
  · have he : ¬ board p = Cell.empty := by rw [hp]; exact hpl
    have hins : unexplored sizeX sizeY (insert p v) + 1 = unexplored sizeX sizeY v :=
      unexplored_insert hb hv
    set v0 := insert p v with hv0def
    have hall0 : AllPlayer board player v0 := by
      intro w hw
      rcases Finset.mem_insert.mp hw with rfl | hw'
      · exact hp
      · exact hall w hw'
    simp only [dfsGo]
    rw [if_neg (not_not_intro hb), if_neg hv, if_neg he, if_neg (not_not_intro hp)]
    set r1 := dfsGo sizeX sizeY board player f (p.1, p.2 - 1) v0 with hr1
    set r2 := dfsGo sizeX sizeY board player f (p.1, p.2 + 1) r1.2 with hr2
    set r3 := dfsGo sizeX sizeY board player f (p.1 - 1, p.2) r2.2 with hr3
    set r4 := dfsGo sizeX sizeY board player f (p.1 + 1, p.2) r3.2 with hr4
    have sub1 : v0 ⊆ r1.2 := by rw [hr1]; exact dfsGo_visited_subset _ _ _ _ _ _ _
    have sub2 : r1.2 ⊆ r2.2 := by rw [hr2]; exact dfsGo_visited_subset _ _ _ _ _ _ _
    have sub3 : r2.2 ⊆ r3.2 := by rw [hr3]; exact dfsGo_visited_subset _ _ _ _ _ _ _
    have hfu1 : unexplored sizeX sizeY v0 + 1 ≤ f := by omega
    have hm0 : unexplored sizeX sizeY v0 < n := by omega
    have ha' := ha
    rw [Adj, nbrs_eq] at ha'
    simp only [List.mem_cons, List.not_mem_nil, or_false] at ha'
    rcases ha' with hq | hq | hq | hq
    · by_cases b1 : r1.1 = true
      · rw [if_pos b1]; exact b1
      · exfalso
        have htrue := ihn _ hm0 v0 q f rfl hnext hall0 (by omega)
        rw [hq] at htrue
        exact b1 htrue
    · by_cases b1 : r1.1 = true
      · rw [if_pos b1]; exact b1
      rw [if_neg b1]
      have hb1 : r1.1 = false := by simpa using b1
      obtain ⟨sat1, hallr1, -⟩ :=
        dfsGo_false_invariant sizeX sizeY board player hpl f (p.1, p.2 - 1) v0
          hfu1 hall0 hb1
      have hpath1 : LibPath sizeX sizeY board player r1.2 q :=
        libpath_extend sizeX sizeY board player hpl hnext sat1 sub1
      have hm1 : unexplored sizeX sizeY r1.2 < n := by
        have := @unexplored_mono sizeX sizeY _ _ sub1
        omega
      have htrue := ihn _ hm1 r1.2 q f rfl hpath1 hallr1 (by omega)
      rw [hq] at htrue
      rw [if_pos htrue]
      exact htrue
    · by_cases b1 : r1.1 = true
      · rw [if_pos b1]; exact b1
      rw [if_neg b1]
      have hb1 : r1.1 = false := by simpa using b1
      obtain ⟨sat1, hallr1, -⟩ :=
        dfsGo_false_invariant sizeX sizeY board player hpl f (p.1, p.2 - 1) v0
          hfu1 hall0 hb1
      have hpath1 : LibPath sizeX sizeY board player r1.2 q :=
        libpath_extend sizeX sizeY board player hpl hnext sat1 sub1
      by_cases b2 : r2.1 = true
      · rw [if_pos b2]; exact b2
      rw [if_neg b2]
      have hb2 : r2.1 = false := by simpa using b2
      have hfu2 : unexplored sizeX sizeY r1.2 + 1 ≤ f := by
        have := @unexplored_mono sizeX sizeY _ _ sub1
        omega
      obtain ⟨sat2, hallr2, -⟩ :=
        dfsGo_false_invariant sizeX sizeY board player hpl f (p.1, p.2 + 1) r1.2
          hfu2 hallr1 hb2
      have hpath2 : LibPath sizeX sizeY board player r2.2 q :=
        libpath_extend sizeX sizeY board player hpl hpath1 sat2 sub2
      have hm2 : unexplored sizeX sizeY r2.2 < n := by
        have m1 := @unexplored_mono sizeX sizeY _ _ sub1
        have m2 := @unexplored_mono sizeX sizeY _ _ sub2
        omega
      have htrue := ihn _ hm2 r2.2 q f rfl hpath2 hallr2 (by omega)
      rw [hq] at htrue
      rw [if_pos htrue]
      exact htrue
    · by_cases b1 : r1.1 = true
      · rw [if_pos b1]; exact b1
      rw [if_neg b1]
      have hb1 : r1.1 = false := by simpa using b1
      obtain ⟨sat1, hallr1, -⟩ :=
        dfsGo_false_invariant sizeX sizeY board player hpl f (p.1, p.2 - 1) v0
          hfu1 hall0 hb1
      have hpath1 : LibPath sizeX sizeY board player r1.2 q :=
        libpath_extend sizeX sizeY board player hpl hnext sat1 sub1
      by_cases b2 : r2.1 = true
      · rw [if_pos b2]; exact b2
      rw [if_neg b2]
      have hb2 : r2.1 = false := by simpa using b2
      have hfu2 : unexplored sizeX sizeY r1.2 + 1 ≤ f := by
        have := @unexplored_mono sizeX sizeY _ _ sub1
        omega
      obtain ⟨sat2, hallr2, -⟩ :=
        dfsGo_false_invariant sizeX sizeY board player hpl f (p.1, p.2 + 1) r1.2
          hfu2 hallr1 hb2
      have hpath2 : LibPath sizeX sizeY board player r2.2 q :=
        libpath_extend sizeX sizeY board player hpl hpath1 sat2 sub2
      by_cases b3 : r3.1 = true
      · rw [if_pos b3]; exact b3
      rw [if_neg b3]
      have hb3 : r3.1 = false := by simpa using b3
      have hfu3 : unexplored sizeX sizeY r2.2 + 1 ≤ f := by
        have m1 := @unexplored_mono sizeX sizeY _ _ sub1
        have m2 := @unexplored_mono sizeX sizeY _ _ sub2
        omega
      obtain ⟨sat3, hallr3, -⟩ :=
        dfsGo_false_invariant sizeX sizeY board player hpl f (p.1 - 1, p.2) r2.2
          hfu3 hallr2 hb3
      have hpath3 : LibPath sizeX sizeY board player r3.2 q :=
        libpath_extend sizeX sizeY board player hpl hpath2 sat3 sub3
      have hm3 : unexplored sizeX sizeY r3.2 < n := by
        have m1 := @unexplored_mono sizeX sizeY _ _ sub1
        have m2 := @unexplored_mono sizeX sizeY _ _ sub2
        have m3 := @unexplored_mono sizeX sizeY _ _ sub3
        omega
      have htrue := ihn _ hm3 r3.2 q f rfl hpath3 hallr3 (by omega)
      rw [hq] at htrue
      exact htrue

theorem inGroup_endpoint {sizeX sizeY : Nat} {board : Board} {player : Cell}
    {p q : Pos} (h : InGroup sizeX sizeY board player p q)
    (hp : inB sizeX sizeY p = true ∧ board p = player) :
    inB sizeX sizeY q = true ∧ board q = player := by
  induction h with
  | refl => exact hp
  | tail _hstep hlast ih => exact ⟨hlast.2.1, hlast.2.2.2.1⟩

/-- A liberty path yields the specification-side liberty statement. -/
theorem libpath_to_group (sizeX sizeY : Nat) (board : Board) (player : Cell) :
    ∀ {v : Finset Pos} {p : Pos}, LibPath sizeX sizeY board player v p →
      board p = Cell.empty ∨
        (board p = player ∧ GroupHasLiberty sizeX sizeY board player p) := by
  intro v p h
  induction h with
  | found v p hb hv he => exact Or.inl he
  | step v p q hb hv hp ha hnext ih =>
    right
    refine ⟨hp, ?_⟩
    rcases ih with hqe | ⟨hqp, s, r, hsg, har, hrb, hre⟩
    · exact ⟨p, q, Relation.ReflTransGen.refl, ha, hnext.inBounds, hqe⟩
    · exact ⟨s, r,
        Relation.ReflTransGen.head ⟨hb, hnext.inBounds, hp, hqp, ha⟩ hsg, har, hrb, hre⟩

theorem lwalk_avoid {sizeX sizeY : Nat} {board : Board} {player : Cell}
    {v : Finset Pos} {w : Pos} :
    ∀ {q : Pos} {l : List Pos} {r : Pos},
      LWalk sizeX sizeY board player v q l r → w ∉ q :: l →
      LWalk sizeX sizeY board player (insert w v) q l r := by
  intro q l
  induction l generalizing q with
  | nil =>
    intro r h hw
    obtain ⟨h1, h2, h3, h4, h5, h6⟩ := h
    refine ⟨h1, h2, ?_, h4, h5, h6⟩
    intro hc
    rcases Finset.mem_insert.mp hc with rfl | hc'
    · exact hw (List.mem_singleton.mpr rfl)
    · exact h3 hc'
  | cons q' l' ih =>
    intro r h hw
    obtain ⟨h1, h2, h3, h4, h5⟩ := h
    refine ⟨h1, h2, ?_, h4, ?_⟩
    · intro hc
      rcases Finset.mem_insert.mp hc with rfl | hc'
      · exact hw (List.mem_cons_self _ _)
      · exact h3 hc'
    · exact ih h5 (fun hc => hw (List.mem_cons_of_mem _ hc))

theorem lwalk_suffix {sizeX sizeY : Nat} {board : Board} {player : Cell}
    {v : Finset Pos} {p : Pos} :
    ∀ {q : Pos} {l : List Pos} {r : Pos},
      LWalk sizeX sizeY board player v q l r → p ∈ q :: l →
      ∃ l', l'.length ≤ l.length ∧ LWalk sizeX sizeY board player v p l' r := by
  intro q l
  induction l generalizing q with
  | nil =>
    intro r h hp
    rw [List.mem_singleton] at hp
    subst hp
    exact ⟨[], le_refl _, h⟩
  | cons q' l' ih =>
    intro r h hp
    rcases List.mem_cons.mp hp with rfl | hp'
    · exact ⟨q' :: l', le_refl _, h⟩
    · obtain ⟨l'', hlen, hw⟩ := ih h.2.2.2.2 hp'
      exact ⟨l'', Nat.le_succ_of_le hlen, hw⟩

/-- Any liberty walk gives a liberty path: along the walk the visited map
grows only by walk cells, and repeated cells are short-circuited. -/
theorem lwalk_to_libpath (sizeX sizeY : Nat) (board : Board) (player : Cell)
    (hpl : player ≠ Cell.empty) :
    ∀ (n : Nat) (l : List Pos), l.length ≤ n →
      ∀ (v : Finset Pos) (p r : Pos), AllPlayer board player v →
        LWalk sizeX sizeY board player v p l r →
        LibPath sizeX sizeY board player v p := by
  intro n
  induction n with
  | zero =>
    intro l hlen v p r hall h
    match l, hlen with
    | [], _ =>
      obtain ⟨h1, h2, h3, h4, h5, h6⟩ := h
      refine LibPath.step v p r h1 h3 h2 h4 ?_
      refine LibPath.found _ r h5 ?_ h6
      intro hc
      rcases Finset.mem_insert.mp hc with rfl | hc'
      · rw [h2] at h6; exact hpl h6
      · rw [hall r hc'] at h6; exact hpl h6
  | succ m ih =>
    intro l hlen v p r hall h
    match l with
    | [] =>
      obtain ⟨h1, h2, h3, h4, h5, h6⟩ := h
      refine LibPath.step v p r h1 h3 h2 h4 ?_
      refine LibPath.found _ r h5 ?_ h6
      intro hc
      rcases Finset.mem_insert.mp hc with rfl | hc'
      · rw [h2] at h6; exact hpl h6
      · rw [hall r hc'] at h6; exact hpl h6
    | q :: l' =>
      obtain ⟨h1, h2, h3, h4, h5⟩ := h
      by_cases hmem : p ∈ q :: l'
      · obtain ⟨l'', hlen', hw⟩ := lwalk_suffix h5 hmem
        exact ih l'' (by simp at hlen; omega) v p r hall hw
      · have hw : LWalk sizeX sizeY board player (insert p v) q l' r :=
          lwalk_avoid h5 hmem
        have hall' : AllPlayer board player (insert p v) := by
          intro w hwm
          rcases Finset.mem_insert.mp hwm with rfl | hwm'
          · exact h2
          · exact hall w hwm'
        refine LibPath.step v p q h1 h3 h2 h4 ?_
        exact ih l' (by simp at hlen; omega) (insert p v) q r hall' hw

/-- The specification-side liberty statement yields a walk. -/
theorem group_to_lwalk (sizeX sizeY : Nat) (board : Board) (player : Cell)
    {p q r : Pos} (hg : InGroup sizeX sizeY board player p q)
    (hq : inB sizeX sizeY q = true ∧ board q = player)
    (har : Adj q r) (hrb : inB sizeX sizeY r = true) (hre : board r = Cell.empty) :
    ∃ l, LWalk sizeX sizeY board player ∅ p l r := by
  induction hg using Relation.ReflTransGen.head_induction_on with
  | refl => exact ⟨[], hq.1, hq.2, Finset.not_mem_empty _, har, hrb, hre⟩
  | head hstep _htail ih =>
    obtain ⟨l, hw⟩ := ih
    exact ⟨_ :: l, hstep.1, hstep.2.2.1, Finset.not_mem_empty _, hstep.2.2.2.2, hw⟩

/-- Correctness of the embedded hasLiberty: for an in-bounds cell it
answers true exactly when the cell is empty, or is a player stone whose
connected group touches an empty cell. -/
theorem hasLiberty_true_iff (sizeX sizeY : Nat) (board : Board) (player : Cell)
    (p : Pos) (hpl : player ≠ Cell.empty) (hb : inB sizeX sizeY p = true) :
    hasLiberty sizeX sizeY board p player = true ↔
      (board p = Cell.empty ∨
        (board p = player ∧ GroupHasLiberty sizeX sizeY board player p)) := by
  constructor
  · intro h
    exact libpath_to_group sizeX sizeY board player
      (dfsGo_sound sizeX sizeY board player _ _ _ h)
  · intro h
    unfold hasLiberty
    have hpath : LibPath sizeX sizeY board player ∅ p := by
      rcases h with he | ⟨hp, s, r, hsg, har, hrb, hre⟩
      · exact LibPath.found ∅ p hb (Finset.not_mem_empty _) he
      · obtain ⟨l, hw⟩ := group_to_lwalk sizeX sizeY board player hsg
          (inGroup_endpoint hsg ⟨hb, hp⟩) har hrb hre
        exact lwalk_to_libpath sizeX sizeY board player hpl l.length l (le_refl _)
          ∅ p r (fun w hw' => absurd hw' (Finset.not_mem_empty _)) hw
    refine dfsGo_complete sizeX sizeY board player hpl (unexplored sizeX sizeY ∅)
      ∅ p _ rfl hpath (fun w hw' => absurd hw' (Finset.not_mem_empty _)) ?_
    have := unexplored_le sizeX sizeY (∅ : Finset Pos)
    omega

/-! ### Claim C1: legality of a move -/

theorem setCell_self (b : Board) (p : Pos) (c : Cell) : setCell b p c p = c := by
  simp [setCell]

theorem switchPlayer_ne_empty (c : Cell) : switchPlayer c ≠ Cell.empty := by
  cases c <;> simp [switchPlayer]

/-- C1: for every board, every in-bounds empty point and every player
colour, isMoveLegal accepts exactly under the condition of LegalSpec: the
point is not the current ko point and, after placing the stone on a
scratch copy, either at least one adjacent opponent group has zero
liberties or the placed stone's own group has at least one liberty. -/
theorem C1_isMoveLegal_iff_spec (sizeX sizeY : Nat) (board : Board) (koX koY : Int)
    (p : Pos) (player : Cell) (hb : inB sizeX sizeY p = true)
    (_hemp : board p = Cell.empty)
    (hpl : player = Cell.black ∨ player = Cell.white) :
    isMoveLegal sizeX sizeY board koX koY p player = true ↔
      LegalSpec sizeX sizeY board koX koY p player := by
  have hpe : player ≠ Cell.empty := by rcases hpl with rfl | rfl <;> simp
  have hoe : switchPlayer player ≠ Cell.empty := switchPlayer_ne_empty player
  unfold isMoveLegal LegalSpec
  by_cases hko : p.1 = koX ∧ p.2 = koY
  · rw [if_pos hko]
    simp [hko]
  · rw [if_neg hko]
    have hcap : 0 < (getCapturedStones sizeX sizeY (setCell board p player) p
          (switchPlayer player)).length ↔
        (∃ q, Adj p q ∧ inB sizeX sizeY q = true ∧
          setCell board p player q = switchPlayer player ∧
          ¬ GroupHasLiberty sizeX sizeY (setCell board p player)
            (switchPlayer player) q) := by
      rw [List.length_pos]
      constructor
      · intro hne
        obtain ⟨q, hqmem⟩ := List.exists_mem_of_ne_nil _ hne
        rw [getCapturedStones, List.mem_filter] at hqmem
        obtain ⟨hqn, hpred⟩ := hqmem
        simp only [Bool.and_eq_true, decide_eq_true_eq, Bool.not_eq_true'] at hpred
        obtain ⟨⟨hqb, hqc⟩, hql⟩ := hpred
        refine ⟨q, hqn, hqb, hqc, ?_⟩
        intro hg
        have : hasLiberty sizeX sizeY (setCell board p player) q
            (switchPlayer player) = true :=
          (hasLiberty_true_iff sizeX sizeY (setCell board p player)
            (switchPlayer player) q hoe hqb).mpr (Or.inr ⟨hqc, hg⟩)
        rw [hql] at this
        exact Bool.false_ne_true this
      · rintro ⟨q, ha, hqb, hqc, hqn⟩
        refine List.ne_nil_of_mem (List.mem_filter.mpr ⟨ha, ?_⟩)
        simp only [Bool.and_eq_true, decide_eq_true_eq, Bool.not_eq_true']
        refine ⟨⟨hqb, hqc⟩, ?_⟩
        by_contra hcon
        rw [Bool.not_eq_false] at hcon
        rcases (hasLiberty_true_iff sizeX sizeY (setCell board p player)
            (switchPlayer player) q hoe hqb).mp hcon with he | ⟨-, hg⟩
        · rw [hqc] at he; exact hoe he
        · exact hqn hg
    by_cases hc : 0 < (getCapturedStones sizeX sizeY (setCell board p player) p
        (switchPlayer player)).length
    · rw [if_pos hc]
      simp only [true_iff]
      exact ⟨hko, Or.inl (hcap.mp hc)⟩
    · rw [if_neg hc]
      have hown : hasLiberty sizeX sizeY (setCell board p player) p player = true ↔
          GroupHasLiberty sizeX sizeY (setCell board p player) player p := by
        rw [hasLiberty_true_iff sizeX sizeY (setCell board p player) player p hpe hb]
        have hpp : setCell board p player p = player := setCell_self board p player
        constructor
        · rintro (he | ⟨-, hg⟩)
          · rw [hpp] at he; exact absurd he hpe
          · exact hg
        · intro hg
          exact Or.inr ⟨hpp, hg⟩
      rw [hown]
      constructor
      · intro hg
        exact ⟨hko, Or.inr hg⟩
      · rintro ⟨-, hcapd | hg⟩
        · exact absurd (hcap.mpr hcapd) hc
        · exact hg

/-- Witness for C1 at the ko-scenario board with black playing (1,2). -/
theorem C1_isMoveLegal_iff_spec_witness :
    inB 3 3 (1, 2) = true ∧ koScenarioBoard (1, 2) = Cell.empty ∧
      (isMoveLegal 3 3 koScenarioBoard (-1) (-1) (1, 2) Cell.black = true ↔
        LegalSpec 3 3 koScenarioBoard (-1) (-1) (1, 2) Cell.black) :=
  ⟨by decide, by decide,
    C1_isMoveLegal_iff_spec 3 3 koScenarioBoard (-1) (-1) (1, 2) Cell.black
      (by decide) (by decide) (Or.inl rfl)⟩

theorem gpath_head {sizeX sizeY : Nat} {board : Board} {player : Cell}
    {v : Finset Pos} {p q : Pos} {l : List Pos}
    (h : GPath sizeX sizeY board player v p l q) :
    inB sizeX sizeY p = true ∧ board p = player ∧ p ∉ v := by
  cases l with
  | nil => exact ⟨h.2.1, h.2.2.1, h.2.2.2⟩
  | cons a l => exact ⟨h.1, h.2.1, h.2.2.1⟩

theorem gpath_last {sizeX sizeY : Nat} {board : Board} {player : Cell}
    {v : Finset Pos} :
    ∀ {l : List Pos} {p q : Pos}, GPath sizeX sizeY board player v p l q →
      inB sizeX sizeY q = true ∧ board q = player ∧ q ∉ v := by
  intro l
  induction l with
  | nil =>
    intro p q h
    obtain ⟨rfl, h1, h2, h3⟩ := h
    exact ⟨h1, h2, h3⟩
  | cons a l ih =>
    intro p q h
    exact ih h.2.2.2.2

theorem gpath_anti {sizeX sizeY : Nat} {board : Board} {player : Cell}
    {v v' : Finset Pos} (hsub : v ⊆ v') :
    ∀ {l : List Pos} {p q : Pos}, GPath sizeX sizeY board player v' p l q →
      GPath sizeX sizeY board player v p l q := by
  intro l
  induction l with
  | nil =>
    intro p q h
    exact ⟨h.1, h.2.1, h.2.2.1, fun hc => h.2.2.2 (hsub hc)⟩
  | cons a l ih =>
    intro p q h
    exact ⟨h.1, h.2.1, fun hc => h.2.2.1 (hsub hc), h.2.2.2.1, ih h.2.2.2.2⟩

theorem groupDFSGo_subset (sizeX sizeY : Nat) (board : Board) (player : Cell) :
    ∀ (fuel : Nat) (p : Pos) (v : Finset Pos),
      v ⊆ groupDFSGo sizeX sizeY board player fuel p v := by
  intro fuel
  induction fuel with
  | zero => intro p v; simp [groupDFSGo]
  | succ fuel ih =>
    intro p v
    simp only [groupDFSGo]
    by_cases hb : inB sizeX sizeY p
    · by_cases hv : p ∈ v
      · simp [hb, hv]
      · by_cases hp : board p = player
        · rw [if_neg (not_not_intro hb), if_neg hv, if_neg (not_not_intro hp)]
          exact (((((Finset.subset_insert p v).trans (ih _ _)).trans
            (ih _ _)).trans (ih _ _)).trans (ih _ _))
        · simp [hb, hv, hp]
    · simp [hb]

/-- Soundness of groupDFS: every cell of the output is either an input
cell or reachable from the start through fresh player stones. -/
theorem groupDFSGo_sound (sizeX sizeY : Nat) (board : Board) (player : Cell) :
    ∀ (fuel : Nat) (p : Pos) (v : Finset Pos) (q : Pos),
      q ∈ groupDFSGo sizeX sizeY board player fuel p v →
      q ∈ v ∨ ReachAvoid sizeX sizeY board player v p q := by
  intro fuel
  induction fuel with
  | zero => intro p v q h; simp [groupDFSGo] at h; exact Or.inl h
  | succ fuel ih =>
    intro p v q h
    simp only [groupDFSGo] at h
    by_cases hb : inB sizeX sizeY p
    swap
    · rw [if_pos (by simpa using hb)] at h; exact Or.inl h
    by_cases hv : p ∈ v
    · rw [if_neg (not_not_intro hb), if_pos hv] at h; exact Or.inl h
    by_cases hp : board p = player
    swap
    · rw [if_neg (not_not_intro hb), if_neg hv, if_pos hp] at h; exact Or.inl h
    rw [if_neg (not_not_intro hb), if_neg hv, if_neg (not_not_intro hp)] at h
    have hsub := groupDFSGo_subset sizeX sizeY board player
    have key : ∀ (d : Pos) (w : Finset Pos), v ⊆ w →
        ReachAvoid sizeX sizeY board player w d q → Adj p d →
        ReachAvoid sizeX sizeY board player v p q := by
      rintro d w hw ⟨l, hpath⟩ hadj
      exact ⟨d :: l, hb, hp, hv, hadj, gpath_anti hw hpath⟩
    have sv0 : v ⊆ insert p v := Finset.subset_insert p v
    have sv1 : v ⊆ groupDFSGo sizeX sizeY board player fuel (p.1, p.2 - 1)
        (insert p v) := sv0.trans (hsub _ _ _)
    have sv2 : v ⊆ groupDFSGo sizeX sizeY board player fuel (p.1, p.2 + 1)
        (groupDFSGo sizeX sizeY board player fuel (p.1, p.2 - 1) (insert p v)) :=
      sv1.trans (hsub _ _ _)
    have sv3 : v ⊆ groupDFSGo sizeX sizeY board player fuel (p.1 - 1, p.2)
        (groupDFSGo sizeX sizeY board player fuel (p.1, p.2 + 1)
          (groupDFSGo sizeX sizeY board player fuel (p.1, p.2 - 1) (insert p v))) :=
      sv2.trans (hsub _ _ _)
    rcases ih _ _ _ h with h3 | hr
    rotate_left
    · exact Or.inr (key _ _ sv3 hr (adj_right p))
    rcases ih _ _ _ h3 with h2 | hr
    rotate_left
    · exact Or.inr (key _ _ sv2 hr (adj_left p))
    rcases ih _ _ _ h2 with h1 | hr
    rotate_left
    · exact Or.inr (key _ _ sv1 hr (adj_down p))
    rcases ih _ _ _ h1 with h0 | hr
    rotate_left
    · exact Or.inr (key _ _ sv0 hr (adj_up p))
    rcases Finset.mem_insert.mp h0 with rfl | hqv
    · exact Or.inr ⟨[], rfl, hb, hp, hv⟩
    · exact Or.inl hqv

theorem saturatedG_refl {sizeX sizeY : Nat} {board : Board} {player : Cell}
    {v : Finset Pos} : SaturatedG sizeX sizeY board player v v := by
  intro w hw
  simp at hw

theorem saturatedG_trans {sizeX sizeY : Nat} {board : Board} {player : Cell}
    {a b c : Finset Pos} (hbc : b ⊆ c)
    (h1 : SaturatedG sizeX sizeY board player b a)
    (h2 : SaturatedG sizeX sizeY board player c b) :
    SaturatedG sizeX sizeY board player c a := by
  intro w hw
  rw [Finset.mem_sdiff] at hw
  by_cases hwb : w ∈ b
  · obtain ⟨hbnd, hcol, hnb⟩ := h1 w (Finset.mem_sdiff.mpr ⟨hwb, hw.2⟩)
    exact ⟨hbnd, hcol, fun q hq hqb hqp => hbc (hnb q hq hqb hqp)⟩
  · exact h2 w (Finset.mem_sdiff.mpr ⟨hw.1, hwb⟩)

/-- The group search saturates: with enough fuel its output is closed
under same-colour adjacency from every newly marked cell, and the start
cell is marked whenever it is an in-bounds player stone. -/
theorem groupDFSGo_invariant (sizeX sizeY : Nat) (board : Board) (player : Cell) :
    ∀ (fuel : Nat) (p : Pos) (v : Finset Pos),
      unexplored sizeX sizeY v + 1 ≤ fuel →
      SaturatedG sizeX sizeY board player
        (groupDFSGo sizeX sizeY board player fuel p v) v ∧
      (inB sizeX sizeY p = true → board p = player →
        p ∈ groupDFSGo sizeX sizeY board player fuel p v) := by
  intro fuel
  induction fuel with
  | zero => intro p v hfuel; omega
  | succ fuel ih =>
    intro p v hfuel
    by_cases hb : inB sizeX sizeY p
    case neg =>
      have heq : groupDFSGo sizeX sizeY board player (fuel + 1) p v = v := by
        simp only [groupDFSGo]
        rw [if_pos (by simpa using hb)]
      rw [heq]
      exact ⟨saturatedG_refl, fun hc => absurd hc hb⟩
    case pos =>
    by_cases hv : p ∈ v
    · have heq : groupDFSGo sizeX sizeY board player (fuel + 1) p v = v := by
        simp only [groupDFSGo]
        rw [if_neg (not_not_intro hb), if_pos hv]
      rw [heq]
      exact ⟨saturatedG_refl, fun _ _ => hv⟩
    by_cases hp : board p = player
    case neg =>
      have heq : groupDFSGo sizeX sizeY board player (fuel + 1) p v = v := by
        simp only [groupDFSGo]
        rw [if_neg (not_not_intro hb), if_neg hv, if_pos hp]
      rw [heq]
      exact ⟨saturatedG_refl, fun _ hc => absurd hc hp⟩
    case pos =>
      have hins : unexplored sizeX sizeY (insert p v) + 1 = unexplored sizeX sizeY v :=
        unexplored_insert hb hv
      set v0 := insert p v with hv0def
      set v1 := groupDFSGo sizeX sizeY board player fuel (p.1, p.2 - 1) v0 with hw1
      set v2 := groupDFSGo sizeX sizeY board player fuel (p.1, p.2 + 1) v1 with hw2
      set v3 := groupDFSGo sizeX sizeY board player fuel (p.1 - 1, p.2) v2 with hw3
      set v4 := groupDFSGo sizeX sizeY board player fuel (p.1 + 1, p.2) v3 with hw4
      have heq : groupDFSGo sizeX sizeY board player (fuel + 1) p v = v4 := by
        simp only [groupDFSGo]
        rw [if_neg (not_not_intro hb), if_neg hv, if_neg (not_not_intro hp)]
      rw [heq]
      have sub1 : v0 ⊆ v1 := by rw [hw1]; exact groupDFSGo_subset _ _ _ _ _ _ _
      have sub2 : v1 ⊆ v2 := by rw [hw2]; exact groupDFSGo_subset _ _ _ _ _ _ _
      have sub3 : v2 ⊆ v3 := by rw [hw3]; exact groupDFSGo_subset _ _ _ _ _ _ _
      have sub4 : v3 ⊆ v4 := by rw [hw4]; exact groupDFSGo_subset _ _ _ _ _ _ _
      have hfu1 : unexplored sizeX sizeY v0 + 1 ≤ fuel := by omega
      obtain ⟨sat1, dead1⟩ := ih (p.1, p.2 - 1) v0 hfu1
      have hfu2 : unexplored sizeX sizeY v1 + 1 ≤ fuel := by
        have := @unexplored_mono sizeX sizeY _ _ sub1
        omega
      obtain ⟨sat2, dead2⟩ := ih (p.1, p.2 + 1) v1 hfu2
      have hfu3 : unexplored sizeX sizeY v2 + 1 ≤ fuel := by
        have m1 := @unexplored_mono sizeX sizeY _ _ sub1
        have m2 := @unexplored_mono sizeX sizeY _ _ sub2
        omega
      obtain ⟨sat3, dead3⟩ := ih (p.1 - 1, p.2) v2 hfu3
      have hfu4 : unexplored sizeX sizeY v3 + 1 ≤ fuel := by
        have m1 := @unexplored_mono sizeX sizeY _ _ sub1
        have m2 := @unexplored_mono sizeX sizeY _ _ sub2
        have m3 := @unexplored_mono sizeX sizeY _ _ sub3
        omega
      obtain ⟨sat4, dead4⟩ := ih (p.1 + 1, p.2) v3 hfu4
      have satq : SaturatedG sizeX sizeY board player v4 v0 :=
        saturatedG_trans sub4 (saturatedG_trans sub3 (saturatedG_trans sub2 sat1 sat2)
          sat3) sat4
      have hpmem : p ∈ v4 := sub4 (sub3 (sub2 (sub1 (Finset.mem_insert_self p v))))
      refine ⟨?_, fun _ _ => hpmem⟩
      intro w hw
      rw [Finset.mem_sdiff] at hw
      by_cases hwp : w = p
      · subst hwp
        refine ⟨hb, hp, ?_⟩
        intro q hq hqb hqp
        rw [nbrs_eq] at hq
        simp only [List.mem_cons, List.not_mem_nil, or_false] at hq
        rcases hq with hq | hq | hq | hq
        · subst hq
          exact sub4 (sub3 (sub2 (dead1 hqb hqp)))
        · subst hq
          exact sub4 (sub3 (dead2 hqb hqp))
        · subst hq
          exact sub4 (dead3 hqb hqp)
        · subst hq
          exact dead4 hqb hqp
      · have hwv0 : w ∉ v0 := by
          rw [hv0def]
          intro hc
          rcases Finset.mem_insert.mp hc with rfl | hc'
          · exact hwp rfl
          · exact hw.2 hc'
        exact satq w (Finset.mem_sdiff.mpr ⟨hw.1, hwv0⟩)

/-- Completeness of the group search: any cell reachable through fresh
player stones is marked, given enough fuel. -/
theorem saturatedG_walk {sizeX sizeY : Nat} {board : Board} {player : Cell}
    {vOut v : Finset Pos} (hsat : SaturatedG sizeX sizeY board player vOut v) :
    ∀ {l : List Pos} {p q : Pos}, GPath sizeX sizeY board player v p l q →
      p ∈ vOut → q ∈ vOut := by
  intro l
  induction l with
  | nil =>
    intro p q hpath hmem
    obtain ⟨rfl, -, -, -⟩ := hpath
    exact hmem
  | cons a l ihl =>
    intro p q hpath hmem
    obtain ⟨-, -, hpv, hadj, htail⟩ := hpath
    obtain ⟨hab, hap, -⟩ := gpath_head htail
    exact ihl htail ((hsat p (Finset.mem_sdiff.mpr ⟨hmem, hpv⟩)).2.2 a hadj hab hap)

theorem groupDFSGo_complete (sizeX sizeY : Nat) (board : Board) (player : Cell)
    (fuel : Nat) (p : Pos) (v : Finset Pos)
    (hfuel : unexplored sizeX sizeY v + 1 ≤ fuel) {q : Pos}
    (hr : ReachAvoid sizeX sizeY board player v p q) :
    q ∈ groupDFSGo sizeX sizeY board player fuel p v := by
  obtain ⟨sat, dead⟩ := groupDFSGo_invariant sizeX sizeY board player fuel p v hfuel
  obtain ⟨l, hpath⟩ := hr
  obtain ⟨hpb, hpp, -⟩ := gpath_head hpath
  exact saturatedG_walk sat hpath (dead hpb hpp)

/-- Membership characterisation of the group search. -/
theorem groupDFSGo_mem (sizeX sizeY : Nat) (board : Board) (player : Cell)
    (fuel : Nat) (p : Pos) (v : Finset Pos)
    (hfuel : unexplored sizeX sizeY v + 1 ≤ fuel) (q : Pos) :
    q ∈ groupDFSGo sizeX sizeY board player fuel p v ↔
      q ∈ v ∨ ReachAvoid sizeX sizeY board player v p q := by
  constructor
  · exact groupDFSGo_sound sizeX sizeY board player fuel p v q
  · rintro (hq | hr)
    · exact groupDFSGo_subset sizeX sizeY board player fuel p v hq
    · exact groupDFSGo_complete sizeX sizeY board player fuel p v hfuel hr

theorem reachAvoid_empty_iff (sizeX sizeY : Nat) (board : Board) (player : Cell)
    (p q : Pos) :
    ReachAvoid sizeX sizeY board player ∅ p q ↔
      inB sizeX sizeY p = true ∧ board p = player ∧
        InGroup sizeX sizeY board player p q := by
  constructor
  · rintro ⟨l, hpath⟩
    obtain ⟨hpb, hpp, -⟩ := gpath_head hpath
    refine ⟨hpb, hpp, ?_⟩
    clear hpb hpp
    induction l generalizing p with
    | nil =>
      obtain ⟨rfl, -, -, -⟩ := hpath
      exact Relation.ReflTransGen.refl
    | cons a l ihl =>
      obtain ⟨h1, h2, -, hadj, htail⟩ := hpath
      obtain ⟨hab, hap, -⟩ := gpath_head htail
      exact Relation.ReflTransGen.head ⟨h1, hab, h2, hap, hadj⟩ (ihl a htail)
  · rintro ⟨hpb, hpp, hg⟩
    induction hg using Relation.ReflTransGen.head_induction_on with
    | refl => exact ⟨[], rfl, hpb, hpp, Finset.not_mem_empty _⟩
    | head hstep htail ih =>
      obtain ⟨l, hpath⟩ := ih hstep.2.1 hstep.2.2.2.1
      exact ⟨_ :: l, hstep.1, hstep.2.2.1, Finset.not_mem_empty _, hstep.2.2.2.2, hpath⟩

theorem inGroup_symm {sizeX sizeY : Nat} {board : Board} {player : Cell}
    {p q : Pos} (h : InGroup sizeX sizeY board player p q) :
    InGroup sizeX sizeY board player q p := by
  induction h with
  | refl => exact Relation.ReflTransGen.refl
  | tail _hstep hlast ih =>
    exact Relation.ReflTransGen.head
      ⟨hlast.2.1, hlast.1, hlast.2.2.2.1, hlast.2.2.1, adj_symm hlast.2.2.2.2⟩ ih

theorem inGroup_trans {sizeX sizeY : Nat} {board : Board} {player : Cell}
    {p q r : Pos} (h1 : InGroup sizeX sizeY board player p q)
    (h2 : InGroup sizeX sizeY board player q r) :
    InGroup sizeX sizeY board player p r :=
  Relation.ReflTransGen.trans h1 h2

/-- getGroupSize answers 1 exactly when the specification-side connected
group of an in-bounds player stone is the singleton of that stone. -/
theorem getGroupSize_eq_one_iff (sizeX sizeY : Nat) (board : Board) (player : Cell)
    (p : Pos) (hb : inB sizeX sizeY p = true) (hp : board p = player) :
    (getGroupSize sizeX sizeY board p player = 1 ↔
      ∀ q, InGroup sizeX sizeY board player p q → q = p) := by
  have hfuel : unexplored sizeX sizeY (∅ : Finset Pos) + 1 ≤ sizeX * sizeY + 1 := by
    have := unexplored_le sizeX sizeY (∅ : Finset Pos)
    omega
  have hmem : ∀ q, q ∈ groupDFSGo sizeX sizeY board player (sizeX * sizeY + 1) p ∅ ↔
      InGroup sizeX sizeY board player p q := by
    intro q
    rw [groupDFSGo_mem sizeX sizeY board player _ p ∅ hfuel q,
      reachAvoid_empty_iff sizeX sizeY board player p q]
    simp [hb, hp]
  have hpmem : p ∈ groupDFSGo sizeX sizeY board player (sizeX * sizeY + 1) p ∅ :=
    (hmem p).mpr Relation.ReflTransGen.refl
  unfold getGroupSize
  rw [Finset.card_eq_one]
  constructor
  · rintro ⟨a, ha⟩ q hq
    have hqm := (hmem q).mpr hq
    rw [ha, Finset.mem_singleton] at hqm hpmem
    rw [hqm, hpmem]
  · intro hall
    refine ⟨p, Finset.eq_singleton_iff_unique_mem.mpr ⟨hpmem, ?_⟩⟩
    intro q hq
    exact hall q ((hmem q).mp hq)

/-- The removal search visits exactly the cells the pure group search
visits on the pristine board, and empties exactly the newly visited
cells: the mutation only touches cells that are already marked when they
are cleared, so fresh reads always see pristine values. -/
theorem removeDFSGo_spec (sizeX sizeY : Nat) (player : Cell) (bZ : Board) :
    ∀ (fuel : Nat) (p : Pos) (b : Board) (v : Finset Pos),
      (∀ q, q ∉ v → b q = bZ q) →
      (removeDFSGo sizeX sizeY player fuel p (b, v)).2 =
        groupDFSGo sizeX sizeY bZ player fuel p v ∧
      ∀ q, (removeDFSGo sizeX sizeY player fuel p (b, v)).1 q =
        if q ∈ groupDFSGo sizeX sizeY bZ player fuel p v ∧ q ∉ v then Cell.empty
        else b q := by
  intro fuel
  induction fuel with
  | zero =>
    intro p b v _hpre
    refine ⟨by simp [removeDFSGo, groupDFSGo], fun q => ?_⟩
    simp only [removeDFSGo, groupDFSGo]
    rw [if_neg (fun hc => hc.2 hc.1)]
  | succ fuel ih =>
    intro p b v hpre
    by_cases hb : inB sizeX sizeY p
    case neg =>
      have heqR : removeDFSGo sizeX sizeY player (fuel + 1) p (b, v) = (b, v) := by
        simp only [removeDFSGo]
        rw [if_pos (by simpa using hb)]
      have heqG : groupDFSGo sizeX sizeY bZ player (fuel + 1) p v = v := by
        simp only [groupDFSGo]
        rw [if_pos (by simpa using hb)]
      rw [heqR, heqG]
      exact ⟨rfl, fun q => by rw [if_neg (fun hc => hc.2 hc.1)]⟩
    case pos =>
    by_cases hv : p ∈ v
    · have heqR : removeDFSGo sizeX sizeY player (fuel + 1) p (b, v) = (b, v) := by
        simp only [removeDFSGo]
        rw [if_neg (not_not_intro hb), if_pos hv]
      have heqG : groupDFSGo sizeX sizeY bZ player (fuel + 1) p v = v := by
        simp only [groupDFSGo]
        rw [if_neg (not_not_intro hb), if_pos hv]
      rw [heqR, heqG]
      exact ⟨rfl, fun q => by rw [if_neg (fun hc => hc.2 hc.1)]⟩
    by_cases hp : bZ p = player
    case neg =>
      have hbp : b p = bZ p := hpre p hv
      have heqR : removeDFSGo sizeX sizeY player (fuel + 1) p (b, v) = (b, v) := by
        simp only [removeDFSGo]
        rw [if_neg (not_not_intro hb), if_neg hv, if_pos (by rw [hbp]; exact hp)]
      have heqG : groupDFSGo sizeX sizeY bZ player (fuel + 1) p v = v := by
        simp only [groupDFSGo]
        rw [if_neg (not_not_intro hb), if_neg hv, if_pos hp]
      rw [heqR, heqG]
      exact ⟨rfl, fun q => by rw [if_neg (fun hc => hc.2 hc.1)]⟩
    case pos =>
      have hbp : b p = player := by rw [hpre p hv]; exact hp
      have pre0 : ∀ q, q ∉ insert p v → setCell b p Cell.empty q = bZ q := by
        intro q hq
        rw [Finset.mem_insert, not_or] at hq
        rw [setCell]
        simp only [if_neg hq.1]
        exact hpre q hq.2
      set w1 := groupDFSGo sizeX sizeY bZ player fuel (p.1, p.2 - 1) (insert p v)
        with hw1
      set w2 := groupDFSGo sizeX sizeY bZ player fuel (p.1, p.2 + 1) w1 with hw2
      set w3 := groupDFSGo sizeX sizeY bZ player fuel (p.1 - 1, p.2) w2 with hw3
      set w4 := groupDFSGo sizeX sizeY bZ player fuel (p.1 + 1, p.2) w3 with hw4
      have sub01 : insert p v ⊆ w1 := by
        rw [hw1]; exact groupDFSGo_subset _ _ _ _ _ _ _
      have sub12 : w1 ⊆ w2 := by rw [hw2]; exact groupDFSGo_subset _ _ _ _ _ _ _
      have sub23 : w2 ⊆ w3 := by rw [hw3]; exact groupDFSGo_subset _ _ _ _ _ _ _
      have sub34 : w3 ⊆ w4 := by rw [hw4]; exact groupDFSGo_subset _ _ _ _ _ _ _
      obtain ⟨h1v, h1b⟩ := ih (p.1, p.2 - 1) (setCell b p Cell.empty) (insert p v) pre0
      rw [← hw1] at h1v h1b
      set st1 := removeDFSGo sizeX sizeY player fuel (p.1, p.2 - 1)
        (setCell b p Cell.empty, insert p v) with hst1
      have pre1 : ∀ q, q ∉ w1 → st1.1 q = bZ q := by
        intro q hq
        rw [h1b q, if_neg (fun hc => hq hc.1)]
        exact pre0 q (fun hc => hq (sub01 hc))
      obtain ⟨h2v, h2b⟩ := ih (p.1, p.2 + 1) st1.1 w1 pre1
      rw [← hw2] at h2v h2b
      set st2 := removeDFSGo sizeX sizeY player fuel (p.1, p.2 + 1) (st1.1, w1)
        with hst2
      have est1 : removeDFSGo sizeX sizeY player fuel (p.1, p.2 + 1) st1 = st2 := by
        rw [hst2, ← h1v]
      have pre2 : ∀ q, q ∉ w2 → st2.1 q = bZ q := by
        intro q hq
        rw [h2b q, if_neg (fun hc => hq hc.1)]
        exact pre1 q (fun hc => hq (sub12 hc))
      obtain ⟨h3v, h3b⟩ := ih (p.1 - 1, p.2) st2.1 w2 pre2
      rw [← hw3] at h3v h3b
      set st3 := removeDFSGo sizeX sizeY player fuel (p.1 - 1, p.2) (st2.1, w2)
        with hst3
      have est2 : removeDFSGo sizeX sizeY player fuel (p.1 - 1, p.2) st2 = st3 := by
        rw [hst3, ← h2v]
      have pre3 : ∀ q, q ∉ w3 → st3.1 q = bZ q := by
        intro q hq
        rw [h3b q, if_neg (fun hc => hq hc.1)]
        exact pre2 q (fun hc => hq (sub23 hc))
      obtain ⟨h4v, h4b⟩ := ih (p.1 + 1, p.2) st3.1 w3 pre3
      rw [← hw4] at h4v h4b
      set st4 := removeDFSGo sizeX sizeY player fuel (p.1 + 1, p.2) (st3.1, w3)
        with hst4
      have est3 : removeDFSGo sizeX sizeY player fuel (p.1 + 1, p.2) st3 = st4 := by
        rw [hst4, ← h3v]
      have heqR : removeDFSGo sizeX sizeY player (fuel + 1) p (b, v) = st4 := by
        simp only [removeDFSGo]
        rw [if_neg (not_not_intro hb), if_neg hv, if_neg (not_not_intro hbp)]
        rw [← hst1, est1, est2, est3]
      have heqG : groupDFSGo sizeX sizeY bZ player (fuel + 1) p v = w4 := by
        simp only [groupDFSGo]
        rw [if_neg (not_not_intro hb), if_neg hv, if_neg (not_not_intro hp)]
      rw [heqR, heqG]
      refine ⟨by rw [h4v], fun q => ?_⟩
      by_cases hq4 : q ∈ w4
      swap
      · have hqp : q ≠ p := by
          intro hc
          subst hc
          exact hq4 (sub34 (sub23 (sub12 (sub01 (Finset.mem_insert_self q v)))))
        rw [h4b q, if_neg (fun hc => hq4 hc.1),
          h3b q, if_neg (fun hc => hq4 (sub34 hc.1)),
          h2b q, if_neg (fun hc => hq4 (sub34 (sub23 hc.1))),
          h1b q, if_neg (fun hc => hq4 (sub34 (sub23 (sub12 hc.1))))]
        rw [setCell]
        simp only [if_neg hqp]
        rw [if_neg (fun hc => hq4 hc.1)]
      · by_cases hqv : q ∈ v
        · rw [if_neg (fun hc => hc.2 hqv)]
          have hqiv : q ∈ insert p v := Finset.mem_insert_of_mem hqv
          have hqp : q ≠ p := by rintro rfl; exact hv hqv
          rw [h4b q, if_neg (fun hc => hc.2 (sub23 (sub12 (sub01 hqiv)))),
            h3b q, if_neg (fun hc => hc.2 (sub12 (sub01 hqiv))),
            h2b q, if_neg (fun hc => hc.2 (sub01 hqiv)),
            h1b q, if_neg (fun hc => hc.2 hqiv)]
          rw [setCell]
          simp only [if_neg hqp]
        · rw [if_pos ⟨hq4, hqv⟩]
          by_cases hqp : q = p
          · subst hqp
            have hqiv : q ∈ insert q v := Finset.mem_insert_self q v
            rw [h4b q, if_neg (fun hc => hc.2 (sub23 (sub12 (sub01 hqiv)))),
              h3b q, if_neg (fun hc => hc.2 (sub12 (sub01 hqiv))),
              h2b q, if_neg (fun hc => hc.2 (sub01 hqiv)),
              h1b q, if_neg (fun hc => hc.2 hqiv)]
            rw [setCell]
            simp
          · have hqiv : q ∉ insert p v := by
              rw [Finset.mem_insert, not_or]
              exact ⟨hqp, hqv⟩
            by_cases hq1 : q ∈ w1
            · rw [h4b q, if_neg (fun hc => hc.2 (sub23 (sub12 hq1))),
                h3b q, if_neg (fun hc => hc.2 (sub12 hq1)),
                h2b q, if_neg (fun hc => hc.2 hq1),
                h1b q, if_pos ⟨hq1, hqiv⟩]
            · by_cases hq2 : q ∈ w2
              · rw [h4b q, if_neg (fun hc => hc.2 (sub23 hq2)),
                  h3b q, if_neg (fun hc => hc.2 hq2),
                  h2b q, if_pos ⟨hq2, hq1⟩]
              · by_cases hq3 : q ∈ w3
                · rw [h4b q, if_neg (fun hc => hc.2 hq3),
                    h3b q, if_pos ⟨hq3, hq2⟩]
                · rw [h4b q, if_pos ⟨hq4, hq3⟩]

/-- removeGroup clears exactly the connected group of the target stone
and leaves every other cell unchanged. -/
theorem removeGroup_spec (sizeX sizeY : Nat) (board : Board) (p : Pos) (player : Cell)
    (hb : inB sizeX sizeY p = true) (hp : board p = player) :
    (∀ q, InGroup sizeX sizeY board player p q →
      removeGroup sizeX sizeY board p player q = Cell.empty) ∧
    (∀ q, ¬ InGroup sizeX sizeY board player p q →
      removeGroup sizeX sizeY board p player q = board q) := by
  have hfuel : unexplored sizeX sizeY (∅ : Finset Pos) + 1 ≤ sizeX * sizeY + 1 := by
    have := unexplored_le sizeX sizeY (∅ : Finset Pos)
    omega
  obtain ⟨-, hchar⟩ := removeDFSGo_spec sizeX sizeY player board (sizeX * sizeY + 1)
    p board ∅ (fun q _ => rfl)
  have hmem : ∀ q, q ∈ groupDFSGo sizeX sizeY board player (sizeX * sizeY + 1) p ∅ ↔
      InGroup sizeX sizeY board player p q := by
    intro q
    rw [groupDFSGo_mem sizeX sizeY board player _ p ∅ hfuel q,
      reachAvoid_empty_iff sizeX sizeY board player p q]
    simp [hb, hp]
  constructor
  · intro q hq
    rw [removeGroup, hchar q, if_pos ⟨(hmem q).mpr hq, Finset.not_mem_empty q⟩]
  · intro q hq
    rw [removeGroup, hchar q, if_neg (fun hc => hq ((hmem q).mp hc.1))]

/-- Stability of a group and its liberties under a board modification that
preserves the group's cells, creates the colour nowhere, preserves empty
cells, and only empties cells that held the colour. -/
theorem group_stability (sizeX sizeY : Nat) (b bb : Board) (cc : Cell)
    (hcc : cc ≠ Cell.empty) (x : Pos) (hx : inB sizeX sizeY x = true)
    (hxc : b x = cc)
    (hA : ∀ w, InGroup sizeX sizeY b cc x w → bb w = b w)
    (hB : ∀ w, bb w = cc → b w = cc)
    (hC : ∀ r, b r = Cell.empty → bb r = Cell.empty)
    (hD : ∀ r, bb r = Cell.empty → b r = Cell.empty ∨ b r = cc) :
    (∀ w, InGroup sizeX sizeY bb cc x w ↔ InGroup sizeX sizeY b cc x w) ∧
    (GroupHasLiberty sizeX sizeY bb cc x ↔ GroupHasLiberty sizeX sizeY b cc x) := by
  have hgr : ∀ w, InGroup sizeX sizeY bb cc x w ↔ InGroup sizeX sizeY b cc x w := by
    intro w
    constructor
    · intro h
      induction h with
      | refl => exact Relation.ReflTransGen.refl
      | tail _hmid hstep ih =>
        exact Relation.ReflTransGen.tail ih
          ⟨hstep.1, hstep.2.1, hB _ hstep.2.2.1, hB _ hstep.2.2.2.1, hstep.2.2.2.2⟩
    · intro h
      induction h with
      | refl => exact Relation.ReflTransGen.refl
      | tail hmid hstep ih =>
        rename_i m w'
        have hxm : InGroup sizeX sizeY b cc x m := hmid
        have hxw : InGroup sizeX sizeY b cc x w' :=
          Relation.ReflTransGen.tail hmid hstep
        refine Relation.ReflTransGen.tail ih
          ⟨hstep.1, hstep.2.1, ?_, ?_, hstep.2.2.2.2⟩
        · rw [hA m hxm]; exact hstep.2.2.1
        · rw [hA w' hxw]; exact hstep.2.2.2.1
  refine ⟨hgr, ?_, ?_⟩
  · rintro ⟨w, r, hw, har, hrb, hre⟩
    have hbw : InGroup sizeX sizeY b cc x w := (hgr w).mp hw
    rcases hD r hre with hr | hr
    · exact ⟨w, r, hbw, har, hrb, hr⟩
    · exfalso
      obtain ⟨hwb, hwc⟩ := inGroup_endpoint hbw ⟨hx, hxc⟩
      have hxr : InGroup sizeX sizeY b cc x r :=
        Relation.ReflTransGen.tail hbw ⟨hwb, hrb, hwc, hr, har⟩
      rw [hA r hxr, hr] at hre
      exact hcc hre
  · rintro ⟨w, r, hw, har, hrb, hre⟩
    exact ⟨w, r, (hgr w).mpr hw, har, hrb, hC r hre⟩

/-- The capture-loop invariant is preserved by one directional step. -/
theorem captureStep_inv (sizeX sizeY : Nat) (bZ : Board) (p : Pos) (opp : Cell)
    (hoe : opp ≠ Cell.empty) (D : List (Int × Int))
    (st : Board × List Nat × List Pos) (d : Int × Int)
    (hd : Adj p (p.1 + d.1, p.2 + d.2))
    (hinv : CapturedInv sizeX sizeY bZ p opp D st) :
    CapturedInv sizeX sizeY bZ p opp (D ++ [d])
      (captureStep sizeX sizeY p opp st d) := by
  obtain ⟨hrm, hkeep, hprops, hpair, hsizes, hcompl⟩ := hinv
  have hcompl' : ∀ (L' : List Pos), st.2.2 ⊆ L' →
      ∀ d' ∈ D, inB sizeX sizeY (p.1 + d'.1, p.2 + d'.2) = true →
      bZ (p.1 + d'.1, p.2 + d'.2) = opp →
      ¬ GroupHasLiberty sizeX sizeY bZ opp (p.1 + d'.1, p.2 + d'.2) →
      ∃ c ∈ L', InGroup sizeX sizeY bZ opp c (p.1 + d'.1, p.2 + d'.2) := by
    intro L' hsub d' hd' h1 h2 h3
    obtain ⟨c, hc1, hc2⟩ := hcompl d' hd' h1 h2 h3
    exact ⟨c, hsub hc1, hc2⟩
  set q := (p.1 + d.1, p.2 + d.2) with hqdef
  unfold captureStep
  rw [← hqdef]
  by_cases hqb : inB sizeX sizeY q
  case neg =>
    rw [if_pos hqb]
    refine ⟨hrm, hkeep, hprops, hpair, hsizes, ?_⟩
    intro d' hd'
    rcases List.mem_append.mp hd' with hd' | hd'
    · exact hcompl d' hd'
    · rw [List.mem_singleton] at hd'
      subst hd'
      intro hb'
      exact absurd hb' hqb
  case pos =>
    rw [if_neg (not_not_intro hqb)]
    by_cases hrem : ∃ c ∈ st.2.2, InGroup sizeX sizeY bZ opp c q
    · have hqe : st.1 q = Cell.empty := hrm q hrem
      rw [if_neg (by
        rintro ⟨hc, -⟩
        have hcq : st.1 q = opp := hc
        rw [hqe] at hcq
        exact hoe hcq.symm)]
      refine ⟨hrm, hkeep, hprops, hpair, hsizes, ?_⟩
      intro d' hd'
      rcases List.mem_append.mp hd' with hd' | hd'
      · exact hcompl d' hd'
      · rw [List.mem_singleton] at hd'
        subst hd'
        intro _ _ _
        exact hrem
    · push_neg at hrem
      have hqZ : st.1 q = bZ q := hkeep q hrem
      by_cases hqo : bZ q = opp
      case neg =>
        rw [if_neg (by
          rintro ⟨hc, -⟩
          have hcq : st.1 q = opp := hc
          rw [hqZ] at hcq
          exact hqo hcq)]
        refine ⟨hrm, hkeep, hprops, hpair, hsizes, ?_⟩
        intro d' hd'
        rcases List.mem_append.mp hd' with hd' | hd'
        · exact hcompl d' hd'
        · rw [List.mem_singleton] at hd'
          subst hd'
          intro _ hb'
          exact absurd hb' hqo
      case pos =>
        have hA : ∀ w, InGroup sizeX sizeY bZ opp q w → st.1 w = bZ w := by
          intro w hw
          refine hkeep w (fun c hc hcw => ?_)
          exact hrem c hc (inGroup_trans hcw (inGroup_symm hw))
        have hB : ∀ w, st.1 w = opp → bZ w = opp := by
          intro w hw
          by_cases hwrem : ∃ c ∈ st.2.2, InGroup sizeX sizeY bZ opp c w
          · rw [hrm w hwrem] at hw
            exact absurd hw.symm hoe
          · push_neg at hwrem
            rw [← hkeep w hwrem]
            exact hw
        have hC : ∀ r, bZ r = Cell.empty → st.1 r = Cell.empty := by
          intro r hr
          by_cases hwrem : ∃ c ∈ st.2.2, InGroup sizeX sizeY bZ opp c r
          · exact hrm r hwrem
          · push_neg at hwrem
            rw [hkeep r hwrem]
            exact hr
        have hD : ∀ r, st.1 r = Cell.empty → bZ r = Cell.empty ∨ bZ r = opp := by
          intro r hr
          by_cases hwrem : ∃ c ∈ st.2.2, InGroup sizeX sizeY bZ opp c r
          · obtain ⟨c, hc, hcr⟩ := hwrem
            obtain ⟨-, hc2, hc3, -⟩ := hprops c hc
            exact Or.inr (inGroup_endpoint hcr ⟨hc2, hc3⟩).2
          · push_neg at hwrem
            rw [hkeep r hwrem] at hr
            exact Or.inl hr
        obtain ⟨hgr, hlib⟩ := group_stability sizeX sizeY bZ st.1 opp hoe q hqb hqo
          hA hB hC hD
        by_cases hgl : GroupHasLiberty sizeX sizeY bZ opp q
        case pos =>
          have hhl : hasLiberty sizeX sizeY st.1 q opp = true :=
            (hasLiberty_true_iff sizeX sizeY st.1 opp q hoe hqb).mpr
              (Or.inr ⟨by rw [hqZ]; exact hqo, hlib.mpr hgl⟩)
          rw [if_neg (by rintro ⟨-, hc⟩; exact hc hhl)]
          refine ⟨hrm, hkeep, hprops, hpair, hsizes, ?_⟩
          intro d' hd'
          rcases List.mem_append.mp hd' with hd' | hd'
          · exact hcompl d' hd'
          · rw [List.mem_singleton] at hd'
            subst hd'
            intro _ _ hlc
            exact absurd hgl hlc
        case neg =>
          have hhl : hasLiberty sizeX sizeY st.1 q opp = false := by
            rw [← Bool.not_eq_true]
            intro hc
            rcases (hasLiberty_true_iff sizeX sizeY st.1 opp q hoe hqb).mp hc with
              he | ⟨-, hg⟩
            · rw [hqZ, hqo] at he
              exact hoe he
            · exact hgl (hlib.mp hg)
          have hstq : st.1 q = opp := by rw [hqZ]; exact hqo
          rw [if_pos (show st.1 q = opp ∧ ¬ hasLiberty sizeX sizeY st.1 q opp = true
            from ⟨hstq, by rw [hhl]; simp⟩)]
          obtain ⟨hrg1, hrg2⟩ := removeGroup_spec sizeX sizeY st.1 q opp hqb hstq
          have hgs : getGroupSize sizeX sizeY st.1 q opp = 1 ↔
              ∀ w, InGroup sizeX sizeY bZ opp q w → w = q := by
            rw [getGroupSize_eq_one_iff sizeX sizeY st.1 opp q hqb hstq]
            constructor
            · intro hall w hw
              exact hall w (hgr w |>.mpr hw)
            · intro hall w hw
              exact hall w (hgr w |>.mp hw)
          refine ⟨?_, ?_, ?_, ?_, ?_, ?_⟩
          · intro w hw
            show removeGroup sizeX sizeY st.1 q opp w = Cell.empty
            obtain ⟨c, hc, hcw⟩ := hw
            have hc2 : c ∈ st.2.2 ++ [q] := hc
            rcases List.mem_append.mp hc2 with hc | hc
            · have hold : st.1 w = Cell.empty := hrm w ⟨c, hc, hcw⟩
              by_cases hqw : InGroup sizeX sizeY st.1 opp q w
              · exact hrg1 w hqw
              · rw [hrg2 w hqw]
                exact hold
            · rw [List.mem_singleton] at hc
              subst hc
              exact hrg1 w ((hgr w).mpr hcw)
          · intro w hw
            show removeGroup sizeX sizeY st.1 q opp w = bZ w
            have hwq : ¬ InGroup sizeX sizeY bZ opp q w :=
              hw q (List.mem_append_right _ (List.mem_singleton.mpr rfl))
            rw [hrg2 w (fun hc => hwq ((hgr w).mp hc))]
            exact hkeep w (fun c hc => hw c (List.mem_append_left _ hc))
          · intro c hc
            have hc2 : c ∈ st.2.2 ++ [q] := hc
            rcases List.mem_append.mp hc2 with hc | hc
            · exact hprops c hc
            · rw [List.mem_singleton] at hc
              subst hc
              exact ⟨hd, hqb, hqo, hgl⟩
          · show List.Pairwise _ (st.2.2 ++ [q])
            rw [List.pairwise_append]
            refine ⟨hpair, List.pairwise_singleton _ _, ?_⟩
            intro c hc c' hc'
            rw [List.mem_singleton] at hc'
            subst hc'
            exact hrem c hc
          · show List.Forall₂
                (fun s c => s = 1 ↔ ∀ w, InGroup sizeX sizeY bZ opp c w → w = c)
                (st.2.1 ++ [getGroupSize sizeX sizeY st.1 q opp]) (st.2.2 ++ [q])
            exact List.rel_append hsizes
              (List.forall₂_cons.mpr ⟨hgs, List.Forall₂.nil⟩)
          · intro d' hd'
            rcases List.mem_append.mp hd' with hd' | hd'
            · intro h1 h2 h3
              obtain ⟨c, hcmem, hcg⟩ :=
                hcompl' (st.2.2 ++ [q]) (fun c hc => List.mem_append_left _ hc)
                  d' hd' h1 h2 h3
              exact ⟨c, hcmem, hcg⟩
            · rw [List.mem_singleton] at hd'
              subst hd'
              intro _ _ _
              exact ⟨q, List.mem_append_right _ (List.mem_singleton.mpr rfl),
                Relation.ReflTransGen.refl⟩

theorem adj_dir (p : Pos) (d : Int × Int) (hd : d ∈ dirs) :
    Adj p (p.1 + d.1, p.2 + d.2) :=
  List.mem_map_of_mem _ hd

/-- After the whole capture loop the invariant holds for all four
directions. -/
theorem captureStones_loop_inv (sizeX sizeY : Nat) (board : Board) (p : Pos)
    (player : Cell) :
    CapturedInv sizeX sizeY board p (switchPlayer player) dirs
      (List.foldl (captureStep sizeX sizeY p (switchPlayer player))
        (board, [], []) dirs) := by
  have hoe : switchPlayer player ≠ Cell.empty := switchPlayer_ne_empty player
  have i0 : CapturedInv sizeX sizeY board p (switchPlayer player) []
      (board, [], []) := by
    refine ⟨?_, fun q _ => rfl, ?_, List.Pairwise.nil, List.Forall₂.nil, ?_⟩
    · rintro q ⟨c, hc, -⟩
      simp at hc
    · rintro c hc
      simp at hc
    · rintro d hd
      simp at hd
  have i1 := captureStep_inv sizeX sizeY board p (switchPlayer player) hoe []
    (board, [], []) (0, -1) (adj_dir p _ (by simp [dirs])) i0
  have i2 := captureStep_inv sizeX sizeY board p (switchPlayer player) hoe _
    _ (0, 1) (adj_dir p _ (by simp [dirs])) i1
  have i3 := captureStep_inv sizeX sizeY board p (switchPlayer player) hoe _
    _ (-1, 0) (adj_dir p _ (by simp [dirs])) i2
  have i4 := captureStep_inv sizeX sizeY board p (switchPlayer player) hoe _
    _ (1, 0) (adj_dir p _ (by simp [dirs])) i3
  have hD : (((([] : List (Int × Int)) ++ [(0, -1)]) ++ [(0, 1)]) ++ [(-1, 0)])
      ++ [(1, 0)] = dirs := by simp [dirs]
  rw [hD] at i4
  exact i4

/-- C2: captureStones returns the captured stone's location as the ko
point exactly when exactly one opponent group was captured, that group had
size 1, and the capturing stone's own resulting group has size 1; in every
other case it returns (-1, -1). -/
theorem C2_captureStones_ko_spec (sizeX sizeY : Nat) (board : Board) (p : Pos)
    (player : Cell) (hb : inB sizeX sizeY p = true) (hp : board p = player)
    (hpl : player = Cell.black ∨ player = Cell.white) :
    (∀ c : Pos, KoSpec sizeX sizeY board p player c →
      (captureStones sizeX sizeY board p player).2 = c) ∧
    ((¬ ∃ c, KoSpec sizeX sizeY board p player c) →
      (captureStones sizeX sizeY board p player).2 = (-1, -1)) := by
  have hoe : switchPlayer player ≠ Cell.empty := switchPlayer_ne_empty player
  have hpe : player ≠ Cell.empty := by rcases hpl with rfl | rfl <;> simp
  have hpopp : player ≠ switchPlayer player := by
    rcases hpl with rfl | rfl <;> simp [switchPlayer]
  set opp := switchPlayer player with hoppdef
  set st := List.foldl (captureStep sizeX sizeY p opp) (board, [], []) dirs
    with hstdef
  have inv := captureStones_loop_inv sizeX sizeY board p player
  rw [← hoppdef, ← hstdef] at inv
  obtain ⟨hrm, hkeep, hprops, hpair, hsizes, hcompl⟩ := inv
  have hLprops : ∀ c ∈ st.2.2, ¬ InGroup sizeX sizeY board opp c p := by
    intro c hc hgp
    obtain ⟨-, hc2, hc3, -⟩ := hprops c hc
    have hcol := (inGroup_endpoint hgp ⟨hc2, hc3⟩).2
    rw [hp] at hcol
    exact hpopp hcol
  have hstp : st.1 p = player := by rw [hkeep p hLprops]; exact hp
  have hlibp : st.2.2 ≠ [] → hasLiberty sizeX sizeY st.1 p player = true := by
    intro hne
    obtain ⟨c, hc⟩ := List.exists_mem_of_ne_nil _ hne
    obtain ⟨hadj, hc2, -, -⟩ := hprops c hc
    have hcempty : st.1 c = Cell.empty :=
      hrm c ⟨c, hc, Relation.ReflTransGen.refl⟩
    exact (hasLiberty_true_iff sizeX sizeY st.1 player p hpe hb).mpr
      (Or.inr ⟨hstp, p, c, Relation.ReflTransGen.refl, hadj, hc2, hcempty⟩)
  have hb1eq : st.2.2 ≠ [] →
      (if ¬ hasLiberty sizeX sizeY st.1 p player
        then removeGroup sizeX sizeY st.1 p player else st.1) = st.1 := by
    intro hne
    rw [hlibp hne]
    simp
  have hfun : ∀ c, st.2.2 = [c] →
      (∀ w, InGroup sizeX sizeY board opp c w → w = c) →
      st.1 = setCell board c Cell.empty := by
    intro c hL hsing
    funext w
    by_cases hw : w = c
    · subst hw
      rw [setCell_self]
      exact hrm w ⟨w, by rw [hL]; simp, Relation.ReflTransGen.refl⟩
    · rw [setCell, if_neg hw]
      refine hkeep w ?_
      intro cc hcc hgw
      rw [hL, List.mem_singleton] at hcc
      subst hcc
      exact hw (hsing w hgw)
  have hfind : ∀ q, Adj p q → inB sizeX sizeY q = true → board q = opp →
      ¬ GroupHasLiberty sizeX sizeY board opp q →
      ∃ c ∈ st.2.2, InGroup sizeX sizeY board opp c q := by
    intro q hadj h1 h2 h3
    obtain ⟨d, hd, hq⟩ := List.mem_map.mp hadj
    rw [← hq] at h1 h2 h3 ⊢
    exact hcompl d hd h1 h2 h3
  constructor
  · intro c hko
    obtain ⟨hadjc, hcb, hcolc, hlibc, hsing, huniq, hown⟩ := hko
    rw [← hoppdef] at hcolc hlibc hsing huniq
    obtain ⟨cq, hcqmem, hcqg⟩ := hfind c hadjc hcb hcolc hlibc
    have hcqc : cq = c := by
      obtain ⟨ha', hb', hcol', hl'⟩ := hprops cq hcqmem
      exact huniq cq ha' hb' hcol' hl'
    subst hcqc
    have hallc : ∀ x ∈ st.2.2, x = cq := by
      intro x hx
      obtain ⟨ha', hb', hcol', hl'⟩ := hprops x hx
      exact huniq x ha' hb' hcol' hl'
    have hLc : st.2.2 = [cq] := by
      rcases hL : st.2.2 with _ | ⟨x, _ | ⟨y, t⟩⟩
      · rw [hL] at hcqmem
        simp at hcqmem
      · rw [hallc x (by rw [hL]; simp)]
      · exfalso
        have hx : x = cq := hallc x (by rw [hL]; simp)
        have hy : y = cq := hallc y (by rw [hL]; simp)
        rw [hL] at hpair
        have := (List.pairwise_cons.mp hpair).1 y (by simp)
        rw [hx, hy] at this
        exact this Relation.ReflTransGen.refl
    have hsizes1 : ∃ s, st.2.1 = [s] ∧
        (s = 1 ↔ ∀ w, InGroup sizeX sizeY board opp cq w → w = cq) := by
      rw [hLc] at hsizes
      rcases List.forall₂_cons_right_iff.mp hsizes with ⟨s, l', hs, hnil, heq⟩
      exact ⟨s, by rw [heq, List.forall₂_nil_right_iff.mp hnil], hs⟩
    obtain ⟨s, hS, hsiff⟩ := hsizes1
    have hs1 : s = 1 := hsiff.mpr hsing
    have hfuneq : st.1 = setCell board cq Cell.empty := hfun cq hLc hsing
    have hne : st.2.2 ≠ [] := by rw [hLc]; simp
    have hown1 : getGroupSize sizeX sizeY st.1 p player = 1 := by
      rw [getGroupSize_eq_one_iff sizeX sizeY st.1 player p hb hstp, hfuneq]
      exact hown
    show (captureStones sizeX sizeY board p player).2 = cq
    unfold captureStones
    dsimp only
    rw [← hoppdef, ← hstdef, hS, hLc, hb1eq hne]
    dsimp only
    rw [if_pos ⟨hs1, hown1⟩]
  · intro hnone
    show (captureStones sizeX sizeY board p player).2 = (-1, -1)
    unfold captureStones
    dsimp only
    rw [← hoppdef, ← hstdef]
    rcases hL : st.2.2 with _ | ⟨c0, _ | ⟨c1, t⟩⟩
    · have hS : st.2.1 = [] := by
        rw [hL] at hsizes
        exact List.forall₂_nil_right_iff.mp hsizes
      rw [hS]
    · have hc0mem : c0 ∈ st.2.2 := by rw [hL]; simp
      have hsizes1 : ∃ s, st.2.1 = [s] ∧
          (s = 1 ↔ ∀ w, InGroup sizeX sizeY board opp c0 w → w = c0) := by
        rw [hL] at hsizes
        rcases List.forall₂_cons_right_iff.mp hsizes with ⟨s, l', hs, hnil, heq⟩
        exact ⟨s, by rw [heq, List.forall₂_nil_right_iff.mp hnil], hs⟩
      obtain ⟨s, hS, hsiff⟩ := hsizes1
      have hne : st.2.2 ≠ [] := by rw [hL]; simp
      rw [hS, hb1eq hne]
      dsimp only
      rw [if_neg]
      rintro ⟨hs1, hcap1⟩
      have hsing : ∀ w, InGroup sizeX sizeY board opp c0 w → w = c0 :=
        hsiff.mp hs1
      obtain ⟨hadj0, hb0, hcol0, hlib0⟩ := hprops c0 hc0mem
      have hfuneq : st.1 = setCell board c0 Cell.empty := hfun c0 hL hsing
      have hown : ∀ w, InGroup sizeX sizeY (setCell board c0 Cell.empty)
          player p w → w = p := by
        rw [← hfuneq]
        exact (getGroupSize_eq_one_iff sizeX sizeY st.1 player p hb hstp).mp hcap1
      have huniq : ∀ q, Adj p q → inB sizeX sizeY q = true →
          board q = opp → ¬ GroupHasLiberty sizeX sizeY board opp q → q = c0 := by
        intro q hadj h1 h2 h3
        obtain ⟨cc, hccmem, hccg⟩ := hfind q hadj h1 h2 h3
        rw [hL, List.mem_singleton] at hccmem
        subst hccmem
        exact hsing q hccg
      exact hnone ⟨c0, hadj0, hb0, hcol0, hlib0, hsing, huniq, hown⟩
    · have hsizes2 : ∃ s0 s1 t', st.2.1 = s0 :: s1 :: t' := by
        rw [hL] at hsizes
        rcases List.forall₂_cons_right_iff.mp hsizes with ⟨s0, l', -, hrest, heq⟩
        rcases List.forall₂_cons_right_iff.mp hrest with ⟨s1, l'', -, -, heq'⟩
        exact ⟨s0, s1, l'', by rw [heq, heq']⟩
      obtain ⟨s0, s1, t', hS⟩ := hsizes2
      rw [hS]

/-- Witness for C2 at the ko board: black at (1, 2) captures the lone
white stone at (1, 1). -/
theorem C2_captureStones_ko_spec_witness :
    inB 3 3 (1, 2) = true ∧ koCaptureBoard (1, 2) = Cell.black ∧
      ((∀ c : Pos, KoSpec 3 3 koCaptureBoard (1, 2) Cell.black c →
        (captureStones 3 3 koCaptureBoard (1, 2) Cell.black).2 = c) ∧
      ((¬ ∃ c, KoSpec 3 3 koCaptureBoard (1, 2) Cell.black c) →
        (captureStones 3 3 koCaptureBoard (1, 2) Cell.black).2 = (-1, -1))) :=
  ⟨by decide, by decide,
    C2_captureStones_ko_spec 3 3 koCaptureBoard (1, 2) Cell.black
      (by decide) (by decide) (Or.inl rfl)⟩

theorem modifyChild_getElem_self (cs : List GTree) (i : Nat) (f : GTree → GTree)
    (c : GTree) (h : cs[i]? = some c) : (modifyChild cs i f)[i]? = some (f c) := by
  induction cs generalizing i with
  | nil => simp at h
  | cons x xs ih =>
    cases i with
    | zero => simp_all [modifyChild]
    | succ j => simpa [modifyChild] using ih j (by simpa using h)

theorem modifyChild_getElem_ne (cs : List GTree) (i : Nat) (f : GTree → GTree)
    (j : Nat) (hne : j ≠ i) : (modifyChild cs i f)[j]? = cs[j]? := by
  induction cs generalizing i j with
  | nil => simp [modifyChild]
  | cons x xs ih =>
    cases i with
    | zero =>
      cases j with
      | zero => exact absurd rfl hne
      | succ k => simp [modifyChild]
    | succ i' =>
      cases j with
      | zero => simp [modifyChild]
      | succ k => simpa [modifyChild] using ih i' k (fun h => hne (by rw [h]))

theorem getNode_append (a : List Nat) : ∀ (t : GTree) (b : List Nat),
    getNode t (a ++ b) = (getNode t a).bind (fun m => getNode m b) := by
  induction a with
  | nil => intro t b; simp [getNode]
  | cons i rest ih =>
    rintro ⟨d, cs⟩ b
    show getNode (GTree.mk d cs) (i :: (rest ++ b)) = _
    rw [getNode]
    rcases h : cs[i]? with - | c
    · simp [getNode, h]
    · simpa [getNode, h] using ih c b

theorem getNode_appendAt_self (path : List Nat) : ∀ (t : GTree) (d : NodeData)
    (cs : List GTree) (n : GTree), getNode t path = some (GTree.mk d cs) →
    getNode (appendAt t path n) path = some (GTree.mk d (cs ++ [n])) := by
  induction path with
  | nil =>
    rintro ⟨d0, cs0⟩ d cs n h
    rw [getNode] at h
    cases h
    rfl
  | cons i rest ih =>
    rintro ⟨d0, cs0⟩ d cs n h
    rw [getNode] at h
    rcases hc : cs0[i]? with - | c
    · rw [hc] at h; exact absurd h (by simp)
    · rw [hc] at h
      show getNode (GTree.mk d0 (modifyChild cs0 i _)) (i :: rest) = _
      rw [getNode, modifyChild_getElem_self cs0 i _ c hc]
      exact ih c d cs n h

theorem appendAt_frame (q : List Nat) : ∀ (t : GTree) (path : List Nat)
    (n m : GTree), getNode t q = some m →
    ∃ m', getNode (appendAt t path n) q = some m' ∧ m'.data = m.data := by
  induction q with
  | nil =>
    rintro ⟨d, cs⟩ path n m h
    rw [getNode] at h
    cases h
    rcases path with - | ⟨i, rest⟩
    · exact ⟨_, rfl, rfl⟩
    · exact ⟨_, rfl, rfl⟩
  | cons j qrest ih =>
    rintro ⟨d, cs⟩ path n m h
    rw [getNode] at h
    rcases hc : cs[j]? with - | c
    · rw [hc] at h; exact absurd h (by simp)
    · rw [hc] at h
      rcases path with - | ⟨i, rest⟩
      · refine ⟨m, ?_, rfl⟩
        show getNode (GTree.mk d (cs ++ [n])) (j :: qrest) = some m
        rw [getNode]
        have hj : j < cs.length := (List.getElem?_eq_some_iff.mp hc).1
        rw [List.getElem?_append_left hj, hc]
        exact h
      · by_cases hij : j = i
        · subst hij
          obtain ⟨m', hm', hd⟩ := ih c rest n m h
          refine ⟨m', ?_, hd⟩
          show getNode (GTree.mk d (modifyChild cs j _)) (j :: qrest) = some m'
          rw [getNode, modifyChild_getElem_self cs j _ c hc]
          exact hm'
        · refine ⟨m, ?_, rfl⟩
          show getNode (GTree.mk d (modifyChild cs i _)) (j :: qrest) = some m
          rw [getNode, modifyChild_getElem_ne cs i _ j hij, hc]
          exact h

/-- C9: a pass creates a new child node whose board equals the parent
board cell for cell, whose move is (-1, -1) and whose ko point is
cleared; the node is appended as the last child of the current node,
becomes current, and the data (in particular the board) of every
pre-existing node of the tree is unchanged. -/
theorem C9_handlePass_frame (t : GTree) (path : List Nat) (cur : GTree)
    (h : getNode t path = some cur) :
    getNode (handlePass t path).1 (handlePass t path).2 =
      some (GTree.mk (passNode cur.data) []) ∧
    (∀ p : Pos, (passNode cur.data).boardState p = cur.data.boardState p) ∧
    (passNode cur.data).move = (-1, -1) ∧
    (passNode cur.data).koX = -1 ∧ (passNode cur.data).koY = -1 ∧
    getNode (handlePass t path).1 path =
      some (GTree.mk cur.data (cur.children ++ [GTree.mk (passNode cur.data) []])) ∧
    (∀ q m, getNode t q = some m →
      ∃ m', getNode (handlePass t path).1 q = some m' ∧ m'.data = m.data) := by
  obtain ⟨d, cs⟩ := cur
  have hdata : (GTree.mk d cs).data = d := rfl
  have hch : (GTree.mk d cs).children = cs := rfl
  rw [hdata, hch]
  have hself := getNode_appendAt_self path t d cs (GTree.mk (passNode d) []) h
  have hpass : handlePass t path =
      (appendAt t path (GTree.mk (passNode d) []), path ++ [cs.length]) := by
    rw [handlePass, h]
    rfl
  rw [hpass]
  refine ⟨?_, fun p => rfl, rfl, rfl, rfl, hself, ?_⟩
  · rw [getNode_append, hself]
    show getNode (GTree.mk d (cs ++ [GTree.mk (passNode d) []])) [cs.length] = _
    rw [getNode]
    have hlen : (cs ++ [GTree.mk (passNode d) []])[cs.length]? =
        some (GTree.mk (passNode d) []) := by
      rw [List.getElem?_append_right (le_refl _)]
      simp
    rw [hlen]
    rfl
  · intro q m hq
    exact appendAt_frame q t path (GTree.mk (passNode d) []) m hq

/-- Witness for C9 at a one-node tree. -/
theorem C9_handlePass_frame_witness :
    getNode rootTree [] = some rootTree ∧
      (getNode (handlePass rootTree []).1 (handlePass rootTree []).2 =
        some (GTree.mk (passNode rootTree.data) []) ∧
      (∀ p : Pos, (passNode rootTree.data).boardState p = rootTree.data.boardState p) ∧
      (passNode rootTree.data).move = (-1, -1) ∧
      (passNode rootTree.data).koX = -1 ∧ (passNode rootTree.data).koY = -1 ∧
      getNode (handlePass rootTree []).1 [] =
        some (GTree.mk rootTree.data
          (rootTree.children ++ [GTree.mk (passNode rootTree.data) []])) ∧
      (∀ q m, getNode rootTree q = some m →
        ∃ m', getNode (handlePass rootTree []).1 q = some m' ∧ m'.data = m.data)) :=
  ⟨rfl, C9_handlePass_frame rootTree [] rootTree rfl⟩

theorem floodStep_fst (sizeX sizeY : Nat) (board m : Board) (v : Finset Pos)
    (c : Pos) (sa : List Pos × Finset Cell) (d : Int × Int) :
    (floodStep sizeX sizeY board m v c sa d).1 = sa.1 ∨
    ((floodStep sizeX sizeY board m v c sa d).1 = (c.1 + d.1, c.2 + d.2) :: sa.1 ∧
      inB sizeX sizeY (c.1 + d.1, c.2 + d.2) = true ∧
      board (c.1 + d.1, c.2 + d.2) = Cell.empty ∧ (c.1 + d.1, c.2 + d.2) ∉ v) := by
  unfold floodStep
  by_cases h1 : inB sizeX sizeY (c.1 + d.1, c.2 + d.2) = true
  · rw [if_pos h1]
    by_cases h2 : board (c.1 + d.1, c.2 + d.2) = Cell.empty ∧ (c.1 + d.1, c.2 + d.2) ∉ v
    · rw [if_pos h2]
      exact Or.inr ⟨rfl, h1, h2.1, h2.2⟩
    · rw [if_neg h2]
      by_cases h3 : m (c.1 + d.1, c.2 + d.2) = Cell.black ∨
          m (c.1 + d.1, c.2 + d.2) = Cell.white
      · rw [if_pos h3]
        exact Or.inl rfl
      · rw [if_neg h3]
        exact Or.inl rfl
  · rw [if_neg h1]
    exact Or.inl rfl

theorem floodStep_snd (sizeX sizeY : Nat) (board m : Board) (v : Finset Pos)
    (c : Pos) (sa : List Pos × Finset Cell) (d : Int × Int) :
    (floodStep sizeX sizeY board m v c sa d).2 = sa.2 ∨
    ((floodStep sizeX sizeY board m v c sa d).2 =
        insert (m (c.1 + d.1, c.2 + d.2)) sa.2 ∧
      inB sizeX sizeY (c.1 + d.1, c.2 + d.2) = true ∧
      ¬ (board (c.1 + d.1, c.2 + d.2) = Cell.empty ∧ (c.1 + d.1, c.2 + d.2) ∉ v) ∧
      (m (c.1 + d.1, c.2 + d.2) = Cell.black ∨
        m (c.1 + d.1, c.2 + d.2) = Cell.white)) := by
  unfold floodStep
  by_cases h1 : inB sizeX sizeY (c.1 + d.1, c.2 + d.2) = true
  · rw [if_pos h1]
    by_cases h2 : board (c.1 + d.1, c.2 + d.2) = Cell.empty ∧ (c.1 + d.1, c.2 + d.2) ∉ v
    · rw [if_pos h2]
      exact Or.inl rfl
    · rw [if_neg h2]
      by_cases h3 : m (c.1 + d.1, c.2 + d.2) = Cell.black ∨
          m (c.1 + d.1, c.2 + d.2) = Cell.white
      · rw [if_pos h3]
        exact Or.inr ⟨rfl, h1, h2, h3⟩
      · rw [if_neg h3]
        exact Or.inl rfl
  · rw [if_neg h1]
    exact Or.inl rfl

theorem floodStep_push (sizeX sizeY : Nat) (board m : Board) (v : Finset Pos)
    (c : Pos) (sa : List Pos × Finset Cell) (d : Int × Int)
    (h1 : inB sizeX sizeY (c.1 + d.1, c.2 + d.2) = true)
    (h2 : board (c.1 + d.1, c.2 + d.2) = Cell.empty)
    (h3 : (c.1 + d.1, c.2 + d.2) ∉ v) :
    (floodStep sizeX sizeY board m v c sa d).1 = (c.1 + d.1, c.2 + d.2) :: sa.1 := by
  unfold floodStep
  rw [if_pos h1, if_pos ⟨h2, h3⟩]

theorem floodStep_addcol (sizeX sizeY : Nat) (board m : Board) (v : Finset Pos)
    (c : Pos) (sa : List Pos × Finset Cell) (d : Int × Int)
    (h1 : inB sizeX sizeY (c.1 + d.1, c.2 + d.2) = true)
    (h2 : ¬ (board (c.1 + d.1, c.2 + d.2) = Cell.empty ∧ (c.1 + d.1, c.2 + d.2) ∉ v))
    (h3 : m (c.1 + d.1, c.2 + d.2) = Cell.black ∨
      m (c.1 + d.1, c.2 + d.2) = Cell.white) :
    (floodStep sizeX sizeY board m v c sa d).2 =
      insert (m (c.1 + d.1, c.2 + d.2)) sa.2 := by
  unfold floodStep
  rw [if_pos h1, if_neg h2, if_pos h3]

theorem floodSteps_fst_mono (sizeX sizeY : Nat) (board m : Board) (v : Finset Pos)
    (c : Pos) (ds : List (Int × Int)) : ∀ (sa : List Pos × Finset Cell) (x : Pos),
    x ∈ sa.1 → x ∈ (ds.foldl (floodStep sizeX sizeY board m v c) sa).1 := by
  induction ds with
  | nil => intro sa x hx; exact hx
  | cons d ds ih =>
    intro sa x hx
    rw [List.foldl_cons]
    refine ih _ x ?_
    rcases floodStep_fst sizeX sizeY board m v c sa d with h | ⟨h, -⟩
    · rw [h]; exact hx
    · rw [h]; exact List.mem_cons_of_mem _ hx

theorem floodSteps_fst_src (sizeX sizeY : Nat) (board m : Board) (v : Finset Pos)
    (c : Pos) (ds : List (Int × Int)) : ∀ (sa : List Pos × Finset Cell) (x : Pos),
    x ∈ (ds.foldl (floodStep sizeX sizeY board m v c) sa).1 →
    x ∈ sa.1 ∨ ∃ d ∈ ds, x = (c.1 + d.1, c.2 + d.2) ∧
      inB sizeX sizeY x = true ∧ board x = Cell.empty ∧ x ∉ v := by
  induction ds with
  | nil => intro sa x hx; exact Or.inl hx
  | cons d ds ih =>
    intro sa x hx
    rw [List.foldl_cons] at hx
    rcases ih _ x hx with hx' | ⟨d', hd', he⟩
    · rcases floodStep_fst sizeX sizeY board m v c sa d with h | ⟨h, h1, h2, h3⟩
      · rw [h] at hx'; exact Or.inl hx'
      · rw [h] at hx'
        rcases List.mem_cons.mp hx' with rfl | hmem
        · exact Or.inr ⟨d, List.mem_cons_self _ _, rfl, h1, h2, h3⟩
        · exact Or.inl hmem
    · exact Or.inr ⟨d', List.mem_cons_of_mem _ hd', he⟩

theorem floodSteps_fst_len (sizeX sizeY : Nat) (board m : Board) (v : Finset Pos)
    (c : Pos) (ds : List (Int × Int)) : ∀ (sa : List Pos × Finset Cell),
    (ds.foldl (floodStep sizeX sizeY board m v c) sa).1.length ≤
      sa.1.length + ds.length := by
  induction ds with
  | nil => intro sa; simp
  | cons d ds ih =>
    intro sa
    rw [List.foldl_cons]
    refine le_trans (ih _) ?_
    rcases floodStep_fst sizeX sizeY board m v c sa d with h | ⟨h, -⟩
    · rw [h]; simp only [List.length_cons]; omega
    · rw [h]; simp only [List.length_cons]; omega

theorem floodSteps_push (sizeX sizeY : Nat) (board m : Board) (v : Finset Pos)
    (c : Pos) (ds : List (Int × Int)) : ∀ (sa : List Pos × Finset Cell)
    (d : Int × Int), d ∈ ds →
    inB sizeX sizeY (c.1 + d.1, c.2 + d.2) = true →
    board (c.1 + d.1, c.2 + d.2) = Cell.empty → (c.1 + d.1, c.2 + d.2) ∉ v →
    (c.1 + d.1, c.2 + d.2) ∈ (ds.foldl (floodStep sizeX sizeY board m v c) sa).1 := by
  induction ds with
  | nil => intro sa d hd; simp at hd
  | cons d0 ds ih =>
    intro sa d hd h1 h2 h3
    rw [List.foldl_cons]
    rcases List.mem_cons.mp hd with rfl | hmem
    · refine floodSteps_fst_mono sizeX sizeY board m v c ds _ _ ?_
      rw [floodStep_push sizeX sizeY board m v c sa d h1 h2 h3]
      exact List.mem_cons_self _ _
    · exact ih _ d hmem h1 h2 h3

theorem floodSteps_snd_mono (sizeX sizeY : Nat) (board m : Board) (v : Finset Pos)
    (c : Pos) (ds : List (Int × Int)) : ∀ (sa : List Pos × Finset Cell) (col : Cell),
    col ∈ sa.2 → col ∈ (ds.foldl (floodStep sizeX sizeY board m v c) sa).2 := by
  induction ds with
  | nil => intro sa col hx; exact hx
  | cons d ds ih =>
    intro sa col hx
    rw [List.foldl_cons]
    refine ih _ col ?_
    rcases floodStep_snd sizeX sizeY board m v c sa d with h | ⟨h, -⟩
    · rw [h]; exact hx
    · rw [h]; exact Finset.mem_insert_of_mem hx

theorem floodSteps_snd_src (sizeX sizeY : Nat) (board m : Board) (v : Finset Pos)
    (c : Pos) (ds : List (Int × Int)) : ∀ (sa : List Pos × Finset Cell) (col : Cell),
    col ∈ (ds.foldl (floodStep sizeX sizeY board m v c) sa).2 →
    col ∈ sa.2 ∨ ∃ d ∈ ds, inB sizeX sizeY (c.1 + d.1, c.2 + d.2) = true ∧
      ¬ (board (c.1 + d.1, c.2 + d.2) = Cell.empty ∧ (c.1 + d.1, c.2 + d.2) ∉ v) ∧
      (m (c.1 + d.1, c.2 + d.2) = Cell.black ∨
        m (c.1 + d.1, c.2 + d.2) = Cell.white) ∧
      col = m (c.1 + d.1, c.2 + d.2) := by
  induction ds with
  | nil => intro sa col hx; exact Or.inl hx
  | cons d ds ih =>
    intro sa col hx
    rw [List.foldl_cons] at hx
    rcases ih _ col hx with hx' | ⟨d', hd', he⟩
    · rcases floodStep_snd sizeX sizeY board m v c sa d with h | ⟨h, h1, h2, h3⟩
      · rw [h] at hx'; exact Or.inl hx'
      · rw [h] at hx'
        rcases Finset.mem_insert.mp hx' with rfl | hmem
        · exact Or.inr ⟨d, List.mem_cons_self _ _, h1, h2, h3, rfl⟩
        · exact Or.inl hmem
    · exact Or.inr ⟨d', List.mem_cons_of_mem _ hd', he⟩

theorem floodSteps_addcol (sizeX sizeY : Nat) (board m : Board) (v : Finset Pos)
    (c : Pos) (ds : List (Int × Int)) : ∀ (sa : List Pos × Finset Cell)
    (d : Int × Int), d ∈ ds →
    inB sizeX sizeY (c.1 + d.1, c.2 + d.2) = true →
    ¬ (board (c.1 + d.1, c.2 + d.2) = Cell.empty ∧ (c.1 + d.1, c.2 + d.2) ∉ v) →
    (m (c.1 + d.1, c.2 + d.2) = Cell.black ∨
      m (c.1 + d.1, c.2 + d.2) = Cell.white) →
    m (c.1 + d.1, c.2 + d.2) ∈ (ds.foldl (floodStep sizeX sizeY board m v c) sa).2 := by
  induction ds with
  | nil => intro sa d hd; simp at hd
  | cons d0 ds ih =>
    intro sa d hd h1 h2 h3
    rw [List.foldl_cons]
    rcases List.mem_cons.mp hd with rfl | hmem
    · refine floodSteps_snd_mono sizeX sizeY board m v c ds _ _ ?_
      rw [floodStep_addcol sizeX sizeY board m v c sa d h1 h2 h3]
      exact Finset.mem_insert_self _ _
    · exact ih _ d hmem h1 h2 h3

/-- Full characterisation of one region flood of
assignTerritoryToEmptyRegions: the newly visited cells are exactly the
appended region cells, all lie in the empty component of the seed s,
the final visited set is closed under empty adjacency, every stack cell
ends visited, and adjacentStones grows exactly by the bordering stone
map values plus possibly map values of already-visited empty cells of
the component. -/
theorem floodLoop_spec (sizeX sizeY : Nat) (board m : Board) (s : Pos) :
    ∀ (fuel : Nat) (stack : List Pos) (visited : Finset Pos) (region : List Pos)
      (adj : Finset Cell),
    4 * unexplored sizeX sizeY visited + stack.length + 1 ≤ fuel →
    (∀ t ∈ stack, inB sizeX sizeY t = true ∧ board t = Cell.empty ∧
      InGroup sizeX sizeY board Cell.empty s t) →
    (∀ w ∈ visited, ∀ n ∈ nbrs w, inB sizeX sizeY n = true →
      board n = Cell.empty → (n ∈ visited ∨ n ∈ stack)) →
    (∃ new,
      (floodLoop sizeX sizeY board m fuel stack visited region adj).2.1 =
        region ++ new ∧
      (floodLoop sizeX sizeY board m fuel stack visited region adj).1 =
        visited ∪ new.toFinset ∧
      (∀ x ∈ new, x ∉ visited ∧ inB sizeX sizeY x = true ∧
        board x = Cell.empty ∧ InGroup sizeX sizeY board Cell.empty s x ∧
        (∀ n ∈ nbrs x, inB sizeX sizeY n = true → board n ≠ Cell.empty →
          (m n = Cell.black ∨ m n = Cell.white) →
          m n ∈ (floodLoop sizeX sizeY board m fuel stack visited region adj).2.2))) ∧
    (∀ t ∈ stack, t ∈ (floodLoop sizeX sizeY board m fuel stack visited region adj).1) ∧
    (∀ w ∈ (floodLoop sizeX sizeY board m fuel stack visited region adj).1,
      ∀ n ∈ nbrs w, inB sizeX sizeY n = true → board n = Cell.empty →
      n ∈ (floodLoop sizeX sizeY board m fuel stack visited region adj).1) ∧
    (∀ col ∈ adj, col ∈
      (floodLoop sizeX sizeY board m fuel stack visited region adj).2.2) ∧
    (∀ col ∈ (floodLoop sizeX sizeY board m fuel stack visited region adj).2.2,
      col ∈ adj ∨ ((col = Cell.black ∨ col = Cell.white) ∧
        ((∃ r q, InGroup sizeX sizeY board Cell.empty s r ∧ Adj r q ∧
          inB sizeX sizeY q = true ∧ board q ≠ Cell.empty ∧ m q = col) ∨
         (∃ n, inB sizeX sizeY n = true ∧ board n = Cell.empty ∧
          InGroup sizeX sizeY board Cell.empty s n ∧ m n = col)))) := by
  intro fuel
  induction fuel with
  | zero => intro stack visited region adj hfuel; omega
  | succ fuel ih =>
    intro stack visited region adj hfuel hstack hinv
    rcases stack with - | ⟨c, rest⟩
    · have heq : floodLoop sizeX sizeY board m (fuel + 1) [] visited region adj =
          (visited, region, adj) := rfl
      rw [heq]
      refine ⟨⟨[], by simp, by simp, by simp⟩, by simp, ?_, fun col h => h, fun col h => Or.inl h⟩
      intro w hw n hn h1 h2
      rcases hinv w hw n hn h1 h2 with h | h
      · exact h
      · simp at h
    · by_cases hc : c ∈ visited
      · have heq : floodLoop sizeX sizeY board m (fuel + 1) (c :: rest) visited region adj =
            floodLoop sizeX sizeY board m fuel rest visited region adj := by
          rw [floodLoop, if_pos hc]
        rw [heq]
        have hfuel' : 4 * unexplored sizeX sizeY visited + rest.length + 1 ≤ fuel := by
          simp only [List.length_cons] at hfuel; omega
        have hstack' : ∀ t ∈ rest, inB sizeX sizeY t = true ∧ board t = Cell.empty ∧
            InGroup sizeX sizeY board Cell.empty s t :=
          fun t ht => hstack t (List.mem_cons_of_mem _ ht)
        have hinv' : ∀ w ∈ visited, ∀ n ∈ nbrs w, inB sizeX sizeY n = true →
            board n = Cell.empty → (n ∈ visited ∨ n ∈ rest) := by
          intro w hw n hn h1 h2
          rcases hinv w hw n hn h1 h2 with h | h
          · exact Or.inl h
          · rcases List.mem_cons.mp h with rfl | h'
            · exact Or.inl hc
            · exact Or.inr h'
        obtain ⟨hC1, hC2, hC3, hC4, hC5⟩ := ih rest visited region adj hfuel' hstack' hinv'
        refine ⟨hC1, ?_, hC3, hC4, hC5⟩
        intro t ht
        rcases List.mem_cons.mp ht with rfl | ht'
        · obtain ⟨new, -, hvis, -⟩ := hC1
          rw [hvis]
          exact Finset.mem_union_left _ hc
        · exact hC2 t ht'
      · obtain ⟨hb, hbe, hgs⟩ := hstack c (List.mem_cons_self _ _)
        set v' := insert c visited with hvPdef
        set sa := dirs.foldl (floodStep sizeX sizeY board m v' c) (rest, adj) with hsadef
        have heq : floodLoop sizeX sizeY board m (fuel + 1) (c :: rest) visited region adj =
            floodLoop sizeX sizeY board m fuel sa.1 v' (region ++ [c]) sa.2 := by
          rw [floodLoop, if_neg hc]
        rw [heq]
        have hu : unexplored sizeX sizeY v' + 1 = unexplored sizeX sizeY visited :=
          unexplored_insert hb hc
        have hlen : sa.1.length ≤ rest.length + 4 := by
          have := floodSteps_fst_len sizeX sizeY board m v' c dirs (rest, adj)
          simpa [dirs] using this
        have hfuel' : 4 * unexplored sizeX sizeY v' + sa.1.length + 1 ≤ fuel := by
          simp only [List.length_cons] at hfuel; omega
        have hstack' : ∀ t ∈ sa.1, inB sizeX sizeY t = true ∧ board t = Cell.empty ∧
            InGroup sizeX sizeY board Cell.empty s t := by
          intro t ht
          rcases floodSteps_fst_src sizeX sizeY board m v' c dirs (rest, adj) t ht with
            ht' | ⟨d, hd, rfl, h1, h2, h3⟩
          · exact hstack t (List.mem_cons_of_mem _ ht')
          · exact ⟨h1, h2, Relation.ReflTransGen.tail hgs ⟨hb, h1, hbe, h2, adj_dir c d hd⟩⟩
        have hinv' : ∀ w ∈ v', ∀ n ∈ nbrs w, inB sizeX sizeY n = true →
            board n = Cell.empty → (n ∈ v' ∨ n ∈ sa.1) := by
          intro w hw n hn h1 h2
          rcases Finset.mem_insert.mp hw with rfl | hw'
          · by_cases hnv : n ∈ v'
            · exact Or.inl hnv
            · obtain ⟨d, hd, rfl⟩ := List.mem_map.mp hn
              exact Or.inr (floodSteps_push sizeX sizeY board m v' w dirs (rest, adj)
                d hd h1 h2 hnv)
          · rcases hinv w hw' n hn h1 h2 with h | h
            · exact Or.inl (Finset.mem_insert_of_mem h)
            · rcases List.mem_cons.mp h with rfl | h'
              · exact Or.inl (Finset.mem_insert_self _ _)
              · exact Or.inr (floodSteps_fst_mono sizeX sizeY board m v' c dirs (rest, adj) n h')
        obtain ⟨⟨new', hreg', hvis', hprops'⟩, hC2', hC3', hC4', hC5'⟩ :=
          ih sa.1 v' (region ++ [c]) sa.2 hfuel' hstack' hinv'
        refine ⟨⟨c :: new', ?_, ?_, ?_⟩, ?_, hC3', ?_, ?_⟩
        · rw [hreg']; simp
        · rw [hvis', hvPdef]
          ext q
          simp only [Finset.mem_union, Finset.mem_insert, List.toFinset_cons,
            List.mem_toFinset]
          tauto
        · intro x hx
          rcases List.mem_cons.mp hx with rfl | hx'
          · refine ⟨hc, hb, hbe, hgs, ?_⟩
            intro n hn h1 h2 h3
            obtain ⟨d, hd, rfl⟩ := List.mem_map.mp hn
            refine hC4' _ ?_
            exact floodSteps_addcol sizeX sizeY board m v' x dirs (rest, adj) d hd h1
              (fun hcon => h2 hcon.1) h3
          · obtain ⟨hxv, h1, h2, h3, h4⟩ := hprops' x hx'
            exact ⟨fun hcon => hxv (Finset.mem_insert_of_mem hcon), h1, h2, h3, h4⟩
        · intro t ht
          rcases List.mem_cons.mp ht with rfl | ht'
          · rw [hvis']
            exact Finset.mem_union_left _ (Finset.mem_insert_self _ _)
          · exact hC2' t (floodSteps_fst_mono sizeX sizeY board m v' c dirs (rest, adj) t ht')
        · exact fun col hcol =>
            hC4' col (floodSteps_snd_mono sizeX sizeY board m v' c dirs (rest, adj) col hcol)
        · intro col hcol
          rcases hC5' col hcol with hsa | hrest
          · rcases floodSteps_snd_src sizeX sizeY board m v' c dirs (rest, adj) col hsa with
              hadj | ⟨d, hd, h1, h2, h3, rfl⟩
            · exact Or.inl hadj
            · refine Or.inr ⟨h3, ?_⟩
              by_cases hne : board (c.1 + d.1, c.2 + d.2) = Cell.empty
              · exact Or.inr ⟨(c.1 + d.1, c.2 + d.2), h1, hne,
                  Relation.ReflTransGen.tail hgs ⟨hb, h1, hbe, hne, adj_dir c d hd⟩, rfl⟩
              · exact Or.inl ⟨c, (c.1 + d.1, c.2 + d.2), hgs, adj_dir c d hd, h1, hne, rfl⟩
          · exact Or.inr hrest

theorem closed_inGroup (sizeX sizeY : Nat) (board : Board) (S : Finset Pos)
    (hcl : ∀ w ∈ S, ∀ n ∈ nbrs w, inB sizeX sizeY n = true →
      board n = Cell.empty → n ∈ S)
    {s q : Pos} (hs : s ∈ S)
    (h : InGroup sizeX sizeY board Cell.empty s q) : q ∈ S := by
  induction h with
  | refl => exact hs
  | tail hab hstep ihq =>
    obtain ⟨-, h1, -, h2, h3⟩ := hstep
    exact hcl _ ihq _ h3 h1 h2

theorem borderColor_of_inGroup {sizeX sizeY : Nat} {board m : Board} {s n : Pos}
    {col : Cell} (hg : InGroup sizeX sizeY board Cell.empty s n)
    (h : BorderColor sizeX sizeY board m n col) :
    BorderColor sizeX sizeY board m s col := by
  obtain ⟨hbw, r, q, h1, h2, h3, h4, h5⟩ := h
  exact ⟨hbw, r, q, inGroup_trans hg h1, h2, h3, h4, h5⟩

theorem borderColor_stone_congr {sizeX sizeY : Nat} {board m1 m2 : Board} {s : Pos}
    {col : Cell} (hm : ∀ q, inB sizeX sizeY q = true → board q ≠ Cell.empty →
      m1 q = m2 q) (h : BorderColor sizeX sizeY board m1 s col) :
    BorderColor sizeX sizeY board m2 s col := by
  obtain ⟨hbw, r, q, h1, h2, h3, h4, h5⟩ := h
  exact ⟨hbw, r, q, h1, h2, h3, h4, by rw [← hm q h3 h4]; exact h5⟩

theorem mem_scanOrder {sizeX sizeY : Nat} {p : Pos} :
    p ∈ scanOrder sizeX sizeY ↔ inB sizeX sizeY p = true := by
  constructor
  · intro hp
    rw [scanOrder, List.mem_join] at hp
    obtain ⟨l, hl, hpl⟩ := hp
    obtain ⟨y, hy, rfl⟩ := List.mem_map.mp hl
    obtain ⟨x, hx, rfl⟩ := List.mem_map.mp hpl
    rw [List.mem_range] at hx hy
    simp only [inB, Bool.and_eq_true, decide_eq_true_eq]
    refine ⟨⟨⟨?_, ?_⟩, ?_⟩, ?_⟩ <;> simp [Int.ofNat_eq_natCast] <;> omega
  · intro hp
    simp only [inB, Bool.and_eq_true, decide_eq_true_eq] at hp
    obtain ⟨⟨⟨h1, h2⟩, h3⟩, h4⟩ := hp
    rw [scanOrder, List.mem_join]
    refine ⟨(List.range sizeX).map fun x => (Int.ofNat x, Int.ofNat p.2.toNat), ?_, ?_⟩
    · exact List.mem_map.mpr ⟨p.2.toNat, List.mem_range.mpr (by omega), rfl⟩
    · refine List.mem_map.mpr ⟨p.1.toNat, List.mem_range.mpr (by omega), ?_⟩
      simp only [Prod.ext_iff, Int.ofNat_eq_natCast]
      constructor <;> simp <;> omega

theorem paintRegion_eval (owner : Cell) : ∀ (l : List Pos) (m : Board) (q : Pos),
    paintRegion l owner m q = if q ∈ l then owner else m q := by
  intro l
  induction l with
  | nil => intro m q; simp [paintRegion]
  | cons a l ih =>
    intro m q
    show paintRegion l owner (setCell m a owner) q = _
    rw [ih]
    by_cases hql : q ∈ l
    · rw [if_pos hql, if_pos (List.mem_cons_of_mem _ hql)]
    · rw [if_neg hql, setCell]
      by_cases hqa : q = a
      · rw [if_pos hqa, if_pos (by rw [hqa]; exact List.mem_cons_self _ _)]
      · rw [if_neg hqa, if_neg (by
          intro hc
          rcases List.mem_cons.mp hc with h | h
          · exact hqa h
          · exact hql h)]

theorem targetVal_congr {sizeX sizeY : Nat} {board m1 m2 : Board} {s : Pos}
    {val : Cell} (hm : ∀ q, inB sizeX sizeY q = true → board q ≠ Cell.empty →
      m1 q = m2 q) (h : TargetVal sizeX sizeY board m1 s val) :
    TargetVal sizeX sizeY board m2 s val := by
  have hm' : ∀ q, inB sizeX sizeY q = true → board q ≠ Cell.empty → m2 q = m1 q :=
    fun q h1 h2 => (hm q h1 h2).symm
  have hb : ∀ col, BorderColor sizeX sizeY board m1 s col ↔
      BorderColor sizeX sizeY board m2 s col :=
    fun col => ⟨borderColor_stone_congr hm, borderColor_stone_congr hm'⟩
  rcases h with ⟨h1, h2, h3⟩ | ⟨h1, h2, h3⟩ | ⟨h1, h2⟩
  · exact Or.inl ⟨(hb _).mp h1, fun hc => h2 ((hb _).mpr hc), h3⟩
  · exact Or.inr (Or.inl ⟨(hb _).mp h1, fun hc => h2 ((hb _).mpr hc), h3⟩)
  · exact Or.inr (Or.inr ⟨by rw [← hb Cell.black, ← hb Cell.white]; exact h1, h2⟩)

theorem targetVal_unique {sizeX sizeY : Nat} {board m : Board} {s : Pos}
    {v1 v2 : Cell} (h1 : TargetVal sizeX sizeY board m s v1)
    (h2 : TargetVal sizeX sizeY board m s v2) : v1 = v2 := by
  rcases h1 with ⟨a1, b1, c1⟩ | ⟨a1, b1, c1⟩ | ⟨a1, c1⟩ <;>
    rcases h2 with ⟨a2, b2, c2⟩ | ⟨a2, b2, c2⟩ | ⟨a2, c2⟩ <;>
    subst c1 <;> subst c2 <;> first
      | rfl
      | exact absurd a1 b2
      | exact absurd a2 b1
      | exact absurd (a2.mp a1) b1
      | exact absurd (a2.mpr a1) b1
      | exact absurd (a1.mp a2) b2
      | exact absurd (a1.mpr a2) b2

/-- One step of the outer loop preserves the invariant, only grows the
visited set, and visits the scanned cell when it is empty. -/
theorem assignRegion_inv (sizeX sizeY : Nat) (board m : Board)
    (HR : RegionMap sizeX sizeY board m) (st : Finset Pos × Board) (p : Pos)
    (hb : inB sizeX sizeY p = true) (hI : AssignInv sizeX sizeY board m st) :
    AssignInv sizeX sizeY board m (assignRegion sizeX sizeY board st p) ∧
    st.1 ⊆ (assignRegion sizeX sizeY board st p).1 ∧
    (board p = Cell.empty → p ∈ (assignRegion sizeX sizeY board st p).1) := by
  obtain ⟨hIE, hIcl, hIfr, hItv⟩ := hI
  by_cases hcond : board p = Cell.empty ∧ p ∉ st.1
  case neg =>
    have heq : assignRegion sizeX sizeY board st p = st := by
      rw [assignRegion, if_neg hcond]
    rw [heq]
    refine ⟨⟨hIE, hIcl, hIfr, hItv⟩, le_refl _, ?_⟩
    intro hbe
    by_contra hpv
    exact hcond ⟨hbe, hpv⟩
  case pos =>
  obtain ⟨hbe, hpv⟩ := hcond
  set r := floodLoop sizeX sizeY board st.2 (4 * (sizeX * sizeY) + 2) [p] st.1 [] ∅
    with hrdef
  have hfuel : 4 * unexplored sizeX sizeY st.1 + ([p] : List Pos).length + 1 ≤
      4 * (sizeX * sizeY) + 2 := by
    have := unexplored_le sizeX sizeY st.1
    simp only [List.length_cons, List.length_nil]
    omega
  have hstack : ∀ t ∈ ([p] : List Pos), inB sizeX sizeY t = true ∧
      board t = Cell.empty ∧ InGroup sizeX sizeY board Cell.empty p t := by
    intro t ht
    rw [List.mem_singleton] at ht
    subst ht
    exact ⟨hb, hbe, Relation.ReflTransGen.refl⟩
  have hinv : ∀ w ∈ st.1, ∀ n ∈ nbrs w, inB sizeX sizeY n = true →
      board n = Cell.empty → (n ∈ st.1 ∨ n ∈ ([p] : List Pos)) :=
    fun w hw n hn h1 h2 => Or.inl (hIcl w hw n hn h1 h2)
  obtain ⟨⟨new, hreg, hvis, hprops⟩, hstackvis, hclosure, -, hadjsrc⟩ :=
    floodLoop_spec sizeX sizeY board st.2 p (4 * (sizeX * sizeY) + 2) [p] st.1 [] ∅
      hfuel hstack hinv
  rw [← hrdef] at hreg hvis hprops hstackvis hclosure hadjsrc
  rw [List.nil_append] at hreg
  have hpin : p ∈ r.1 := hstackvis p (List.mem_singleton.mpr rfl)
  have hcomp_sub : ∀ q, InGroup sizeX sizeY board Cell.empty p q → q ∈ r.1 :=
    fun q hq => closed_inGroup sizeX sizeY board r.1 hclosure hpin hq
  have hV_disj : ∀ q, InGroup sizeX sizeY board Cell.empty p q → q ∉ st.1 := by
    intro q hq hqv
    exact hpv (closed_inGroup sizeX sizeY board st.1 hIcl hqv (inGroup_symm hq))
  have hnew_not_old : ∀ x ∈ new, x ∉ st.1 := fun x hx => (hprops x hx).1
  have hcomp_new : ∀ q, InGroup sizeX sizeY board Cell.empty p q → q ∈ new := by
    intro q hq
    have := hcomp_sub q hq
    rw [hvis] at this
    rcases Finset.mem_union.mp this with h | h
    · exact absurd h (hV_disj q hq)
    · exact List.mem_toFinset.mp h
  have hstone : ∀ q, inB sizeX sizeY q = true → board q ≠ Cell.empty →
      st.2 q = m q := by
    intro q h1 h2
    refine hIfr q ?_
    intro hq
    exact h2 (hIE q hq).2
  have hlow : ∀ col, BorderColor sizeX sizeY board m p col → col ∈ r.2.2 := by
    intro col hbc
    obtain ⟨hbw, r', q, hg, hadj, hqb, hqs, hqm⟩ := hbc
    have hr'new : r' ∈ new := hcomp_new r' hg
    obtain ⟨-, -, -, -, hborder⟩ := hprops r' hr'new
    have hst2 : st.2 q = col := by rw [hstone q hqb hqs]; exact hqm
    have := hborder q hadj hqb hqs (by rw [hst2]; exact hbw)
    rw [hst2] at this
    exact this
  have hup : ∀ col ∈ r.2.2, BorderColor sizeX sizeY board m p col := by
    intro col hcol
    rcases hadjsrc col hcol with hmem | ⟨hbw, hsrc⟩
    · simp at hmem
    rcases hsrc with ⟨r', q, hg, hadj, hqb, hqs, hqm⟩ | ⟨n, hnb, hne, hgn, hnm⟩
    · refine ⟨hbw, r', q, hg, hadj, hqb, hqs, ?_⟩
      rw [← hstone q hqb hqs]
      exact hqm
    · have hnv : n ∉ st.1 := hV_disj n hgn
      have hmn : m n = col := by rw [← hIfr n hnv]; exact hnm
      rcases HR n hnb hne with hund | ⟨-, hbcn, -⟩
      · rw [hmn] at hund
        rcases hbw with rfl | rfl <;> simp at hund
      · rw [hmn] at hbcn
        exact borderColor_of_inGroup hgn hbcn
  have hBCsub : ∀ col ∈ r.2.2, col = Cell.black ∨ col = Cell.white :=
    fun col hc => (hup col hc).1
  have hmain : ∀ owner : Cell,
      (∀ x ∈ new, TargetVal sizeX sizeY board m x owner) →
      AssignInv sizeX sizeY board m (r.1, paintRegion r.2.1 owner st.2) := by
    intro owner howner
    refine ⟨?_, ?_, ?_, ?_⟩
    · intro w hw
      rw [hvis] at hw
      rcases Finset.mem_union.mp hw with h | h
      · exact hIE w h
      · obtain ⟨-, h1, h2, -⟩ := hprops w (List.mem_toFinset.mp h)
        exact ⟨h1, h2⟩
    · exact hclosure
    · intro q hq
      rw [hvis, Finset.mem_union] at hq
      push_neg at hq
      have hqnew : q ∉ new := fun hc => hq.2 (List.mem_toFinset.mpr hc)
      show paintRegion r.2.1 owner st.2 q = m q
      rw [paintRegion_eval, hreg, if_neg hqnew]
      exact hIfr q hq.1
    · intro q hq
      rw [hvis, Finset.mem_union] at hq
      show TargetVal sizeX sizeY board m q (paintRegion r.2.1 owner st.2 q)
      rw [paintRegion_eval, hreg]
      rcases hq with h | h
      · rw [if_neg (fun hc => hnew_not_old q hc h)]
        exact hItv q h
      · rw [if_pos (List.mem_toFinset.mp h)]
        exact howner q (List.mem_toFinset.mp h)
  have hsub1 : st.1 ⊆ r.1 := by
    rw [hvis]
    exact Finset.subset_union_left
  by_cases hcard : r.2.2.card = 1
  · have heq : assignRegion sizeX sizeY board st p =
        (r.1, paintRegion r.2.1 (theOwner r.2.2) st.2) := by
      rw [assignRegion, if_pos ⟨hbe, hpv⟩, ← hrdef, if_pos hcard]
    rw [heq]
    obtain ⟨col0, hcol0⟩ := Finset.card_eq_one.mp hcard
    have hcol0mem : col0 ∈ r.2.2 := by rw [hcol0]; exact Finset.mem_singleton_self _
    have hbcp : BorderColor sizeX sizeY board m p col0 := hup col0 hcol0mem
    have hnotother : ∀ col, BorderColor sizeX sizeY board m p col → col = col0 := by
      intro col hc
      have := hlow col hc
      rw [hcol0, Finset.mem_singleton] at this
      exact this
    have howner : ∀ x ∈ new, TargetVal sizeX sizeY board m x (theOwner r.2.2) := by
      intro x hx
      obtain ⟨-, -, -, hgx, -⟩ := hprops x hx
      have hbcx : ∀ col, BorderColor sizeX sizeY board m x col ↔
          BorderColor sizeX sizeY board m p col := by
        intro col
        exact ⟨fun h => borderColor_of_inGroup hgx h,
          fun h => borderColor_of_inGroup (inGroup_symm hgx) h⟩
      rcases hBCsub col0 hcol0mem with rfl | rfl
      · have hto : theOwner r.2.2 = Cell.black := by
          rw [hcol0, theOwner, if_pos (Finset.mem_singleton_self _)]
        rw [hto]
        refine Or.inl ⟨(hbcx _).mpr hbcp, ?_, rfl⟩
        intro hc
        have := hnotother Cell.white ((hbcx _).mp hc)
        simp at this
      · have hto : theOwner r.2.2 = Cell.white := by
          rw [hcol0, theOwner, if_neg (by simp), if_pos (Finset.mem_singleton_self _)]
        rw [hto]
        refine Or.inr (Or.inl ⟨(hbcx _).mpr hbcp, ?_, rfl⟩)
        intro hc
        have := hnotother Cell.black ((hbcx _).mp hc)
        simp at this
    exact ⟨hmain (theOwner r.2.2) howner, hsub1, fun _ => hpin⟩
  · have heq : assignRegion sizeX sizeY board st p =
        (r.1, paintRegion r.2.1 Cell.undecided st.2) := by
      rw [assignRegion, if_pos ⟨hbe, hpv⟩, ← hrdef, if_neg hcard]
    rw [heq]
    have hiff : BorderColor sizeX sizeY board m p Cell.black ↔
        BorderColor sizeX sizeY board m p Cell.white := by
      constructor
      · intro hbl
        by_contra hwh
        refine hcard ?_
        rw [show r.2.2 = {Cell.black} from ?_]
        · exact Finset.card_singleton _
        ext col
        rw [Finset.mem_singleton]
        constructor
        · intro hc
          rcases hBCsub col hc with rfl | rfl
          · rfl
          · exact absurd (hup _ hc) hwh
        · rintro rfl
          exact hlow _ hbl
      · intro hwh
        by_contra hbl
        refine hcard ?_
        rw [show r.2.2 = {Cell.white} from ?_]
        · exact Finset.card_singleton _
        ext col
        rw [Finset.mem_singleton]
        constructor
        · intro hc
          rcases hBCsub col hc with rfl | rfl
          · exact absurd (hup _ hc) hbl
          · rfl
        · rintro rfl
          exact hlow _ hwh
    have howner : ∀ x ∈ new, TargetVal sizeX sizeY board m x Cell.undecided := by
      intro x hx
      obtain ⟨-, -, -, hgx, -⟩ := hprops x hx
      have hbcx : ∀ col, BorderColor sizeX sizeY board m x col ↔
          BorderColor sizeX sizeY board m p col := by
        intro col
        exact ⟨fun h => borderColor_of_inGroup hgx h,
          fun h => borderColor_of_inGroup (inGroup_symm hgx) h⟩
      exact Or.inr (Or.inr ⟨by rw [hbcx Cell.black, hbcx Cell.white]; exact hiff, rfl⟩)
    exact ⟨hmain Cell.undecided howner, hsub1, fun _ => hpin⟩

theorem assign_loop (sizeX sizeY : Nat) (board m : Board)
    (HR : RegionMap sizeX sizeY board m) : ∀ (ps : List Pos)
    (st : Finset Pos × Board), (∀ p ∈ ps, inB sizeX sizeY p = true) →
    AssignInv sizeX sizeY board m st →
    AssignInv sizeX sizeY board m (ps.foldl (assignRegion sizeX sizeY board) st) ∧
    st.1 ⊆ (ps.foldl (assignRegion sizeX sizeY board) st).1 ∧
    (∀ p ∈ ps, board p = Cell.empty →
      p ∈ (ps.foldl (assignRegion sizeX sizeY board) st).1) := by
  intro ps
  induction ps with
  | nil =>
    intro st hps hI
    rw [List.foldl_nil]
    refine ⟨hI, le_refl _, ?_⟩
    intro p hp
    simp at hp
  | cons p ps ih =>
    intro st hps hI
    rw [List.foldl_cons]
    obtain ⟨hI', hsub', hmem'⟩ := assignRegion_inv sizeX sizeY board m HR st p
      (hps p (List.mem_cons_self _ _)) hI
    obtain ⟨hIfin, hsubfin, hmemfin⟩ := ih (assignRegion sizeX sizeY board st p)
      (fun q hq => hps q (List.mem_cons_of_mem _ hq)) hI'
    refine ⟨hIfin, le_trans hsub' hsubfin, ?_⟩
    intro q hq hqe
    rcases List.mem_cons.mp hq with rfl | hq'
    · exact hsubfin (hmem' hqe)
    · exact hmemfin q hq' hqe

/-- Characterisation of a full run of assignTerritoryToEmptyRegions on
a region-consistent map: stone and out-of-bounds cells are unchanged
and every in-bounds empty cell receives its target value. -/
theorem assign_spec (sizeX sizeY : Nat) (board m : Board)
    (HR : RegionMap sizeX sizeY board m) :
    (∀ q, ¬ (inB sizeX sizeY q = true ∧ board q = Cell.empty) →
      assignTerritoryToEmptyRegions sizeX sizeY board m q = m q) ∧
    (∀ q, inB sizeX sizeY q = true → board q = Cell.empty →
      TargetVal sizeX sizeY board m q
        (assignTerritoryToEmptyRegions sizeX sizeY board m q)) := by
  have hI0 : AssignInv sizeX sizeY board m (∅, m) := by
    refine ⟨?_, ?_, ?_, ?_⟩
    · intro w hw; simp at hw
    · intro w hw; simp at hw
    · intro q hq; rfl
    · intro q hq; simp at hq
  obtain ⟨⟨hE, hcl, hfr, htv⟩, -, hmem⟩ := assign_loop sizeX sizeY board m HR
    (scanOrder sizeX sizeY) (∅, m) (fun p hp => mem_scanOrder.mp hp) hI0
  constructor
  · intro q hq
    refine hfr q ?_
    intro hc
    exact hq (hE q hc)
  · intro q h1 h2
    exact htv q (hmem q (mem_scanOrder.mpr h1) h2)

/-- C4: on any territory map produced from the board (empty cells still
unowned, as initializeTerritoryMap produces and toggleGroupStatus
restores), running assignTerritoryToEmptyRegions twice in a row yields
the same map as running it once. -/
theorem C4_assign_idempotent (sizeX sizeY : Nat) (board m : Board)
    (H : ∀ p, inB sizeX sizeY p = true → board p = Cell.empty →
      m p = Cell.undecided) :
    assignTerritoryToEmptyRegions sizeX sizeY board
        (assignTerritoryToEmptyRegions sizeX sizeY board m) =
      assignTerritoryToEmptyRegions sizeX sizeY board m := by
  have HR : RegionMap sizeX sizeY board m := fun p h1 h2 => Or.inl (H p h1 h2)
  obtain ⟨hframe, htarget⟩ := assign_spec sizeX sizeY board m HR
  set m1 := assignTerritoryToEmptyRegions sizeX sizeY board m with hm1def
  have hstone_eq : ∀ q, inB sizeX sizeY q = true → board q ≠ Cell.empty →
      m1 q = m q := fun q h1 h2 => hframe q (fun hc => h2 hc.2)
  have hstone_eq' : ∀ q, inB sizeX sizeY q = true → board q ≠ Cell.empty →
      m q = m1 q := fun q h1 h2 => (hstone_eq q h1 h2).symm
  have HR1 : RegionMap sizeX sizeY board m1 := by
    intro p h1 h2
    rcases htarget p h1 h2 with ⟨ha, hb', hc⟩ | ⟨ha, hb', hc⟩ | ⟨ha, hc⟩
    · refine Or.inr ⟨Or.inl hc, ?_, ?_⟩
      · rw [hc]
        exact borderColor_stone_congr hstone_eq' ha
      · intro col hcol
        have hcol' := borderColor_stone_congr hstone_eq hcol
        rcases hcol'.1 with rfl | rfl
        · rw [hc]
        · exact absurd hcol' hb'
    · refine Or.inr ⟨Or.inr hc, ?_, ?_⟩
      · rw [hc]
        exact borderColor_stone_congr hstone_eq' ha
      · intro col hcol
        have hcol' := borderColor_stone_congr hstone_eq hcol
        rcases hcol'.1 with rfl | rfl
        · exact absurd hcol' hb'
        · rw [hc]
    · exact Or.inl hc
  obtain ⟨hframe1, htarget1⟩ := assign_spec sizeX sizeY board m1 HR1
  funext q
  by_cases hq : inB sizeX sizeY q = true ∧ board q = Cell.empty
  · have t1 : TargetVal sizeX sizeY board m q (m1 q) := htarget q hq.1 hq.2
    have t2 : TargetVal sizeX sizeY board m1 q
        (assignTerritoryToEmptyRegions sizeX sizeY board m1 q) :=
      htarget1 q hq.1 hq.2
    have t2' : TargetVal sizeX sizeY board m q
        (assignTerritoryToEmptyRegions sizeX sizeY board m1 q) :=
      targetVal_congr hstone_eq t2
    exact targetVal_unique t2' t1
  · exact hframe1 q hq

/-- Witness for C4 on the 1 by 1 empty board with the all-unowned map. -/
theorem C4_assign_idempotent_witness :
    (∀ p : Pos, inB 1 1 p = true → (fun _ => Cell.empty : Board) p = Cell.empty →
      (fun _ => Cell.undecided : Board) p = Cell.undecided) ∧
    assignTerritoryToEmptyRegions 1 1 (fun _ => Cell.empty)
        (assignTerritoryToEmptyRegions 1 1 (fun _ => Cell.empty)
          (fun _ => Cell.undecided)) =
      assignTerritoryToEmptyRegions 1 1 (fun _ => Cell.empty)
        (fun _ => Cell.undecided) :=
  ⟨fun _ _ _ => rfl,
    C4_assign_idempotent 1 1 (fun _ => Cell.empty) (fun _ => Cell.undecided)
      (fun _ _ _ => rfl)⟩

theorem togglePush_cases (sizeX sizeY : Nat) (board : Board) (o : Cell)
    (v : Finset Pos) (c : Pos) (s : List Pos) (d : Int × Int) :
    togglePush sizeX sizeY board o v c s d = s ∨
    (togglePush sizeX sizeY board o v c s d = (c.1 + d.1, c.2 + d.2) :: s ∧
      inB sizeX sizeY (c.1 + d.1, c.2 + d.2) = true ∧
      (c.1 + d.1, c.2 + d.2) ∉ v ∧
      (board (c.1 + d.1, c.2 + d.2) = o ∨
        board (c.1 + d.1, c.2 + d.2) = Cell.empty)) := by
  unfold togglePush
  by_cases h1 : inB sizeX sizeY (c.1 + d.1, c.2 + d.2) = true
  · rw [if_pos h1]
    by_cases h2 : (c.1 + d.1, c.2 + d.2) ∉ v ∧
        (board (c.1 + d.1, c.2 + d.2) = o ∨ board (c.1 + d.1, c.2 + d.2) = Cell.empty)
    · rw [if_pos h2]
      exact Or.inr ⟨rfl, h1, h2.1, h2.2⟩
    · rw [if_neg h2]
      exact Or.inl rfl
  · rw [if_neg h1]
    exact Or.inl rfl

theorem togglePushes_mono (sizeX sizeY : Nat) (board : Board) (o : Cell)
    (v : Finset Pos) (c : Pos) (ds : List (Int × Int)) :
    ∀ (s : List Pos) (x : Pos), x ∈ s →
    x ∈ ds.foldl (togglePush sizeX sizeY board o v c) s := by
  induction ds with
  | nil => intro s x hx; exact hx
  | cons d ds ih =>
    intro s x hx
    rw [List.foldl_cons]
    refine ih _ x ?_
    rcases togglePush_cases sizeX sizeY board o v c s d with h | ⟨h, -⟩
    · rw [h]; exact hx
    · rw [h]; exact List.mem_cons_of_mem _ hx

theorem togglePushes_src (sizeX sizeY : Nat) (board : Board) (o : Cell)
    (v : Finset Pos) (c : Pos) (ds : List (Int × Int)) :
    ∀ (s : List Pos) (x : Pos),
    x ∈ ds.foldl (togglePush sizeX sizeY board o v c) s →
    x ∈ s ∨ ∃ d ∈ ds, x = (c.1 + d.1, c.2 + d.2) ∧ inB sizeX sizeY x = true ∧
      x ∉ v ∧ (board x = o ∨ board x = Cell.empty) := by
  induction ds with
  | nil => intro s x hx; exact Or.inl hx
  | cons d ds ih =>
    intro s x hx
    rw [List.foldl_cons] at hx
    rcases ih _ x hx with hx' | ⟨d', hd', he⟩
    · rcases togglePush_cases sizeX sizeY board o v c s d with h | ⟨h, h1, h2, h3⟩
      · rw [h] at hx'; exact Or.inl hx'
      · rw [h] at hx'
        rcases List.mem_cons.mp hx' with rfl | hmem
        · exact Or.inr ⟨d, List.mem_cons_self _ _, rfl, h1, h2, h3⟩
        · exact Or.inl hmem
    · exact Or.inr ⟨d', List.mem_cons_of_mem _ hd', he⟩

theorem togglePushes_len (sizeX sizeY : Nat) (board : Board) (o : Cell)
    (v : Finset Pos) (c : Pos) (ds : List (Int × Int)) :
    ∀ (s : List Pos),
    (ds.foldl (togglePush sizeX sizeY board o v c) s).length ≤
      s.length + ds.length := by
  induction ds with
  | nil => intro s; simp
  | cons d ds ih =>
    intro s
    rw [List.foldl_cons]
    refine le_trans (ih _) ?_
    rcases togglePush_cases sizeX sizeY board o v c s d with h | ⟨h, -⟩
    · rw [h]; simp only [List.length_cons]; omega
    · rw [h]; simp only [List.length_cons]; omega

theorem togglePushes_push (sizeX sizeY : Nat) (board : Board) (o : Cell)
    (v : Finset Pos) (c : Pos) (ds : List (Int × Int)) :
    ∀ (s : List Pos) (d : Int × Int), d ∈ ds →
    inB sizeX sizeY (c.1 + d.1, c.2 + d.2) = true →
    (c.1 + d.1, c.2 + d.2) ∉ v →
    (board (c.1 + d.1, c.2 + d.2) = o ∨ board (c.1 + d.1, c.2 + d.2) = Cell.empty) →
    (c.1 + d.1, c.2 + d.2) ∈ ds.foldl (togglePush sizeX sizeY board o v c) s := by
  induction ds with
  | nil => intro s d hd; simp at hd
  | cons d0 ds ih =>
    intro s d hd h1 h2 h3
    rw [List.foldl_cons]
    rcases List.mem_cons.mp hd with rfl | hmem
    · refine togglePushes_mono sizeX sizeY board o v c ds _ _ ?_
      have hp : togglePush sizeX sizeY board o v c s d = (c.1 + d.1, c.2 + d.2) :: s := by
        unfold togglePush
        rw [if_pos h1, if_pos ⟨h2, h3⟩]
      rw [hp]
      exact List.mem_cons_self _ _
    · exact ih _ d hmem h1 h2 h3

/-- Full characterisation of the toggleGroupStatus flood: the final
visited set extends the input set exactly by toggled-group cells, is
closed under the toggle adjacency, absorbs the stack, and the map is
the input map with every newly visited original-owner stone set to the
new owner. -/
theorem toggleLoop_spec (sizeX sizeY : Nat) (board : Board) (o newOwner : Cell)
    (s : Pos) : ∀ (fuel : Nat) (stack : List Pos) (visited : Finset Pos) (m : Board),
    4 * unexplored sizeX sizeY visited + stack.length + 1 ≤ fuel →
    (∀ t ∈ stack, inB sizeX sizeY t = true ∧
      (board t = o ∨ board t = Cell.empty) ∧ TConn sizeX sizeY board o s t) →
    (∀ w ∈ visited, ∀ n ∈ nbrs w, inB sizeX sizeY n = true →
      (board n = o ∨ board n = Cell.empty) → (n ∈ visited ∨ n ∈ stack)) →
    (visited ⊆ (toggleLoop sizeX sizeY board o newOwner fuel stack visited m).1) ∧
    (∀ q ∈ (toggleLoop sizeX sizeY board o newOwner fuel stack visited m).1,
      q ∈ visited ∨ (inB sizeX sizeY q = true ∧
        (board q = o ∨ board q = Cell.empty) ∧ TConn sizeX sizeY board o s q)) ∧
    (∀ t ∈ stack, t ∈ (toggleLoop sizeX sizeY board o newOwner fuel stack visited m).1) ∧
    (∀ w ∈ (toggleLoop sizeX sizeY board o newOwner fuel stack visited m).1,
      ∀ n ∈ nbrs w, inB sizeX sizeY n = true →
      (board n = o ∨ board n = Cell.empty) →
      n ∈ (toggleLoop sizeX sizeY board o newOwner fuel stack visited m).1) ∧
    (∀ q, (toggleLoop sizeX sizeY board o newOwner fuel stack visited m).2 q =
      if q ∈ (toggleLoop sizeX sizeY board o newOwner fuel stack visited m).1 ∧
          q ∉ visited ∧ board q = o
        then newOwner else m q) := by
  intro fuel
  induction fuel with
  | zero => intro stack visited m hfuel; omega
  | succ fuel ih =>
    intro stack visited m hfuel hstack hinv
    rcases stack with - | ⟨c, rest⟩
    · have heq : toggleLoop sizeX sizeY board o newOwner (fuel + 1) [] visited m =
          (visited, m) := rfl
      rw [heq]
      refine ⟨le_refl _, fun q hq => Or.inl hq, by simp, ?_, ?_⟩
      · intro w hw n hn h1 h2
        rcases hinv w hw n hn h1 h2 with h | h
        · exact h
        · simp at h
      · intro q
        rw [if_neg (fun hc => hc.2.1 hc.1)]
    · by_cases hc : c ∈ visited
      · have heq : toggleLoop sizeX sizeY board o newOwner (fuel + 1)
            (c :: rest) visited m =
            toggleLoop sizeX sizeY board o newOwner fuel rest visited m := by
          rw [toggleLoop, if_pos hc]
        rw [heq]
        have hfuel' : 4 * unexplored sizeX sizeY visited + rest.length + 1 ≤ fuel := by
          simp only [List.length_cons] at hfuel; omega
        have hstack' : ∀ t ∈ rest, inB sizeX sizeY t = true ∧
            (board t = o ∨ board t = Cell.empty) ∧ TConn sizeX sizeY board o s t :=
          fun t ht => hstack t (List.mem_cons_of_mem _ ht)
        have hinv' : ∀ w ∈ visited, ∀ n ∈ nbrs w, inB sizeX sizeY n = true →
            (board n = o ∨ board n = Cell.empty) → (n ∈ visited ∨ n ∈ rest) := by
          intro w hw n hn h1 h2
          rcases hinv w hw n hn h1 h2 with h | h
          · exact Or.inl h
          · rcases List.mem_cons.mp h with rfl | h'
            · exact Or.inl hc
            · exact Or.inr h'
        obtain ⟨hs1, hs2, hs3, hs4, hs5⟩ := ih rest visited m hfuel' hstack' hinv'
        refine ⟨hs1, hs2, ?_, hs4, hs5⟩
        intro t ht
        rcases List.mem_cons.mp ht with rfl | ht'
        · exact hs1 hc
        · exact hs3 t ht'
      · obtain ⟨hb, hoe, htc⟩ := hstack c (List.mem_cons_self _ _)
        set v' := insert c visited with hvPdef
        set m' := if board c = o then setCell m c newOwner else m with hmPdef
        set stack' := dirs.foldl (togglePush sizeX sizeY board o v' c) rest
          with hstack'def
        have heq : toggleLoop sizeX sizeY board o newOwner (fuel + 1)
            (c :: rest) visited m =
            toggleLoop sizeX sizeY board o newOwner fuel stack' v' m' := by
          rw [toggleLoop, if_neg hc]
        rw [heq]
        have hu : unexplored sizeX sizeY v' + 1 = unexplored sizeX sizeY visited :=
          unexplored_insert hb hc
        have hlen : stack'.length ≤ rest.length + 4 := by
          have := togglePushes_len sizeX sizeY board o v' c dirs rest
          simpa [dirs] using this
        have hfuel' : 4 * unexplored sizeX sizeY v' + stack'.length + 1 ≤ fuel := by
          simp only [List.length_cons] at hfuel; omega
        have hstack2 : ∀ t ∈ stack', inB sizeX sizeY t = true ∧
            (board t = o ∨ board t = Cell.empty) ∧ TConn sizeX sizeY board o s t := by
          intro t ht
          rcases togglePushes_src sizeX sizeY board o v' c dirs rest t ht with
            ht' | ⟨d, hd, rfl, h1, h2, h3⟩
          · exact hstack t (List.mem_cons_of_mem _ ht')
          · exact ⟨h1, h3, Relation.ReflTransGen.tail htc
              ⟨hb, h1, hoe, h3, adj_dir c d hd⟩⟩
        have hinv2 : ∀ w ∈ v', ∀ n ∈ nbrs w, inB sizeX sizeY n = true →
            (board n = o ∨ board n = Cell.empty) → (n ∈ v' ∨ n ∈ stack') := by
          intro w hw n hn h1 h2
          rcases Finset.mem_insert.mp hw with rfl | hw'
          · by_cases hnv : n ∈ v'
            · exact Or.inl hnv
            · obtain ⟨d, hd, rfl⟩ := List.mem_map.mp hn
              exact Or.inr (togglePushes_push sizeX sizeY board o v' w dirs rest
                d hd h1 hnv h2)
          · rcases hinv w hw' n hn h1 h2 with h | h
            · exact Or.inl (Finset.mem_insert_of_mem h)
            · rcases List.mem_cons.mp h with rfl | h'
              · exact Or.inl (Finset.mem_insert_self _ _)
              · exact Or.inr (togglePushes_mono sizeX sizeY board o v' c dirs rest n h')
        obtain ⟨hs1, hs2, hs3, hs4, hs5⟩ := ih stack' v' m' hfuel' hstack2 hinv2
        have hsubv : visited ⊆
            (toggleLoop sizeX sizeY board o newOwner fuel stack' v' m').1 :=
          fun q hq => hs1 (Finset.mem_insert_of_mem hq)
        have hcin : c ∈ (toggleLoop sizeX sizeY board o newOwner fuel stack' v' m').1 :=
          hs1 (Finset.mem_insert_self _ _)
        refine ⟨hsubv, ?_, ?_, hs4, ?_⟩
        · intro q hq
          rcases hs2 q hq with h | h
          · rcases Finset.mem_insert.mp h with rfl | h'
            · exact Or.inr ⟨hb, hoe, htc⟩
            · exact Or.inl h'
          · exact Or.inr h
        · intro t ht
          rcases List.mem_cons.mp ht with rfl | ht'
          · exact hcin
          · exact hs3 t (togglePushes_mono sizeX sizeY board o v' c dirs rest t ht')
        · intro q
          rw [hs5 q]
          by_cases hq1 : q ∈ (toggleLoop sizeX sizeY board o newOwner fuel stack' v' m').1
          · by_cases hqc : q = c
            · subst hqc
              rw [if_neg (fun hcon => hcon.2.1 (Finset.mem_insert_self _ _))]
              by_cases hqo : board q = o
              · rw [if_pos ⟨hq1, hc, hqo⟩, hmPdef, if_pos hqo, setCell_self]
              · rw [if_neg (fun hcon => hqo hcon.2.2), hmPdef]
                by_cases hbc : board q = o
                · exact absurd hbc hqo
                · rw [if_neg hbc]
            · have hvPiff : q ∉ v' ↔ q ∉ visited := by
                rw [hvPdef]
                simp only [Finset.mem_insert, not_or]
                constructor
                · exact fun h => h.2
                · exact fun h => ⟨hqc, h⟩
              have hmPq : m' q = m q := by
                rw [hmPdef]
                by_cases hbc : board c = o
                · rw [if_pos hbc, setCell, if_neg hqc]
                · rw [if_neg hbc]
              rw [hmPq]
              by_cases hq2 : q ∉ visited ∧ board q = o
              · rw [if_pos ⟨hq1, hvPiff.mpr hq2.1, hq2.2⟩, if_pos ⟨hq1, hq2.1, hq2.2⟩]
              · rw [if_neg (fun hcon => hq2 ⟨hvPiff.mp hcon.2.1, hcon.2.2⟩),
                  if_neg (fun hcon => hq2 ⟨hcon.2.1, hcon.2.2⟩)]
          · have hmPq : m' q = m q := by
              rw [hmPdef]
              have hqc : q ≠ c := fun hcon => hq1 (hcon ▸ hcin)
              by_cases hbc : board c = o
              · rw [if_pos hbc, setCell, if_neg hqc]
              · rw [if_neg hbc]
            rw [if_neg (fun hcon => hq1 hcon.1), if_neg (fun hcon => hq1 hcon.1), hmPq]

theorem closed_tconn (sizeX sizeY : Nat) (board : Board) (o : Cell) (S : Finset Pos)
    (hcl : ∀ w ∈ S, ∀ n ∈ nbrs w, inB sizeX sizeY n = true →
      (board n = o ∨ board n = Cell.empty) → n ∈ S)
    {s q : Pos} (hs : s ∈ S) (h : TConn sizeX sizeY board o s q) : q ∈ S := by
  induction h with
  | refl => exact hs
  | tail hab hstep ihq =>
    obtain ⟨-, h1, -, h2, h3⟩ := hstep
    exact hcl _ ihq _ h3 h1 h2

/-- C5 (amended): toggleGroupStatus flips every stone of the toggled
group (cells connected to the seed through stones of the seed's colour
and empty cells) to the opposite of the owner the seed stone had in
the map before the call, and leaves the map ownership of every stone
outside the toggled group unchanged. -/
theorem C5_toggle_group_owner (sizeX sizeY : Nat) (board m : Board) (x y : Int)
    (hb : inB sizeX sizeY (x, y) = true)
    (ho : board (x, y) = Cell.black ∨ board (x, y) = Cell.white) :
    (∀ w, TConn sizeX sizeY board (board (x, y)) (x, y) w →
      board w = board (x, y) →
      toggleGroupStatus sizeX sizeY board m x y w = switchPlayer (m (x, y))) ∧
    (∀ w, board w ≠ Cell.empty →
      ¬ TConn sizeX sizeY board (board (x, y)) (x, y) w →
      toggleGroupStatus sizeX sizeY board m x y w = m w) := by
  set o := board (x, y) with hodef
  have hno : ¬ (o ≠ Cell.black ∧ o ≠ Cell.white) := by
    rcases ho with h | h
    · exact fun hc => hc.1 h
    · exact fun hc => hc.2 h
  have hone : o ≠ Cell.empty := by
    rcases ho with h | h <;> rw [h] <;> simp
  set r := toggleLoop sizeX sizeY board o (switchPlayer (m (x, y)))
    (4 * (sizeX * sizeY) + 2) [(x, y)] ∅ m with hrdef
  set m2 : Board := fun q =>
    if inB sizeX sizeY q = true ∧ board q = Cell.empty then Cell.undecided
    else r.2 q with hm2def
  have heq : toggleGroupStatus sizeX sizeY board m x y =
      assignTerritoryToEmptyRegions sizeX sizeY board m2 := by
    rw [toggleGroupStatus]
    dsimp only
    rw [← hodef, if_neg hno, ← hrdef]
  have hfuel : 4 * unexplored sizeX sizeY (∅ : Finset Pos) +
      ([(x, y)] : List Pos).length + 1 ≤ 4 * (sizeX * sizeY) + 2 := by
    have := unexplored_le sizeX sizeY (∅ : Finset Pos)
    simp only [List.length_cons, List.length_nil]
    omega
  have hstack : ∀ t ∈ ([(x, y)] : List Pos), inB sizeX sizeY t = true ∧
      (board t = o ∨ board t = Cell.empty) ∧
      TConn sizeX sizeY board o (x, y) t := by
    intro t ht
    rw [List.mem_singleton] at ht
    subst ht
    exact ⟨hb, Or.inl hodef.symm, Relation.ReflTransGen.refl⟩
  have hinv : ∀ w ∈ (∅ : Finset Pos), ∀ n ∈ nbrs w, inB sizeX sizeY n = true →
      (board n = o ∨ board n = Cell.empty) →
      (n ∈ (∅ : Finset Pos) ∨ n ∈ ([(x, y)] : List Pos)) := by
    intro w hw
    simp at hw
  obtain ⟨-, hsound, hstackin, hclosed, hmap⟩ :=
    toggleLoop_spec sizeX sizeY board o (switchPlayer (m (x, y))) (x, y)
      (4 * (sizeX * sizeY) + 2) [(x, y)] ∅ m hfuel hstack hinv
  rw [← hrdef] at hsound hstackin hclosed hmap
  have hseed : (x, y) ∈ r.1 := hstackin _ (List.mem_singleton.mpr rfl)
  have hcompl : ∀ q, TConn sizeX sizeY board o (x, y) q → q ∈ r.1 :=
    fun q hq => closed_tconn sizeX sizeY board o r.1 hclosed hseed hq
  have HR2 : RegionMap sizeX sizeY board m2 := by
    intro p h1 h2
    refine Or.inl ?_
    rw [hm2def]
    show (if inB sizeX sizeY p = true ∧ board p = Cell.empty
      then Cell.undecided else r.2 p) = Cell.undecided
    rw [if_pos ⟨h1, h2⟩]
  obtain ⟨hframe, -⟩ := assign_spec sizeX sizeY board m2 HR2
  constructor
  · intro w hw hwo
    rw [heq]
    have hwne : board w ≠ Cell.empty := by rw [hwo]; exact hone
    rw [hframe w (fun hc => hwne hc.2), hm2def]
    show (if inB sizeX sizeY w = true ∧ board w = Cell.empty
      then Cell.undecided else r.2 w) = _
    rw [if_neg (fun hc => hwne hc.2), hmap w,
      if_pos ⟨hcompl w hw, Finset.not_mem_empty w, hwo.trans hodef.symm⟩]
  · intro w hwne hwt
    rw [heq]
    rw [hframe w (fun hc => hwne hc.2), hm2def]
    show (if inB sizeX sizeY w = true ∧ board w = Cell.empty
      then Cell.undecided else r.2 w) = _
    rw [if_neg (fun hc => hwne hc.2), hmap w, if_neg]
    rintro ⟨hw1, -, -⟩
    rcases hsound w hw1 with h | h
    · simp at h
    · exact hwt h.2.2

/-- C5 (counterexample to the claim as stated): toggling at (0, 0)
reaches the stone (2, 0) through the empty cell, yet that stone's new
owner is white, not the opposite of the white owner it had in the map
before the call: all toggled stones receive the switched owner of the
seed, not of themselves. -/
theorem C5_toggle_counterexample :
    TConn 3 1 toggleBoardCE Cell.black (0, 0) (2, 0) ∧
    toggleBoardCE (2, 0) = toggleBoardCE (0, 0) ∧
    toggleMapCE (2, 0) = Cell.white ∧
    toggleGroupStatus 3 1 toggleBoardCE toggleMapCE 0 0 (2, 0) = Cell.white ∧
    toggleGroupStatus 3 1 toggleBoardCE toggleMapCE 0 0 (2, 0) ≠
      switchPlayer (toggleMapCE (2, 0)) := by
  refine ⟨?_, by decide, by decide, by decide, by decide⟩
  have h1 : TStep 3 1 toggleBoardCE Cell.black (0, 0) (1, 0) :=
    ⟨by decide, by decide, by decide, by decide,
      by show ((1 : Int), (0 : Int)) ∈ nbrs (0, 0); decide⟩
  have h2 : TStep 3 1 toggleBoardCE Cell.black (1, 0) (2, 0) :=
    ⟨by decide, by decide, by decide, by decide,
      by show ((2 : Int), (0 : Int)) ∈ nbrs (1, 0); decide⟩
  exact Relation.ReflTransGen.tail
    (Relation.ReflTransGen.tail Relation.ReflTransGen.refl h1) h2

/-- Witness for the amended C5 on the concrete 3 by 1 board. -/
theorem C5_toggle_group_owner_witness :
    inB 3 1 ((0 : Int), (0 : Int)) = true ∧
    (toggleBoardCE (0, 0) = Cell.black ∨ toggleBoardCE (0, 0) = Cell.white) ∧
    ((∀ w, TConn 3 1 toggleBoardCE (toggleBoardCE (0, 0)) (0, 0) w →
      toggleBoardCE w = toggleBoardCE (0, 0) →
      toggleGroupStatus 3 1 toggleBoardCE toggleMapCE 0 0 w =
        switchPlayer (toggleMapCE (0, 0))) ∧
    (∀ w, toggleBoardCE w ≠ Cell.empty →
      ¬ TConn 3 1 toggleBoardCE (toggleBoardCE (0, 0)) (0, 0) w →
      toggleGroupStatus 3 1 toggleBoardCE toggleMapCE 0 0 w = toggleMapCE w)) :=
  ⟨by decide, Or.inl (by decide),
    C5_toggle_group_owner 3 1 toggleBoardCE toggleMapCE 0 0 (by decide)
      (Or.inl (by decide))⟩

/-- C3: the round-trip law fails. Serialising rtTree and rebuilding
from the parse succeeds, and the comment survives with its escaping,
but the rebuilt main-line child has lost its triangle annotation and
its added-white setup marker, because processMainLine never copies
CR, SQ, TR, MA or LB and never calls addWhiteStone. -/
theorem C3_roundtrip_drops_mainline_marks :
    rtC1.TR (1, 1) = true ∧ rtC1.addedWhite (2, 2) = true ∧
    rtC1.comment = "a]b\\c" ∧
    (importFromSGF freshGame19 (generateSGF 99 rtTree true 5 5)).1 = none ∧
    ((impGet (importFromSGF freshGame19
        (generateSGF 99 rtTree true 5 5)).2.rootNode [0]).map
      fun n => (n.TR (1, 1), n.addedWhite (2, 2), n.comment)) =
      some (false, false, "a]b\\c") := by
  refine ⟨rfl, rfl, rfl, ?_, ?_⟩ <;> decide

/-- C6: importing a record with SZ = 60 fails with the oversize error,
yet the game dimensions have already been overwritten with 60 when the
error returns: the state is mutated by the failed import. -/
theorem C6_oversized_import_mutates_state :
    (importFromSGF freshGame19 "(;SZ[60])").1 =
      some "board size exceeds maximum allowed size of 52" ∧
    (importFromSGF freshGame19 "(;SZ[60])").2.sizeX = 60 ∧
    (importFromSGF freshGame19 "(;SZ[60])").2.sizeY = 60 ∧
    freshGame19.sizeX = 19 ∧ freshGame19.sizeY = 19 ∧
    (importFromSGF freshGame19 "(;SZ[60])").2.sizeX ≠ freshGame19.sizeX := by
  refine ⟨?_, ?_, ?_, rfl, rfl, ?_⟩ <;> decide

theorem validateScan_none_iff : ∀ (cs : List Char) (i : Nat) (d : Int), 0 ≤ d →
    (validateScan cs i d = none ↔ parenScanOk cs d = true) := by
  intro cs
  induction cs with
  | nil =>
    intro i d hd
    show (if d ≠ 0 then some "unmatched open paren in SGF content" else none) =
        none ↔ decide (d = 0) = true
    by_cases h : d = 0
    · rw [if_neg (not_not_intro h)]
      simp [h]
    · rw [if_pos h]
      simp [h]
  | cons c cs ih =>
    intro i d hd
    by_cases h1 : c = '('
    · show validateScan (c :: cs) i d = none ↔ parenScanOk (c :: cs) d = true
      rw [validateScan, parenScanOk, if_pos h1, if_pos h1]
      exact ih (i + 1) (d + 1) (by omega)
    · by_cases h2 : c = ')'
      · show validateScan (c :: cs) i d = none ↔ parenScanOk (c :: cs) d = true
        rw [validateScan, parenScanOk, if_neg h1, if_neg h1, if_pos h2, if_pos h2]
        by_cases h3 : d ≤ 0
        · rw [if_pos h3]
          have : ¬ (0 < d) := by omega
          simp [this]
        · rw [if_neg h3]
          have hlt : (0 : Int) < d := by omega
          simp only [decide_eq_true_eq] at *
          rw [decide_eq_true hlt, Bool.true_and]
          exact ih (i + 1) (d - 1) (by omega)
      · show validateScan (c :: cs) i d = none ↔ parenScanOk (c :: cs) d = true
        rw [validateScan, parenScanOk, if_neg h1, if_neg h1, if_neg h2, if_neg h2]
        exact ih (i + 1) d hd

/-- C7 (amended): parsing is two passes, but the first pass checks
parentheses only: validateSGF succeeds exactly on parenthesis-balanced
input, and whenever it fails parseSGF returns that unmatched error
without structural parsing. Bracket balance is not checked. -/
theorem C7_validate_parens_only (s : String) :
    (validateSGF s = none ↔ parenScanOk s.toList 0 = true) ∧
    (∀ e, validateSGF s = some e → parseSGF s = .error e) ∧
    (validateSGF s ≠ none → ∃ e, parseSGF s = .error e) := by
  refine ⟨validateScan_none_iff s.toList 0 0 (by omega), ?_, ?_⟩
  · intro e he
    rw [parseSGF, he]
  · intro hne
    rcases hv : validateSGF s with - | e
    · exact absurd hv hne
    · exact ⟨e, by rw [parseSGF, hv]⟩

/-- C7 (counterexample to the claim as stated): the input consisting of
one close bracket has unbalanced brackets, yet parseSGF succeeds (the
structural pass runs and yields the empty collection) instead of
returning an unmatched error: the first pass validates parentheses
only. -/
theorem C7_counterexample_brackets :
    bracketScanOk ("]".toList) 0 = false ∧
    (parseSGF "]").toOption.map List.length = some 0 := by
  constructor
  · decide
  · decide

/-- Witness for the amended C7 at a paren-unbalanced input. -/
theorem C7_validate_parens_only_witness :
    parenScanOk ("(()".toList) 0 = false ∧
    validateSGF "(()" = some "unmatched open paren in SGF content" ∧
    parseSGF "(()" = .error "unmatched open paren in SGF content" :=
  ⟨by decide, by decide,
    (C7_validate_parens_only "(()").2.1 "unmatched open paren in SGF content"
      (by decide)⟩
